import Mathlib

/-!
# The observer of `src/core/observer`

A shallow embedding of `observer/index.js` (`Observer`, `observe`,
`defineReactive`, `set`, `del`, `dependArray`) and `observer/array.js`
(the seven intercepted array methods), with the theorems that settle the
statements of the specification about them.

Modelling conventions

* A JavaScript value is a `Val`; objects live in a heap and are named by their
  address.  Numbers are integers or `NaN`.
* An array is its list of elements; a hole reads as `undefined`; the elements
  of an array are writable and configurable (no array is sealed or frozen), but
  an array may have been made non-extensible.  A method of the platform that
  would let an array grow throws a `TypeError` on an array that is not
  extensible and a `RangeError` beyond the length `2^32 - 1`.
* Objects inherit from `Object.prototype` (arrays from `Array.prototype`);
  what an object inherits from further prototypes (a component instance from
  `Vue.prototype`, an object made by `Object.create(proto)` from `proto`) is
  held by name: `Obj.inherited` for writable data properties, which an
  assignment shadows, and `Obj.inheritedFixed` for accessors and read-only
  properties, an assignment to which is outside the model (`Err.unsupported`).
  The value of an inherited member is no value of the model and reads as
  `undefined`.
* The hidden `__ob__` tag, the `_isVue` flag and the `length` of an array are
  dedicated fields; `Key.reserved` names are not addressed as property keys.
  A name that may read as a number (it does not begin with a letter, `_` or
  `$`) is reserved too: numbers are the keys `Key.index`.
* Accessor properties that exist before instrumentation read and write external
  storage cells (`State.cells`), or are the accessor pair of an earlier
  reactive slot.
* The module is an ES module, hence strict code: a failed assignment,
  definition or deletion throws.
* `Dep` (`./dep`) is not part of the sources; `depend` and `notify` are
  recorded as events of a trace.
-/

namespace Vue

/-! ## Values, keys, descriptors -/

/-- JavaScript values. `ref a` is the object stored at heap address `a`. -/
inductive Val where
  | undefined
  | null
  | bool (b : Bool)
  | num (n : Int)
  | nan
  | str (s : String)
  | ref (a : Nat)
  deriving DecidableEq, Repr

/-- Property keys: `index n` is the number `n` (or its canonical string),
`name s` any other property name. -/
inductive Key where
  | index (n : Nat)
  | name (s : String)
  deriving DecidableEq, Repr

/-- What a JavaScript exception (or an exhausted recursion budget) looks like. -/
inductive Err where
  | fuel
  | typeError
  | rangeError
  | unsupported
  deriving DecidableEq, Repr

deriving instance DecidableEq for Except

/-- An Observer instance: the value it is attached to and the uid of its `dep`.
Its mutable `vmCount` is kept with the tag on the value. -/
structure Observer where
  value : Nat
  dep : Nat
  deriving DecidableEq, Repr

/-- The variables a `reactiveGetter`/`reactiveSetter` pair closes over. -/
structure Closure where
  dep : Nat
  val : Val
  childOb : Option Observer
  shallow : Bool
  customSetter : Bool
  deriving DecidableEq, Repr

/-- A reactive slot: its closure and the accessor pair it wraps
(`property.get`, `property.set`). `base` wraps external accessors (a getter
reading cell `g`, a setter writing cell `st`) or nothing; `wrap` wraps the
accessor pair of an earlier reactive slot. -/
inductive Slot where
  | base (c : Closure) (getter : Option Nat) (setter : Option Nat)
  | wrap (c : Closure) (inner : Slot)
  deriving DecidableEq, Repr

/-- The three shapes of an own property. -/
inductive Body where
  | data (value : Val) (writable : Bool)
  | accessor (get : Option Nat) (set : Option Nat)
  | reactive (slot : Slot)
  deriving DecidableEq, Repr

/-- A property descriptor. -/
structure Desc where
  body : Body
  enumerable : Bool
  configurable : Bool
  deriving DecidableEq, Repr

/-- What `Array.isArray`, `isPlainObject` and `instanceof VNode` tell apart. -/
inductive Kind where
  | plain
  | array
  | vnode
  | other
  deriving DecidableEq, Repr

/-- The own `__ob__` property of an observed value. -/
structure Tag where
  dep : Nat
  vmCount : Nat
  deriving DecidableEq, Repr

/-- A heap object. `inherited` holds the names of the writable data properties
the object inherits from prototypes other than `Object.prototype` and
`Array.prototype` (the methods of `Vue.prototype` on a component instance),
`inheritedFixed` the names of the other members it inherits from them
(accessors such as `$data`, read-only properties). -/
structure Obj where
  kind : Kind
  extensible : Bool
  isVue : Bool
  props : List (Key × Desc)
  elems : List Val
  ob : Option Tag
  augmented : Bool
  inherited : List Key
  inheritedFixed : List Key
  deriving DecidableEq, Repr

/-- Observable events. -/
inductive Event where
  | depend (dep : Nat)
  | notify (dep : Nat)
  | setterCall (cell : Nat) (v : Val)
  | customSetter
  | warn
  deriving DecidableEq, Repr

/-- The state of the program. -/
structure State where
  heap : List Obj
  cells : List Val
  nextDep : Nat
  trace : List Event
  target : Option Nat
  shouldObserve : Bool
  serverRendering : Bool
  production : Bool
  hasProto : Bool
  deriving DecidableEq, Repr

/-! ## Primitive operations of the platform -/

/-- Strict equality `===`: `NaN` differs from everything, itself included. -/
def strictEq (a b : Val) : Bool :=
  match a, b with
  | .nan, _ => false
  | _, .nan => false
  | a, b => decide (a = b)

/-- The test of `reactiveSetter`:
`newVal === value || (newVal !== newVal && value !== value)`. -/
def unchanged (newVal value : Val) : Bool :=
  strictEq newVal value || (!strictEq newVal newVal && !strictEq value value)

/-- Own property lookup (`Object.getOwnPropertyDescriptor`). -/
def findProp (props : List (Key × Desc)) (key : Key) : Option Desc :=
  match props with
  | [] => none
  | (k, d) :: rest => if k = key then some d else findProp rest key

/-- Replace the descriptor of `key`, or append it when `key` is new. -/
def putProp (props : List (Key × Desc)) (key : Key) (d : Desc) : List (Key × Desc) :=
  match props with
  | [] => [(key, d)]
  | (k, d0) :: rest => if k = key then (k, d) :: rest else (k, d0) :: putProp rest key d

/-- Remove `key`. -/
def removeProp (props : List (Key × Desc)) (key : Key) : List (Key × Desc) :=
  match props with
  | [] => []
  | (k, d0) :: rest => if k = key then removeProp rest key else (k, d0) :: removeProp rest key

/-- The names of the properties of `Object.prototype`. -/
def objectPrototypeKeys : List String :=
  ["constructor", "__defineGetter__", "__defineSetter__", "hasOwnProperty",
   "__lookupGetter__", "__lookupSetter__", "isPrototypeOf", "propertyIsEnumerable",
   "toString", "valueOf", "__proto__", "toLocaleString"]

/-- The names of the properties of `Array.prototype` that `Object.prototype`
lacks. -/
def arrayPrototypeKeys : List String :=
  ["length", "at", "concat", "copyWithin", "fill", "find", "findIndex", "findLast",
   "findLastIndex", "lastIndexOf", "pop", "push", "reverse", "shift", "unshift", "slice",
   "sort", "splice", "includes", "indexOf", "join", "keys", "entries", "values", "forEach",
   "filter", "flat", "flatMap", "map", "every", "some", "reduce", "reduceRight",
   "toReversed", "toSorted", "toSpliced", "with"]

/-- `key in Object.prototype`. -/
def inObjectPrototype (key : Key) : Bool :=
  match key with
  | .index _ => false
  | .name s => decide (s ∈ objectPrototypeKeys)

/-- A name that may read as a number (`parseFloat` skips blanks and accepts a
sign, a digit or a dot): it does not begin with a letter, `_` or `$`. -/
def numericLooking (s : String) : Bool :=
  match s.data with
  | [] => false
  | c :: _ => !(c.isAlpha || c == '_' || c == '$')

/-- Names that are not addressable as keys: those held in dedicated fields of
the model, and those that may read as a number, which `isValidArrayIndex` of
`util` may take for an index (numbers are the keys `Key.index`). -/
def Key.reserved (key : Key) : Bool :=
  match key with
  | .index _ => false
  | .name s => decide (s ∈ ["__ob__", "_isVue", "length", "__proto__"]) || numericLooking s

/-- `hasOwn(obj, key)`. -/
def hasOwn (o : Obj) (key : Key) : Bool :=
  (findProp o.props key).isSome

/-- The key names a member the object inherits from a prototype other than
`Object.prototype` and `Array.prototype`. -/
def inherits (o : Obj) (key : Key) : Bool :=
  decide (key ∈ o.inherited) || decide (key ∈ o.inheritedFixed)

/-- `key in target`: an own property, an inherited one, or one of the
prototype of the platform. -/
def keyIn (o : Obj) (key : Key) : Bool :=
  hasOwn o key || inherits o key || inObjectPrototype key ||
    (decide (o.kind = .array) &&
      match key with
      | .index n => decide (n < o.elems.length)
      | .name s => decide (s ∈ arrayPrototypeKeys))

/-- `isValidArrayIndex(key)` of `util`: the index, when `key` is one. A name
that is not reserved begins with a letter, `_` or `$`, so that `parseFloat`
gives `NaN` or an infinity for it and the test fails. -/
def isValidArrayIndex (key : Key) : Option Nat :=
  match key with
  | .index n => some n
  | .name _ => none

/-- Append an event to the trace. -/
def State.log (s : State) (e : Event) : State :=
  { s with trace := s.trace ++ [e] }

/-- Replace the object at address `a`. -/
def State.setObj (s : State) (a : Nat) (o : Obj) : State :=
  { s with heap := s.heap.set a o }

/-- Modelled from the spec: `Dep.prototype.depend` of `./dep`, which records
the active evaluation unit as a subscriber of the registry. -/
def depDepend (s : State) (dep : Nat) : State :=
  s.log (.depend dep)

/-- Modelled from the spec: `Dep.prototype.notify` of `./dep`, which invokes
the subscribers of the registry. -/
def depNotify (s : State) (dep : Nat) : State :=
  s.log (.notify dep)

/-- `new Dep()`: a registry with a fresh uid. -/
def newDep (s : State) : State × Nat :=
  ({ s with nextDep := s.nextDep + 1 }, s.nextDep)

/-! ## `dependArray` and `reactiveGetter` -/

/-- `dependArray(value)` over the elements of `value`; `fuel` bounds the
nesting of arrays. -/
def dependArray : Nat → State → List Val → Except Err State
  | 0, _, _ => .error .fuel
  | _ + 1, s, [] => .ok s
  | fuel + 1, s, e :: rest =>
    match e with
    | .ref a =>
      match s.heap[a]? with
      | some o =>
        let s1 := match o.ob with
          | some t => depDepend s t.dep
          | none => s
        if o.kind = .array then
          match dependArray fuel s1 o.elems with
          | .ok s2 => dependArray (fuel + 1) s2 rest
          | .error e => .error e
        else dependArray (fuel + 1) s1 rest
      | none => dependArray (fuel + 1) s rest
    | _ => dependArray (fuel + 1) s rest

/-- The dependency collection of `reactiveGetter`, after `value` was read. -/
def collect (fuel : Nat) (c : Closure) (s : State) (value : Val) : Except Err State :=
  if s.target.isSome then
    let s1 := depDepend s c.dep
    match c.childOb with
    | some ob =>
      let s2 := depDepend s1 ob.dep
      match value with
      | .ref a =>
        match s2.heap[a]? with
        | some o => if o.kind = .array then dependArray fuel s2 o.elems else .ok s2
        | none => .ok s2
      | _ => .ok s2
    | none => .ok s1
  else .ok s

/-- The function `reactiveGetter` of a slot. -/
def reactiveGetter (fuel : Nat) : Slot → State → Except Err (State × Val)
  | .base c g _, s =>
    let value := match g with
      | some cell => s.cells.getD cell .undefined
      | none => c.val
    match collect fuel c s value with
    | .ok s1 => .ok (s1, value)
    | .error e => .error e
  | .wrap c inner, s =>
    match reactiveGetter fuel inner s with
    | .ok (s0, value) =>
      match collect fuel c s0 value with
      | .ok s1 => .ok (s1, value)
      | .error e => .error e
    | .error e => .error e

/-- The expression `getter ? getter.call(obj) : val` of a slot. -/
def currentValue (fuel : Nat) : Slot → State → Except Err (State × Val)
  | .base c g _, s =>
    .ok (s, match g with
      | some cell => s.cells.getD cell .undefined
      | none => c.val)
  | .wrap _ inner, s => reactiveGetter fuel inner s

/-- `obj[key]` on an own property; `undefined` when there is none (the members
of the prototypes are functions, which are no values of the model). -/
def getProp (fuel : Nat) (s : State) (obj : Nat) (key : Key) : Except Err (State × Val) :=
  match s.heap[obj]? with
  | none => .ok (s, .undefined)
  | some o =>
    match findProp o.props key with
    | none => .ok (s, .undefined)
    | some d =>
      match d.body with
      | .data v _ => .ok (s, v)
      | .accessor (some cell) _ => .ok (s, s.cells.getD cell .undefined)
      | .accessor none _ => .ok (s, .undefined)
      | .reactive slot => reactiveGetter fuel slot s

/-! ## `reactiveSetter` -/

/-- Update the closure with registry `d` inside a slot. -/
def Slot.modify (d : Nat) (f : Closure → Closure) : Slot → Slot
  | .base c g st => if c.dep = d then .base (f c) g st else .base c g st
  | .wrap c inner => if c.dep = d then .wrap (f c) inner else .wrap c (inner.modify d f)

/-- Update the closure with registry `d` of the reactive property `key` of
`obj`: an assignment to a variable the accessor pair closes over. -/
def State.modifySlot (s : State) (obj : Nat) (key : Key) (d : Nat)
    (f : Closure → Closure) : State :=
  match s.heap[obj]? with
  | none => s
  | some o =>
    match findProp o.props key with
    | none => s
    | some desc =>
      match desc.body with
      | .reactive slot =>
        s.setObj obj { o with
          props := putProp o.props key { desc with body := .reactive (slot.modify d f) } }
      | _ => s

/-- The tail of `reactiveSetter`: `childOb = !shallow && observe(newVal)`,
then `dep.notify()`. -/
def finishSet (obs : State → Val → Except Err (State × Option Observer))
    (c : Closure) (obj : Nat) (key : Key) (s : State) (newVal : Val) : Except Err State :=
  if c.shallow then
    .ok (depNotify (s.modifySlot obj key c.dep (fun x => { x with childOb := none })) c.dep)
  else
    match obs s newVal with
    | .ok (s1, childOb) =>
      .ok (depNotify (s1.modifySlot obj key c.dep (fun x => { x with childOb := childOb })) c.dep)
    | .error e => .error e

/-- The call of `customSetter` outside production. -/
def callCustomSetter (c : Closure) (s : State) : State :=
  if !s.production && c.customSetter then s.log .customSetter else s

/-- The function `reactiveSetter` of the slot installed on `obj[key]`; `obs` is
`observe`. -/
def reactiveSetter (obs : State → Val → Except Err (State × Option Observer)) (fuel : Nat)
    (obj : Nat) (key : Key) : Slot → State → Val → Except Err State
  | .base c g st, s, newVal =>
    let value := match g with
      | some cell => s.cells.getD cell .undefined
      | none => c.val
    if unchanged newVal value then .ok s
    else
      let s1 := callCustomSetter c s
      match g, st with
      | some _, none => .ok s1
      | _, some cell =>
        finishSet obs c obj key
          ({ s1 with cells := s1.cells.set cell newVal }.log (.setterCall cell newVal)) newVal
      | none, none =>
        finishSet obs c obj key
          (s1.modifySlot obj key c.dep (fun x => { x with val := newVal })) newVal
  | .wrap c inner, s, newVal =>
    match reactiveGetter fuel inner s with
    | .error e => .error e
    | .ok (s0, value) =>
      if unchanged newVal value then .ok s0
      else
        match reactiveSetter obs fuel obj key inner (callCustomSetter c s0) newVal with
        | .ok s2 => finishSet obs c obj key s2 newVal
        | .error e => .error e

/-! ## `Observer`, `observe`, `defineReactive` -/

/-- `Object.defineProperty(obj, key, d)`. -/
def defineProperty (s : State) (obj : Nat) (key : Key) (d : Desc) : Except Err State :=
  match s.heap[obj]? with
  | none => .error .typeError
  | some o =>
    match findProp o.props key with
    | some old =>
      if old.configurable then .ok (s.setObj obj { o with props := putProp o.props key d })
      else .error .typeError
    | none =>
      if o.extensible then .ok (s.setObj obj { o with props := putProp o.props key d })
      else .error .typeError

/-- The slot `defineReactive` builds over the descriptor it found. -/
def makeSlot (c : Closure) (property : Option Desc) : Slot :=
  match property with
  | none => .base c none none
  | some d =>
    match d.body with
    | .data _ _ => .base c none none
    | .accessor g st => .base c g st
    | .reactive slot => .wrap c slot

/-- Whether `property` has a getter and no setter. -/
def getterOnly (property : Option Desc) : Bool :=
  match property with
  | none => false
  | some d =>
    match d.body with
    | .accessor (some _) none => true
    | _ => false

/-- `defineReactive(obj, key, val, customSetter, shallow)`; `val = none` is the
call with two arguments; `obs` is `observe`. -/
def defineReactiveWith (obs : State → Val → Except Err (State × Option Observer)) (fuel : Nat)
    (s : State) (obj : Nat) (key : Key) (val : Option Val) (customSetter shallow : Bool) :
    Except Err State :=
  let (s, dep) := newDep s
  match s.heap[obj]? with
  | none => .error .typeError
  | some o =>
    let property := findProp o.props key
    if (match property with
        | some d => !d.configurable
        | none => false) then .ok s
    else
      let read : Except Err (State × Val) :=
        match val with
        | some v => .ok (s, v)
        | none => if getterOnly property then .ok (s, .undefined) else getProp fuel s obj key
      match read with
      | .error e => .error e
      | .ok (s1, v) =>
        let child : Except Err (State × Option Observer) :=
          if shallow then .ok (s1, none) else obs s1 v
        match child with
        | .error e => .error e
        | .ok (s2, childOb) =>
          defineProperty s2 obj key
            { body := .reactive (makeSlot
                { dep := dep, val := v, childOb := childOb, shallow := shallow,
                  customSetter := customSetter } property),
              enumerable := true, configurable := true }

/-- `Observer.prototype.walk` over the keys `Object.keys(obj)`. -/
def walkWith (obs : State → Val → Except Err (State × Option Observer)) (fuel : Nat)
    (obj : Nat) : State → List Key → Except Err State
  | s, [] => .ok s
  | s, k :: rest =>
    match defineReactiveWith obs fuel s obj k none false false with
    | .ok s1 => walkWith obs fuel obj s1 rest
    | .error e => .error e

/-- `Observer.prototype.observeArray`. -/
def observeArrayWith (obs : State → Val → Except Err (State × Option Observer)) :
    State → List Val → Except Err State
  | s, [] => .ok s
  | s, v :: rest =>
    match obs s v with
    | .ok (s1, _) => observeArrayWith obs s1 rest
    | .error e => .error e

/-- `Object.keys(obj)`: the own enumerable keys. -/
def objectKeys (o : Obj) : List Key :=
  (o.props.filter (fun p => p.2.enumerable)).map Prod.fst

/-- `protoAugment(target, arrayMethods)`: the prototype of the array becomes
`arrayMethods`. -/
def protoAugment (o : Obj) : Obj :=
  { o with augmented := true }

/-- `copyAugment(target, arrayMethods, arrayKeys)`: the seven wrappers become
hidden own methods of the array. -/
def copyAugment (o : Obj) : Obj :=
  { o with augmented := true }

/-- `new Observer(value)` for the object `o` at address `a`. -/
def newObserverWith (obs : State → Val → Except Err (State × Option Observer)) (fuel : Nat)
    (s : State) (a : Nat) (o : Obj) : Except Err (State × Observer) :=
  let (s1, dep) := newDep s
  let tagged : Obj := { o with ob := some { dep := dep, vmCount := 0 } }
  let walked : Except Err State :=
    if o.kind = .array then
      observeArrayWith obs
        (s1.setObj a (if s1.hasProto then protoAugment tagged else copyAugment tagged)) o.elems
    else walkWith obs fuel a (s1.setObj a tagged) (objectKeys o)
  match walked with
  | .ok s2 => .ok (s2, { value := a, dep := dep })
  | .error e => .error e

/-- The guard of `observe` for creating an Observer. -/
def observable (s : State) (o : Obj) : Bool :=
  s.shouldObserve && !s.serverRendering && (decide (o.kind = .array) || decide (o.kind = .plain))
    && o.extensible && !o.isVue

/-- `ob.vmCount++` on the tag of the object at `a`. -/
def bumpVmCount (s : State) (a : Nat) : State :=
  match s.heap[a]? with
  | none => s
  | some o =>
    match o.ob with
    | none => s
    | some t => s.setObj a { o with ob := some { t with vmCount := t.vmCount + 1 } }

/-- `observe(value, asRootData)`; `fuel` bounds the nesting of calls. -/
def observe : Nat → State → Val → Bool → Except Err (State × Option Observer)
  | 0, _, _, _ => .error .fuel
  | fuel + 1, s, value, asRootData =>
    match value with
    | .ref a =>
      match s.heap[a]? with
      | none => .ok (s, none)
      | some o =>
        if o.kind = .vnode then .ok (s, none)
        else
          let made : Except Err (State × Option Observer) :=
            match o.ob with
            | some t => .ok (s, some { value := a, dep := t.dep })
            | none =>
              if observable s o then
                match newObserverWith (fun s1 v => observe fuel s1 v false) fuel s a o with
                | .ok (s1, ob) => .ok (s1, some ob)
                | .error e => .error e
              else .ok (s, none)
          match made with
          | .error e => .error e
          | .ok (s1, none) => .ok (s1, none)
          | .ok (s1, some ob) =>
            if asRootData then .ok (bumpVmCount s1 a, some ob) else .ok (s1, some ob)
    | _ => .ok (s, none)

/-- `defineReactive`. -/
def defineReactive (fuel : Nat) (s : State) (obj : Nat) (key : Key) (val : Option Val)
    (customSetter shallow : Bool) : Except Err State :=
  defineReactiveWith (fun s1 v => observe fuel s1 v false) fuel s obj key val customSetter shallow

/-- `Observer.prototype.observeArray`. -/
def observeArray (fuel : Nat) (s : State) (items : List Val) : Except Err State :=
  observeArrayWith (fun s1 v => observe fuel s1 v false) s items

/-! ## The array methods of the platform and their wrappers (`array.js`) -/

/-- The seven methods of `methodsToPatch`. -/
inductive Method where
  | push
  | pop
  | shift
  | unshift
  | splice
  | sort
  | reverse
  deriving DecidableEq, Repr

/-- A method of `Array.prototype`: state, `this`, arguments. -/
abbrev NativeFn := State → Nat → List Val → Except Err (State × Val)

/-- The elements of the array at `a`. -/
def arrayElems (s : State) (a : Nat) : Option (List Val) :=
  match s.heap[a]? with
  | some o => if o.kind = .array then some o.elems else none
  | none => none

/-- Store the elements of the array at `a`. -/
def setElems (s : State) (a : Nat) (elems : List Val) : State :=
  match s.heap[a]? with
  | some o => s.setObj a { o with elems := elems }
  | none => s

/-- Allocate a fresh, unobserved array. -/
def allocArray (s : State) (elems : List Val) : State × Nat :=
  ({ s with heap := s.heap ++ [{ kind := .array, extensible := true, isVue := false,
                                 props := [], elems := elems, ob := none,
                                 augmented := false, inherited := [], inheritedFixed := [] }] },
   s.heap.length)

/-- `ToIntegerOrInfinity` on the values whose conversion runs no user code. -/
def toInteger (v : Val) : Option Int :=
  match v with
  | .undefined => some 0
  | .null => some 0
  | .bool b => some (if b then 1 else 0)
  | .num n => some n
  | .nan => some 0
  | .str _ => none
  | .ref _ => none

/-- The start position of `splice` and `slice` for a relative index. -/
def clampStart (len : Nat) (rel : Int) : Nat :=
  if rel < 0 then (Int.toNat (len + rel)) else min (Int.toNat rel) len

/-- The largest length of an array, `2^32 - 1`. -/
def maxArrayLength : Nat := 4294967295

/-- What a method of the platform throws when it is to leave the array at `a`
with `newLen` elements: nothing when the array does not grow; a `TypeError`
when it is not extensible, since an index would be created; a `RangeError`
when the length would pass the largest one. -/
def growthError (s : State) (a : Nat) (newLen : Nat) : Option Err :=
  match s.heap[a]? with
  | none => none
  | some o =>
    if newLen ≤ o.elems.length then none
    else if !o.extensible then some .typeError
    else if maxArrayLength < newLen then some .rangeError
    else none

/-- `Array.prototype.push`. -/
def nativePush : NativeFn := fun s this args =>
  match arrayElems s this with
  | none => .error .unsupported
  | some elems =>
    match growthError s this (elems ++ args).length with
    | some e => .error e
    | none => .ok (setElems s this (elems ++ args), .num ((elems ++ args).length : Nat))

/-- `Array.prototype.pop`. -/
def nativePop : NativeFn := fun s this _ =>
  match arrayElems s this with
  | none => .error .unsupported
  | some elems =>
    match elems.getLast? with
    | none => .ok (s, .undefined)
    | some v => .ok (setElems s this elems.dropLast, v)

/-- `Array.prototype.shift`. -/
def nativeShift : NativeFn := fun s this _ =>
  match arrayElems s this with
  | none => .error .unsupported
  | some [] => .ok (s, .undefined)
  | some (v :: rest) => .ok (setElems s this rest, v)

/-- `Array.prototype.unshift`. -/
def nativeUnshift : NativeFn := fun s this args =>
  match arrayElems s this with
  | none => .error .unsupported
  | some elems =>
    match growthError s this (args ++ elems).length with
    | some e => .error e
    | none => .ok (setElems s this (args ++ elems), .num ((args ++ elems).length : Nat))

/-- `Array.prototype.splice`. -/
def nativeSplice : NativeFn := fun s this args =>
  match arrayElems s this with
  | none => .error .unsupported
  | some elems =>
    let len := elems.length
    match args with
    | [] =>
      let (s1, r) := allocArray s []
      .ok (s1, .ref r)
    | start :: more =>
      match toInteger start with
      | none => .error .unsupported
      | some rel =>
        let from_ := clampStart len rel
        let count : Option Nat :=
          match more with
          | [] => some (len - from_)
          | dc :: _ =>
            match toInteger dc with
            | none => none
            | some n => some (min (Int.toNat n) (len - from_))
        match count with
        | none => .error .unsupported
        | some n =>
          let items := more.drop 1
          match growthError s this
              (elems.take from_ ++ items ++ elems.drop (from_ + n)).length with
          | some e => .error e
          | none =>
            let (s1, r) := allocArray s ((elems.drop from_).take n)
            .ok (setElems s1 this (elems.take from_ ++ items ++ elems.drop (from_ + n)),
              .ref r)

/-- `Array.prototype.reverse`. -/
def nativeReverse : NativeFn := fun s this _ =>
  match arrayElems s this with
  | none => .error .unsupported
  | some elems => .ok (setElems s this elems.reverse, .ref this)

/-- `Array.prototype.sort`; `sortBy args elems` is the order the platform
produces for the comparison argument `args`. -/
def nativeSort (sortBy : List Val → List Val → List Val) : NativeFn := fun s this args =>
  match arrayElems s this with
  | none => .error .unsupported
  | some elems => .ok (setElems s this (sortBy args elems), .ref this)

/-- `arrayProto[method]`. -/
def arrayProto (sortBy : List Val → List Val → List Val) : Method → NativeFn
  | .push => nativePush
  | .pop => nativePop
  | .shift => nativeShift
  | .unshift => nativeUnshift
  | .splice => nativeSplice
  | .sort => nativeSort sortBy
  | .reverse => nativeReverse

/-- The elements a call of `method` inserts, as `mutator` computes them. -/
def inserted (method : Method) (args : List Val) : Option (List Val) :=
  match method with
  | .push => some args
  | .unshift => some args
  | .splice => some (args.drop 2)
  | _ => none

/-- The function `mutator` that wraps `original` for `method`. -/
def mutator (fuel : Nat) (method : Method) (original : NativeFn) : NativeFn :=
  fun s this args =>
    match original s this args with
    | .error e => .error e
    | .ok (s1, result) =>
      match (s1.heap[this]?).bind (fun o => o.ob) with
      | none => .error .typeError
      | some ob =>
        let observed : Except Err State :=
          match inserted method args with
          | some items => observeArray fuel s1 items
          | none => .ok s1
        match observed with
        | .error e => .error e
        | .ok s2 => .ok (depNotify s2 ob.dep, result)

/-- `arrayMethods[method]`. -/
def arrayMethods (fuel : Nat) (sortBy : List Val → List Val → List Val)
    (method : Method) : NativeFn :=
  mutator fuel method (arrayProto sortBy method)

/-- The call `target.splice(...)`: the wrapper on an augmented array, the
method of the platform otherwise. -/
def callSplice (fuel : Nat) : NativeFn := fun s target args =>
  match s.heap[target]? with
  | none => .error .unsupported
  | some o =>
    if o.augmented then mutator fuel .splice nativeSplice s target args
    else nativeSplice s target args

/-! ## `set` and `del` -/

/-- The assignment `target[key] = val` in strict code. On a key that is not
own, an inherited writable data property is shadowed by a new own property, as
a key that is nowhere is added; what an inherited accessor or read-only member
does with the assignment is outside the model. -/
def assign (fuel : Nat) (s : State) (target : Nat) (key : Key) (val : Val) : Except Err State :=
  match s.heap[target]? with
  | none => .error .typeError
  | some o =>
    match findProp o.props key with
    | none =>
      if key ∈ o.inheritedFixed then .error .unsupported
      else if o.extensible then
        let d : Desc := { body := .data val true, enumerable := true, configurable := true }
        .ok (s.setObj target { o with props := putProp o.props key d })
      else .error .typeError
    | some d =>
      match d.body with
      | .data _ writable =>
        if writable then
          .ok (s.setObj target { o with props := putProp o.props key { d with body := .data val true } })
        else .error .typeError
      | .accessor _ (some cell) =>
        .ok ({ s with cells := s.cells.set cell val }.log (.setterCall cell val))
      | .accessor _ none => .error .typeError
      | .reactive slot =>
        reactiveSetter (fun s1 v => observe fuel s1 v false) fuel target key slot s val

/-- The operator `delete target[key]` in strict code. -/
def deleteProp (s : State) (target : Nat) (key : Key) : Except Err State :=
  match s.heap[target]? with
  | none => .error .typeError
  | some o =>
    match findProp o.props key with
    | none => .ok s
    | some d =>
      if d.configurable then .ok (s.setObj target { o with props := removeProp o.props key })
      else .error .typeError

/-- The development warning `warn(...)`. -/
def warn (s : State) : State :=
  if s.production then s else s.log .warn

/-- The guard `key in target && !(key in Object.prototype)` of `set`. -/
def keyExists (o : Obj) (key : Key) : Bool :=
  keyIn o key && !inObjectPrototype key

/-- The guard `target._isVue || (ob && ob.vmCount)` of `set` and `del`. -/
def isRoot (o : Obj) : Bool :=
  o.isVue ||
    match o.ob with
    | some t => decide (t.vmCount ≠ 0)
    | none => false

/-- `set(target, key, val)` on the object at address `target`. On an array
with an index, `target.length = Math.max(target.length, key)` throws a
`RangeError` when the new length is beyond `2^32 - 1` (it succeeds on an array
that is not extensible), then `target.splice(key, 1, val)` runs. -/
def set (fuel : Nat) (s : State) (target : Nat) (key : Key) (val : Val) :
    Except Err (State × Val) :=
  match s.heap[target]? with
  | none => .error .unsupported
  | some o =>
    if key.reserved then .error .unsupported
    else
      match (if o.kind = .array then isValidArrayIndex key else none) with
      | some k =>
        if o.elems.length < k ∧ maxArrayLength < k then .error .rangeError
        else
          let s1 := s.setObj target
            { o with elems := o.elems ++ List.replicate (k - o.elems.length) .undefined }
          match callSplice fuel s1 target [.num k, .num 1, val] with
          | .ok (s2, _) => .ok (s2, val)
          | .error e => .error e
      | none =>
        if keyExists o key then
          match assign fuel s target key val with
          | .ok s1 => .ok (s1, val)
          | .error e => .error e
        else if isRoot o then .ok (warn s, val)
        else
          match o.ob with
          | none =>
            match assign fuel s target key val with
            | .ok s1 => .ok (s1, val)
            | .error e => .error e
          | some ob =>
            match defineReactive fuel s target key (some val) false false with
            | .ok s1 => .ok (depNotify s1 ob.dep, val)
            | .error e => .error e

/-- `del(target, key)` on the object at address `target`. -/
def del (fuel : Nat) (s : State) (target : Nat) (key : Key) : Except Err State :=
  match s.heap[target]? with
  | none => .error .unsupported
  | some o =>
    if key.reserved then .error .unsupported
    else
      match (if o.kind = .array then isValidArrayIndex key else none) with
      | some k =>
        match callSplice fuel s target [.num k, .num 1] with
        | .ok (s1, _) => .ok s1
        | .error e => .error e
      | none =>
        if isRoot o then .ok (warn s)
        else if !hasOwn o key then .ok s
        else
          match deleteProp s target key with
          | .error e => .error e
          | .ok s1 =>
            match o.ob with
            | none => .ok s1
            | some ob => .ok (depNotify s1 ob.dep)

/-! ## Notions used to state the properties -/

/-- The value a slot reads: the captured value, or what the wrapped getter
returns. -/
def peekSlot (cells : List Val) : Slot → Val
  | .base c g _ =>
    match g with
    | some cell => cells.getD cell .undefined
    | none => c.val
  | .wrap _ inner => peekSlot cells inner

/-- The value a property reads. -/
def peekDesc (cells : List Val) (d : Desc) : Val :=
  match d.body with
  | .data v _ => v
  | .accessor (some cell) _ => cells.getD cell .undefined
  | .accessor none _ => .undefined
  | .reactive slot => peekSlot cells slot

/-- The registries notified along a trace, in order. -/
def notifications : List Event → List Nat
  | [] => []
  | .notify d :: rest => d :: notifications rest
  | _ :: rest => notifications rest

/-- The calls of wrapped setters along a trace, in order. -/
def setterCalls : List Event → List (Nat × Val)
  | [] => []
  | .setterCall c v :: rest => (c, v) :: setterCalls rest
  | _ :: rest => setterCalls rest

/-- An event of dependency collection. -/
def Event.isDepend : Event → Bool
  | .depend _ => true
  | _ => false

/-- The number of heap objects that carry no Observer. -/
def untagged (s : State) : Nat :=
  s.heap.countP (fun o => o.ob.isNone)

/-- The reactive slot installed on `obj[key]`, if there is one. -/
def slotAt (s : State) (obj : Nat) (key : Key) : Option Slot :=
  match s.heap[obj]? with
  | none => none
  | some o =>
    match findProp o.props key with
    | none => none
    | some d =>
      match d.body with
      | .reactive slot => some slot
      | _ => none

/-- The value `obj[key]` reads from an own property. -/
def peek (s : State) (obj : Nat) (key : Key) : Val :=
  match s.heap[obj]? with
  | none => .undefined
  | some o =>
    match findProp o.props key with
    | none => .undefined
    | some d => peekDesc s.cells d

/-- A state that differs from `s` by events of dependency collection only. -/
def Reads (s s' : State) : Prop :=
  ∃ ds : List Event, (∀ e ∈ ds, e.isDepend = true) ∧ s' = { s with trace := s.trace ++ ds }

/-- What instrumentation may change of an object: its tag, its augmentation,
and the shape of its properties, but not the values they read. -/
structure ObjExt (cells : List Val) (o o' : Obj) : Prop where
  kind : o'.kind = o.kind
  extensible : o'.extensible = o.extensible
  isVue : o'.isVue = o.isVue
  elems : o'.elems = o.elems
  tag : ∀ t, o.ob = some t → o'.ob = some t
  absent : ∀ k, findProp o.props k = none → findProp o'.props k = none
  present : ∀ k d, findProp o.props k = some d →
    ∃ d', findProp o'.props k = some d' ∧ peekDesc cells d' = peekDesc cells d ∧
      (d.configurable = true → d'.configurable = true)

/-- What instrumentation may change of a state; `F` holds of the addresses of
the values under construction. -/
structure ExtOn (F : Nat → Prop) (s s' : State) : Prop where
  len : s'.heap.length = s.heap.length
  cells : s'.cells = s.cells
  target : s'.target = s.target
  shouldObserve : s'.shouldObserve = s.shouldObserve
  serverRendering : s'.serverRendering = s.serverRendering
  production : s'.production = s.production
  hasProto : s'.hasProto = s.hasProto
  trace : ∃ ds : List Event, (∀ e ∈ ds, e.isDepend = true) ∧ s'.trace = s.trace ++ ds
  quiet : s.target = none → s'.trace = s.trace
  frame : ∀ (a : Nat) (o : Obj), ¬ F a → s.heap[a]? = some o → o.ob.isSome = true → s'.heap[a]? = some o
  obj : ∀ (a : Nat) (o : Obj), s.heap[a]? = some o → ∃ o', s'.heap[a]? = some o' ∧ ObjExt s.cells o o'
  untouched : ∀ (a : Nat) (o' : Obj), s'.heap[a]? = some o' → o'.ob = none →
    s.heap[a]? = some o'

/-- What `observe` may change of a state. -/
abbrev Ext (s s' : State) : Prop := ExtOn (fun _ => False) s s'

/-! ## Sample states -/

/-- A state with an empty heap, in development mode, with no active unit. -/
def State.initial : State :=
  { heap := [], cells := [], nextDep := 0, trace := [], target := none,
    shouldObserve := true, serverRendering := false, production := false, hasProto := true }

/-- An extensible plain object with the given own properties. -/
def Obj.plainOf (props : List (Key × Desc)) : Obj :=
  { kind := .plain, extensible := true, isVue := false, props := props, elems := [],
    ob := none, augmented := false, inherited := [], inheritedFixed := [] }

/-- An extensible array with the given elements. -/
def Obj.arrayOf (elems : List Val) : Obj :=
  { kind := .array, extensible := true, isVue := false, props := [], elems := elems,
    ob := none, augmented := false, inherited := [], inheritedFixed := [] }

/-- An enumerable, configurable, writable data property. -/
def Desc.dataOf (v : Val) : Desc :=
  { body := .data v true, enumerable := true, configurable := true }

/-- An enumerable, configurable reactive property. -/
def Desc.reactiveOf (slot : Slot) : Desc :=
  { body := .reactive slot, enumerable := true, configurable := true }

/-- A slot of registry `dep` that captures `v` and wraps nothing. -/
def Slot.plainOf (dep : Nat) (v : Val) : Slot :=
  .base { dep := dep, val := v, childOb := none, shallow := false, customSetter := false }
    none none

/-- The observed object `{ a: NaN }`. -/
def sampleNaN : State :=
  { State.initial with
    heap := [{ Obj.plainOf [(.name "a", Desc.reactiveOf (Slot.plainOf 1 .nan))] with
               ob := some { dep := 0, vmCount := 0 } }],
    nextDep := 2 }

/-- An observed array `[1]`. -/
def sampleArrayObj : Obj :=
  { Obj.arrayOf [.num 1] with ob := some { dep := 0, vmCount := 0 }, augmented := true }

/-- A heap that holds the observed array `[1]` only. -/
def sampleArray : State :=
  { State.initial with heap := [sampleArrayObj], nextDep := 1 }

/-- An object without its properties: what an update of a property leaves
alone. -/
def Obj.shell (o : Obj) : Obj :=
  { o with props := [] }

/-- A getter-only accessor `a` over cell 0, made reactive, on an observed
object. -/
def sampleGetterOnly : State :=
  { State.initial with
    heap := [{ Obj.plainOf [(.name "a", Desc.reactiveOf
                (.base { dep := 1, val := .undefined, childOb := none, shallow := false,
                         customSetter := false } (some 0) none))] with
               ob := some { dep := 0, vmCount := 0 } }],
    cells := [.num 1],
    nextDep := 2 }

/-- The observed object `{ a: 1 }`. -/
def sampleOne : State :=
  { State.initial with
    heap := [{ Obj.plainOf [(.name "a", Desc.reactiveOf (Slot.plainOf 1 (.num 1)))] with
               ob := some { dep := 0, vmCount := 0 } }],
    nextDep := 2 }

/-- The value `v` carries an Observer. -/
def carriesObserver (s : State) (v : Val) : Bool :=
  match v with
  | .ref a =>
    match s.heap[a]? with
    | some o => o.ob.isSome
    | none => false
  | _ => false

/-- The value `v` is one `observe` returns an Observer for: an object that is
no virtual node and that carries an Observer or passes the guard for a new
one. -/
def canObserve (s : State) (v : Val) : Bool :=
  match v with
  | .ref a =>
    match s.heap[a]? with
    | some o => !decide (o.kind = .vnode) && (o.ob.isSome || observable s o)
    | none => false
  | _ => false

/-- What a method of the platform may change of a state: the elements of
arrays, and the heap may gain one fresh array. -/
structure ElemsOnly (s s1 : State) : Prop where
  cells : s1.cells = s.cells
  trace : s1.trace = s.trace
  target : s1.target = s.target
  shouldObserve : s1.shouldObserve = s.shouldObserve
  serverRendering : s1.serverRendering = s.serverRendering
  obj : ∀ (a : Nat) (o : Obj), s.heap[a]? = some o →
    ∃ o1, s1.heap[a]? = some o1 ∧ { o1 with elems := o.elems } = o
  untagged : untagged s1 ≤ untagged s + 1

/-- The elements `set(target, k, v)` leaves in an array that held `elems`:
the array padded to length `k` when shorter, then `splice(k, 1, v)`. -/
def replaced (elems : List Val) (k : Nat) (v : Val) : List Val :=
  let padded := elems ++ List.replicate (k - elems.length) .undefined
  padded.take (clampStart padded.length k) ++ [v] ++
    padded.drop (clampStart padded.length k +
      min (Int.toNat 1) (padded.length - clampStart padded.length k))

/-- The methods a component instance inherits from `Vue.prototype`
(`instance/events.js`, `instance/init.js`, `instance/state.js`). -/
def vuePrototypeMethods : List Key :=
  [.name "$on", .name "$once", .name "$off", .name "$emit", .name "_init", .name "$set",
   .name "$delete", .name "$watch"]

/-- The accessors a component instance inherits from `Vue.prototype`
(`stateMixin` of `instance/state.js`). -/
def vuePrototypeAccessors : List Key := [.name "$data", .name "$props"]

/-- A component instance with the own properties `props`. -/
def Obj.vmOf (props : List (Key × Desc)) : Obj :=
  { Obj.plainOf props with
    isVue := true, inherited := vuePrototypeMethods, inheritedFixed := vuePrototypeAccessors }

/-- An observed object made by `Object.create({ x: 1 })`: it has no own
property and inherits `x`. -/
def sampleInherits : State :=
  { State.initial with
    heap := [{ Obj.plainOf [] with
               ob := some { dep := 0, vmCount := 0 }, inherited := [.name "x"] }],
    nextDep := 1 }

/-- A heap that holds an observed array of length 2 only. -/
def sampleArray2 : State :=
  { State.initial with
    heap := [{ Obj.arrayOf [.num 1, .num 2] with
               ob := some { dep := 0, vmCount := 0 }, augmented := true }],
    nextDep := 1 }

/-- The observed object `{ a: 1 }` after `Object.preventExtensions`. -/
def sampleSealed : State :=
  { State.initial with
    heap := [{ Obj.plainOf [(.name "a", Desc.reactiveOf (Slot.plainOf 1 (.num 1)))] with
               ob := some { dep := 0, vmCount := 0 }, extensible := false }],
    nextDep := 2 }

/-- An observed object that was given an own data property `toString`
by a plain assignment after it was observed. -/
def sampleToString : State :=
  { State.initial with
    heap := [{ Obj.plainOf [(.name "toString", Desc.dataOf (.num 1))] with
               ob := some { dep := 0, vmCount := 0 } }],
    nextDep := 1 }

/-- An observed object whose property `a` was defined non-configurable before
it was observed, and so was left alone by `defineReactive`. -/
def sampleFixed : State :=
  { State.initial with
    heap := [{ Obj.plainOf [(.name "a",
                 { body := .data (.num 1) false, enumerable := true, configurable := false })] with
               ob := some { dep := 0, vmCount := 0 } }],
    nextDep := 2 }

/-- The values one step away from an object: the elements of an array, the
values the own properties of another object read. -/
def edges (cells : List Val) (o : Obj) : List Val :=
  if o.kind = .array then o.elems else o.props.map (fun p => peekDesc cells p.2)

/-- The object at `b` is the value `v`, or is found from `v` through elements
and property values of objects that carry no Observer. -/
inductive Reach (s : State) : Val → Nat → Prop
  | here (a : Nat) : Reach s (.ref a) a
  | step (a : Nat) (o : Obj) (v : Val) (b : Nat) : s.heap[a]? = some o → o.ob = none →
      v ∈ edges s.cells o → Reach s v b → Reach s (.ref a) b

/-- The object at `b` carries no Observer in `s` and carries one in `s'`. -/
def newlyObserved (s s' : State) (b : Nat) : Prop :=
  (∃ o, s.heap[b]? = some o ∧ o.ob = none) ∧ ∃ o', s'.heap[b]? = some o' ∧ o'.ob.isSome = true

/-- An observed array `[y]` whose element `y` (an unobserved object, stored by
an index assignment) sits beside a non-extensible object and an object
`{ c: y }`. -/
def samplePush : State :=
  { State.initial with
    heap := [{ Obj.arrayOf [.ref 1] with ob := some { dep := 0, vmCount := 0 }, augmented := true },
             Obj.plainOf [],
             { Obj.plainOf [] with extensible := false },
             Obj.plainOf [(.name "c", Desc.dataOf (.ref 1))]],
    nextDep := 1 }

/-- An observed object with a shallow slot `a` that holds 1, beside an
unobserved plain object. -/
def sampleShallow : State :=
  { State.initial with
    heap := [{ Obj.plainOf [(.name "a", Desc.reactiveOf
                (.base { dep := 1, val := .num 1, childOb := none, shallow := true,
                         customSetter := false } none none))] with
               ob := some { dep := 0, vmCount := 0 } },
             Obj.plainOf []],
    nextDep := 2 }

/-- A heap that holds one unobserved empty object. -/
def sampleBare : State :=
  { State.initial with heap := [Obj.plainOf []] }

/-- The values `observe` refuses: primitives, virtual nodes, and values without
Observer while observation is toggled off, in server rendering, when the value
is not extensible or is flagged as a component instance. -/
def refused (s : State) (v : Val) : Bool :=
  match v with
  | .ref a =>
    match s.heap[a]? with
    | some o =>
      decide (o.kind = .vnode) ||
        (o.ob.isNone &&
          (!s.shouldObserve || s.serverRendering || !o.extensible || o.isVue))
    | none => true
  | _ => true

/-- A component instance with a property `a`, and the root data `{ a: 1 }` of
a component (its Observer counts one owner). -/
def sampleRoot : State :=
  { State.initial with
    heap := [Obj.vmOf [(.name "a", Desc.dataOf (.num 1))],
             { Obj.plainOf [(.name "a", Desc.reactiveOf (Slot.plainOf 1 (.num 1)))] with
               ob := some { dep := 0, vmCount := 1 } }],
    nextDep := 2 }

/-- An object whose property `a` is an accessor with a getter and no setter;
the getter returns the unobserved object at address 1. -/
def sampleGetterObj : State :=
  { State.initial with
    heap := [Obj.plainOf [(.name "a",
               { body := .accessor (some 0) none, enumerable := true, configurable := true })],
             Obj.plainOf []],
    cells := [.ref 1] }

/-- An object `{ a: y }` beside the unobserved object `y`. -/
def sampleParent : State :=
  { State.initial with
    heap := [Obj.plainOf [(.name "a", Desc.dataOf (.ref 1))], Obj.plainOf []] }

/-- The slot `defineReactive` installs over a property that had a getter `g`
and no setter, when it is called without a value. -/
def getterSlot (dep g : Nat) : Slot :=
  .base { dep := dep, val := .undefined, childOb := none, shallow := false,
          customSetter := false } (some g) none

/-- The registry `d` is the Observer registry of an observed element of
`elems`, or of an observed element of an array nested in `elems`. -/
inductive ElemDep (heap : List Obj) : List Val → Nat → Prop
  | own {elems : List Val} {a : Nat} {o : Obj} {t : Tag} :
      Val.ref a ∈ elems → heap[a]? = some o → o.ob = some t → ElemDep heap elems t.dep
  | nested {elems : List Val} {a : Nat} {o : Obj} {d : Nat} :
      Val.ref a ∈ elems → heap[a]? = some o → o.kind = .array →
      ElemDep heap o.elems d → ElemDep heap elems d

/-- The arrays nested in `elems` are nested less than `n` deep. -/
def depthWithin : Nat → List Obj → List Val → Bool
  | 0, _, _ => false
  | n + 1, heap, elems =>
    elems.all fun e =>
      match e with
      | .ref a =>
        match heap[a]? with
        | some o => if o.kind = .array then depthWithin n heap o.elems else true
        | none => true
      | _ => true

/-- The closure of the outermost layer of a slot. -/
def Slot.closure : Slot → Closure
  | .base c _ _ => c
  | .wrap c _ => c

/-- The registry `d` is one a getter with closure `c` collects when it reads
`value`: the registry of the slot, the registry of the Observer the closure
retains, and, when an Observer is retained and `value` is an array, the
registries of its observed elements. -/
def LayerDep (s : State) (c : Closure) (value : Val) (d : Nat) : Prop :=
  d = c.dep ∨
    ∃ ob, c.childOb = some ob ∧
      (d = ob.dep ∨
        ∃ a o, value = .ref a ∧ s.heap[a]? = some o ∧ o.kind = .array ∧
          ElemDep s.heap o.elems d)

/-- The registry `d` is one the getter of `slot` collects: what its own layer
collects, and what the getter it wraps collects. -/
inductive SlotDep (s : State) : Slot → Nat → Prop
  | layer {slot : Slot} {d : Nat} :
      LayerDep s slot.closure (peekSlot s.cells slot) d → SlotDep s slot d
  | inner {c : Closure} {slot : Slot} {d : Nat} :
      SlotDep s slot d → SlotDep s (.wrap c slot) d

/-- An evaluation unit is active; the heap holds an unobserved object, the
observed array `[y]` (registry 0) and its observed element `y` (registry 1). -/
def sampleWatched : State :=
  { State.initial with
    heap := [Obj.plainOf [],
             { Obj.arrayOf [.ref 2] with ob := some { dep := 0, vmCount := 0 },
                                         augmented := true },
             { Obj.plainOf [] with ob := some { dep := 1, vmCount := 0 } }],
    nextDep := 2,
    target := some 0 }

/-- A slot of registry 2 that holds the array of `sampleWatched` and retains
its Observer. -/
def sampleDeepSlot : Slot :=
  .base { dep := 2, val := .ref 1, childOb := some { value := 1, dep := 0 }, shallow := false,
          customSetter := false } none none

/-- A computation of an evaluation unit, as the sequence of the reads
`obj[key]` it performs. -/
def readAll (fuel : Nat) : State → List (Nat × Key) → Except Err State
  | s, [] => .ok s
  | s, r :: rest =>
    match getProp fuel s r.1 r.2 with
    | .ok (s1, _) => readAll fuel s1 rest
    | .error e => .error e

/-! ## Computed properties (`instance/state.js`) -/

/-- Modelled from the spec: a lazy evaluation unit (a `Watcher` of `./watcher`
constructed with `lazy: true`): its dirty flag, its cached value, the
registries it subscribed to on its last run, the number of runs of its
computation so far, and the number of calls of `evaluate()` so far. -/
structure LazyUnit where
  dirty : Bool
  value : Val
  deps : List Nat
  runs : Nat
  evaluations : Nat
  deriving DecidableEq, Repr

/-- Modelled from the spec: `evaluate()`, "if dirty, re-run the computation
inside the stack, clear dirty, cache the value". The computation is a
parameter: `compute k` is the value of its run number `k` and the registries
that run touched. -/
def LazyUnit.evaluate (compute : Nat → Val × List Nat) (w : LazyUnit) : LazyUnit :=
  if w.dirty then
    { dirty := false, value := (compute w.runs).1, deps := (compute w.runs).2,
      runs := w.runs + 1, evaluations := w.evaluations + 1 }
  else { w with evaluations := w.evaluations + 1 }

/-- Modelled from the spec: `update()` of a lazy unit, which a notification of
a registry it subscribed to calls: "merely mark dirty; do not re-run". -/
def LazyUnit.update (w : LazyUnit) : LazyUnit :=
  { w with dirty := true }

/-- What a computed getter uses of its component: `this._computedWatchers[key]`,
`Dep.target`, and the registries on which depend was called for the active
unit. -/
structure Computed where
  watcher : Option LazyUnit
  target : Option Nat
  collected : List Nat
  deriving DecidableEq, Repr

/-- Modelled from the spec: `watcher.depend()`, which makes the active unit
subscribe to every registry the lazy unit is subscribed to. -/
def LazyUnit.depend (w : LazyUnit) (c : Computed) : Computed :=
  { c with collected := c.collected ++ w.deps }

/-- The function `computedGetter` that `createComputedGetter(key)` returns. -/
def computedGetter (compute : Nat → Val × List Nat) (c : Computed) : Computed × Val :=
  match c.watcher with
  | some w =>
    let w1 := if w.dirty then w.evaluate compute else w
    let c1 := { c with watcher := some w1 }
    let c2 := if c1.target.isSome then w1.depend c1 else c1
    (c2, w1.value)
  | none => (c, .undefined)

/-- The values of `n` reads of the computed property in a row, and the
component after them. -/
def readTimes (compute : Nat → Val × List Nat) : Nat → Computed → Computed × List Val
  | 0, c => (c, [])
  | n + 1, c =>
    let r := computedGetter compute c
    let rest := readTimes compute n r.1
    (rest.1, r.2 :: rest.2)

/-- A notification of a registry the unit of the computed property subscribed
to: `update()` is called on the unit. -/
def Computed.notified (c : Computed) : Computed :=
  { c with watcher := c.watcher.map LazyUnit.update }

/-- The number of runs of the computation of the computed property so far. -/
def Computed.runs (c : Computed) : Nat :=
  match c.watcher with
  | some w => w.runs
  | none => 0

/-- The number of calls of `evaluate()` on the unit of the computed property
so far. -/
def Computed.evaluations (c : Computed) : Nat :=
  match c.watcher with
  | some w => w.evaluations
  | none => 0

/-! ## `$watch` (`instance/state.js`) -/

/-- The callback argument of `$watch`: a function, which may throw when it is
called, or a plain object `{ handler, immediate }`. -/
inductive Handler where
  | fn (id : Nat) (throws : Bool)
  | object (handler : Handler) (immediate : Bool)
  deriving DecidableEq, Repr

/-- The calls of callbacks so far, each with the function called and its
argument, and the functions whose error was given to `handleError`. -/
structure WatchState where
  calls : List (Nat × Val)
  handled : List Nat
  deriving DecidableEq, Repr

/-- `Vue.prototype.$watch(expOrFn, cb, options)`, where `immediate` is
`options.immediate`; for a plain object it goes through `createWatcher`, which
takes the object for the options. `construct` is
`new Watcher(vm, expOrFn, cb, options)` of `./watcher`, a parameter: it may
change the state and yields `watcher.value`. -/
def watch (construct : WatchState → WatchState × Val) (s : WatchState) :
    Handler → Bool → WatchState
  | .object handler immediate, _ => watch construct s handler immediate
  | .fn id throws, immediate =>
    let watcher := construct s
    if immediate then
      let s2 := { watcher.1 with calls := watcher.1.calls ++ [(id, watcher.2)] }
      if throws then { s2 with handled := s2.handled ++ [id] } else s2
    else watcher.1

/-- The value `v` is one `observe` is called on when the object `o` is given an
Observer: an element of an array, or the value of an enumerable configurable
property of another object that has no getter or has a setter. -/
def Visits (cells : List Val) (o : Obj) (v : Val) : Prop :=
  (o.kind = .array ∧ v ∈ o.elems) ∨
  (o.kind ≠ .array ∧ ∃ k d, findProp o.props k = some d ∧ d.enumerable = true ∧
    d.configurable = true ∧ getterOnly (some d) = false ∧ v = peekDesc cells d)

/-- The object at `a` is instrumented between `s` and `s'`: every value
`observe` accepts among those it visits from the object carries an Observer in
`s'`, and every enumerable configurable key of an object that is no array is a
reactive slot in `s'`. -/
def Instrumented (s s' : State) (a : Nat) : Prop :=
  ∀ o, s.heap[a]? = some o →
    (∀ v, Visits s.cells o v → canObserve s v = true → carriesObserver s' v = true) ∧
    (o.kind ≠ .array → ∀ k d, findProp o.props k = some d → d.enumerable = true →
      d.configurable = true → (slotAt s' a k).isSome = true)

/-- The object at `b` is the value `v`, or is found from `v` through array
elements and data-valued own enumerable properties. -/
inductive DataReach (s : State) : Val → Nat → Prop
  | here (a : Nat) : DataReach s (.ref a) a
  | elem (a : Nat) (o : Obj) (v : Val) (b : Nat) : s.heap[a]? = some o → o.kind = .array →
      v ∈ o.elems → DataReach s v b → DataReach s (.ref a) b
  | prop (a : Nat) (o : Obj) (k : Key) (d : Desc) (v : Val) (w : Bool) (b : Nat) :
      s.heap[a]? = some o → o.kind = .plain → findProp o.props k = some d →
      d.body = .data v w → d.enumerable = true → DataReach s v b → DataReach s (.ref a) b

/-- The object at `b` is the value `v`, or is found from `v` through array
elements and data-valued own enumerable configurable properties of objects that
carry no Observer and pass the guard of `observe` for a new one. -/
inductive Traverse (s : State) : Val → Nat → Prop
  | here (a : Nat) : Traverse s (.ref a) a
  | elem (a : Nat) (o : Obj) (v : Val) (b : Nat) : s.heap[a]? = some o → o.ob = none →
      observable s o = true → o.kind = .array →
      v ∈ o.elems → Traverse s v b → Traverse s (.ref a) b
  | prop (a : Nat) (o : Obj) (k : Key) (d : Desc) (v : Val) (w : Bool) (b : Nat) :
      s.heap[a]? = some o → o.ob = none → observable s o = true → o.kind = .plain →
      findProp o.props k = some d → d.body = .data v w → d.enumerable = true →
      d.configurable = true → Traverse s v b → Traverse s (.ref a) b

/-- An object whose property `a` is enumerable, writable and not configurable,
and holds the unobserved object at address 1. -/
def sampleFixedPath : State :=
  { State.initial with
    heap := [Obj.plainOf [(.name "a",
               { body := .data (.ref 1) true, enumerable := true, configurable := false })],
             Obj.plainOf []] }

/-- An object `{ a: m }` where `m = { b: y }` is not extensible and `y` is an
unobserved plain object. -/
def sampleFrozenMid : State :=
  { State.initial with
    heap := [Obj.plainOf [(.name "a", Desc.dataOf (.ref 1))],
             { Obj.plainOf [(.name "b", Desc.dataOf (.ref 2))] with extensible := false },
             Obj.plainOf []] }

/-- An object `{ a: m }` where `m` is already observed and has since gained the
plain property `b`, which holds the unobserved plain object `y`. -/
def sampleObservedMid : State :=
  { State.initial with
    heap := [Obj.plainOf [(.name "a", Desc.dataOf (.ref 1))],
             { Obj.plainOf [(.name "b", Desc.dataOf (.ref 2))] with
               ob := some { dep := 0, vmCount := 0 } },
             Obj.plainOf []],
    nextDep := 1 }

/-- An object `{ a: vm }` where `vm` is flagged as a component instance. -/
def sampleVmChild : State :=
  { State.initial with
    heap := [Obj.plainOf [(.name "a", Desc.dataOf (.ref 1))],
             Obj.vmOf []] }

/-- An observed object whose property `a` is a reactive slot of registry 1 that
is not shallow and holds 1, beside an unobserved plain object. -/
def sampleDeep : State :=
  { State.initial with
    heap := [{ Obj.plainOf [(.name "a", Desc.reactiveOf (Slot.plainOf 1 (.num 1)))] with
               ob := some { dep := 0, vmCount := 0 } },
             Obj.plainOf []],
    nextDep := 2 }

/-- No evaluation unit is active, or the arrays of the heap are nested less
than `d` deep through their elements (no array contains itself). Under this
condition the reads that `observe` performs return. -/
def Calm (d : Nat) (s : State) : Prop :=
  s.target = none ∨
    ∀ (a : Nat) (o : Obj), s.heap[a]? = some o → o.kind = .array →
      depthWithin d s.heap o.elems = true

/-- An unobserved object beside the array `x = [x]`, which contains itself. -/
def sampleLoop : State :=
  { State.initial with heap := [Obj.plainOf [], Obj.arrayOf [.ref 1]] }

/-- The state `sampleLoop` after `defineReactive(obj, "a", x)`: the object is
still unobserved, its property `a` is a reactive slot (registry 0) that holds
the array `x = [x]` and retains its Observer (registry 1). -/
def sampleLoopSlot : State :=
  { State.initial with
    heap := [Obj.plainOf [(.name "a", Desc.reactiveOf
               (.base { dep := 0, val := .ref 1, childOb := some { value := 1, dep := 1 },
                        shallow := false, customSetter := false } none none))],
             { Obj.arrayOf [.ref 1] with ob := some { dep := 1, vmCount := 0 },
                                         augmented := true }],
    nextDep := 2 }

/-- An object `r = { a: r, b: x }` that references itself, and the array
`x = [x, r]` that contains itself and the object. -/
def sampleCycle : State :=
  { State.initial with
    heap := [Obj.plainOf [(.name "a", Desc.dataOf (.ref 0)), (.name "b", Desc.dataOf (.ref 1))],
             Obj.arrayOf [.ref 1, .ref 0]] }

/-! ## `getData` (`instance/state.js`) -/

/-- Modelled from the spec: the Active-Evaluation Stack of `./dep`, bottom
first; an entry `none` is a frame with no unit, as `pushTarget()` makes. -/
abbrev EvalStack := List (Option Nat)

/-- Modelled from the spec: "the top of stack is current active unit". -/
def activeUnit (st : EvalStack) : Option Nat :=
  st.getLast?.join

/-- Modelled from the spec: `pushTarget(unit)`, the acquisition of a frame. -/
def pushTarget (st : EvalStack) (unit : Option Nat) : EvalStack :=
  st ++ [unit]

/-- Modelled from the spec: `popTarget()`, the release of the top frame. -/
def popTarget (st : EvalStack) : EvalStack :=
  st.dropLast

/-- How a call of the data function ends. -/
inductive Outcome where
  | returns (v : Val)
  | throws (e : Val)
  deriving DecidableEq, Repr

/-- What `getData` returns: what the data function returned, or the empty
object `{}`. -/
inductive DataResult where
  | value (v : Val)
  | emptyObject
  deriving DecidableEq, Repr

/-- The state around a call of `getData`: the stack, and the errors given to
`handleError` so far. -/
structure DataState where
  stack : EvalStack
  handled : List Val
  deriving DecidableEq, Repr

/-- `getData(data, vm)`; `data` is the data function, a parameter: from the
stack it is called with it yields the stack it leaves and its outcome. -/
def getData (data : EvalStack → EvalStack × Outcome) (s : DataState) : DataState × DataResult :=
  let called := data (pushTarget s.stack none)
  match called.2 with
  | .returns v => ({ s with stack := popTarget called.1 }, .value v)
  | .throws e =>
    ({ stack := popTarget called.1, handled := s.handled ++ [e] }, .emptyObject)

/-! ## Events (`instance/events.js`) -/

/-- A function that can be registered for an event: a function of the user, or
the wrapper `on` that `$once(event, fn)` builds, which has an identity of its
own and carries `on.fn = fn`. -/
inductive Listener where
  | fn (id : Nat)
  | once (id : Nat) (event : String) (fn : Listener)
  deriving DecidableEq, Repr

/-- The function of the user that a call of the listener ends in. -/
def Listener.core : Listener → Nat
  | .fn id => id
  | .once _ _ f => f.core

/-- The events of a component: `vm._events` as the handlers of each event in
the order of their registration (an event with no entry, or with the entry
`null`, has none), `vm._hasHookEvent`, and the number of wrappers `$once` has
built. -/
structure Registry where
  events : String → List Listener
  hasHookEvent : Bool
  nextOnce : Nat

/-- `vm.$on(event, fn)` for one event name. -/
def Registry.on (r : Registry) (event : String) (fn : Listener) : Registry :=
  { r with events := Function.update r.events event (r.events event ++ [fn]),
           hasHookEvent := r.hasHookEvent || event.startsWith "hook:" }

/-- The test `cb === fn || cb.fn === fn` of `$off`. -/
def Listener.matches (cb fn : Listener) : Bool :=
  cb == fn ||
    match cb with
    | .once _ _ f => f == fn
    | .fn _ => false

/-- The loop `while (i--)` of `$off`, started with `i` at the length: going
down, the first handler that passes the test is spliced out and the loop
ends. -/
def offLoop (cbs : List Listener) (fn : Listener) : Nat → List Listener
  | 0 => cbs
  | i + 1 =>
    match cbs[i]? with
    | some cb => if cb.matches fn then cbs.eraseIdx i else offLoop cbs fn i
    | none => offLoop cbs fn i

/-- `vm.$off(event, fn)` for one event name: `$off()` is `off none none`,
`$off(event)` is `off (some event) none`. -/
def Registry.off (r : Registry) (event : Option String) (fn : Option Listener) : Registry :=
  match event, fn with
  | none, none => { r with events := fun _ => [] }
  | none, some _ => r
  | some e, none => { r with events := Function.update r.events e [] }
  | some e, some f =>
    { r with events := Function.update r.events e (offLoop (r.events e) f (r.events e).length) }

/-- `vm.$once(event, fn)`: a new wrapper `on` around `fn` is registered. -/
def Registry.once (r : Registry) (event : String) (fn : Listener) : Registry :=
  ({ r with nextOnce := r.nextOnce + 1 } : Registry).on event (.once r.nextOnce event fn)

/-- The calls of functions of the user that `$emit` made, each with its
arguments, in order. -/
abbrev CallLog := List (Nat × List Val)

/-- The call `invokeWithErrorHandling(cb, vm, args, vm, info)` of `$emit`,
which calls `cb` with `args`. A function of the user is entered in the log and
has its effect on the registry, `body`, a parameter. The wrapper of `$once`
runs `vm.$off(event, on)` and then `fn.apply(vm, arguments)`. -/
def invoke (body : Nat → List Val → Registry → Registry) :
    Listener → List Val → Registry × CallLog → Registry × CallLog
  | .fn id, args, st => (body id args st.1, st.2 ++ [(id, args)])
  | .once w e f, args, st =>
    invoke body f args (st.1.off (some e) (some (.once w e f)), st.2)

/-- `vm.$emit(event, ...args)`. The loop runs over the handlers registered at
the call: over a copy when there are several, and over the one handler, which
it reads before any handler runs, when there is one. -/
def Registry.emit (body : Nat → List Val → Registry → Registry) (r : Registry)
    (event : String) (args : List Val) (log : CallLog) : Registry × CallLog :=
  (r.events event).foldl (fun st cb => invoke body cb args st) (r, log)

/-- A sequence of calls of `$emit`. -/
def emitAll (body : Nat → List Val → Registry → Registry) :
    Registry × CallLog → List (String × List Val) → Registry × CallLog
  | st, [] => st
  | st, e :: rest => emitAll body (st.1.emit body e.1 e.2 st.2) rest

/-- The handlers among `cbs` whose call ends in the function `c`. -/
def wraps (c : Nat) (cbs : List Listener) : List Listener :=
  cbs.filter (fun cb => cb.core == c)

/-- The entries of a log for the function `c`. -/
def callsOf (c : Nat) (log : CallLog) : CallLog :=
  log.filter (fun x => x.1 == c)

/-- A registry with the handlers `f0` and `f1` for the event `"e"`. -/
def sampleRegistry : Registry :=
  { events := fun e => if e = "e" then [.fn 0, .fn 1] else [],
    hasHookEvent := false, nextOnce := 0 }

/-- The observed array `[1, 2]` after `Object.preventExtensions`. -/
def sampleFixedArray : State :=
  { State.initial with
    heap := [{ Obj.arrayOf [.num 1, .num 2] with
               ob := some { dep := 0, vmCount := 0 }, augmented := true,
               extensible := false }],
    nextDep := 1 }

/-- Every array that carries an Observer is intercepted: its seven mutating
methods are the wrappers of `array.js`. -/
def Intercepted (s : State) : Prop :=
  ∀ (a : Nat) (o : Obj), s.heap[a]? = some o → o.kind = .array → o.ob.isSome = true →
    o.augmented = true

/-- The registries a changing write to the slot notifies: those of the slots it
wraps, the innermost first, then its own. -/
def Slot.deps : Slot → List Nat
  | .base c _ _ => [c.dep]
  | .wrap c inner => inner.deps ++ [c.dep]

/-- The innermost slot of a slot: the one that wraps no reactive slot. -/
def Slot.innermost : Slot → Slot
  | .base c g st => .base c g st
  | .wrap _ inner => inner.innermost

/-- The getter and the setter of the accessor the innermost slot wraps. -/
def Slot.wrapped : Slot → Option Nat × Option Nat
  | .base _ g st => (g, st)
  | .wrap _ inner => inner.wrapped

/-- A getter-only accessor `a` over cell 0, made reactive twice, on an
observed object. -/
def sampleGetterTwice : State :=
  { State.initial with
    heap := [{ Obj.plainOf [(.name "a", Desc.reactiveOf
                (.wrap { dep := 2, val := .num 1, childOb := none, shallow := false,
                         customSetter := false }
                  (.base { dep := 1, val := .undefined, childOb := none, shallow := false,
                           customSetter := false } (some 0) none)))] with
               ob := some { dep := 0, vmCount := 0 } }],
    cells := [.num 1],
    nextDep := 3 }

/-- What a run of `reactiveSetter` keeps of a state: the active unit, the
values that carry an Observer and those `observe` accepts; no object loses its
Observer. -/
def Keeps (s s' : State) : Prop :=
  s'.target = s.target ∧ untagged s' ≤ untagged s ∧
    (∀ v, canObserve s v = true → canObserve s' v = true) ∧
    (∀ v, carriesObserver s v = true → carriesObserver s' v = true)

/-- The observed object `{ a: 1 }` whose property `a` was made reactive twice:
the slot of registry 2 wraps the slot of registry 1. -/
def sampleTwice : State :=
  { State.initial with
    heap := [{ Obj.plainOf [(.name "a", Desc.reactiveOf
                (.wrap { dep := 2, val := .num 1, childOb := none, shallow := false,
                         customSetter := false } (Slot.plainOf 1 (.num 1))))] with
               ob := some { dep := 0, vmCount := 0 } }],
    nextDep := 3 }

/-- A call a function of the user makes on its component while it runs. -/
inductive Act where
  | on (event : String) (fn : Listener)
  | once (event : String) (fn : Listener)
  | off (event : Option String) (fn : Option Listener)
  | emit (event : String) (args : List Val)

/-- The calls of a function of the user, one after the other; `emitF` is
`$emit`. -/
def runActs (emitF : String → List Val → Registry × CallLog → Except Err (Registry × CallLog)) :
    List Act → Registry × CallLog → Except Err (Registry × CallLog)
  | [], st => .ok st
  | .on e f :: rest, st => runActs emitF rest (st.1.on e f, st.2)
  | .once e f :: rest, st => runActs emitF rest (st.1.once e f, st.2)
  | .off e f :: rest, st => runActs emitF rest (st.1.off e f, st.2)
  | .emit e args :: rest, st =>
    match emitF e args st with
    | .ok st1 => runActs emitF rest st1
    | .error err => .error err

/-- The call `invokeWithErrorHandling(cb, vm, args, vm, info)` of `$emit` where
the functions of the user may call `$on`, `$once`, `$off` and `$emit`:
`prog id args` are the calls the function `id` makes when it is called with
`args`. The wrapper of `$once` runs `vm.$off(event, on)` and then
`fn.apply(vm, arguments)`. -/
def invokeWith (prog : Nat → List Val → List Act)
    (emitF : String → List Val → Registry × CallLog → Except Err (Registry × CallLog)) :
    Listener → List Val → Registry × CallLog → Except Err (Registry × CallLog)
  | .fn id, args, st => runActs emitF (prog id args) (st.1, st.2 ++ [(id, args)])
  | .once w e f, args, st =>
    invokeWith prog emitF f args (st.1.off (some e) (some (.once w e f)), st.2)

/-- The loop of `$emit` over the handlers `cbs` it read when it was called. -/
def emitLoop (prog : Nat → List Val → List Act)
    (emitF : String → List Val → Registry × CallLog → Except Err (Registry × CallLog))
    (args : List Val) : List Listener → Registry × CallLog → Except Err (Registry × CallLog)
  | [], st => .ok st
  | cb :: rest, st =>
    match invokeWith prog emitF cb args st with
    | .ok st1 => emitLoop prog emitF args rest st1
    | .error err => .error err

/-- `vm.$emit(event, ...args)` where handlers may emit events themselves;
`fuel` bounds the nesting of the calls of `$emit`. The loop runs over the
handlers registered at the call (a copy when there are several), whatever the
handlers do to the registry meanwhile. -/
def emitDeep (prog : Nat → List Val → List Act) :
    Nat → String → List Val → Registry × CallLog → Except Err (Registry × CallLog)
  | 0, _, _, _ => .error .fuel
  | fuel + 1, event, args, st =>
    emitLoop prog (emitDeep prog fuel) args (st.1.events event) st

/-- The effect on the registry of a function of the user that emits nothing. -/
def bodyOf (prog : Nat → List Val → List Act) (id : Nat) (args : List Val) (r : Registry) :
    Registry :=
  (prog id args).foldl
    (fun r1 act =>
      match act with
      | .on e f => r1.on e f
      | .once e f => r1.once e f
      | .off e f => r1.off e f
      | .emit _ _ => r1) r

/-- Whether the act is a call of `$emit`. -/
def Act.isEmit : Act → Bool
  | .emit _ _ => true
  | _ => false

/-- A component with no handlers. -/
def Registry.empty : Registry :=
  { events := fun _ => [], hasHookEvent := false, nextOnce := 0 }

/-- The functions `g` (number 0), which unregisters itself from `"e"` and emits
`"e"` again, and `fn` (number 1), which calls nothing:
`function g () { vm.$off("e", g); vm.$emit("e") }`. -/
def sampleReemit (id : Nat) (_ : List Val) : List Act :=
  if id = 0 then [.off (some "e") (some (.fn 0)), .emit "e" []] else []

/-! ## Dependency collection only adds events -/

theorem Reads.same (s : State) : Reads s s :=
  ⟨[], by simp, by simp⟩

theorem Reads.seq {s s1 s2 : State} (h1 : Reads s s1) (h2 : Reads s1 s2) : Reads s s2 := by
  obtain ⟨d1, hd1, rfl⟩ := h1
  obtain ⟨d2, hd2, rfl⟩ := h2
  refine ⟨d1 ++ d2, ?_, by simp⟩
  intro e he
  rcases List.mem_append.mp he with h | h
  · exact hd1 e h
  · exact hd2 e h

theorem reads_depDepend (s : State) (d : Nat) : Reads s (depDepend s d) :=
  ⟨[.depend d], by simp [Event.isDepend], rfl⟩

theorem dependArray_reads (fuel : Nat) : ∀ (l : List Val) (s s' : State),
    dependArray fuel s l = .ok s' → Reads s s' := by
  induction fuel with
  | zero => intro l s s' h; simp [dependArray] at h
  | succ n ih =>
    intro l
    induction l with
    | nil => intro s s' h; simp [dependArray] at h; subst h; exact Reads.same s
    | cons e rest ihl =>
      intro s s' h
      cases e with
      | ref a =>
        simp only [dependArray] at h
        split at h
        · rename_i o ho
          have h1 : Reads s (match o.ob with | some t => depDepend s t.dep | none => s) := by
            cases o.ob with
            | none => exact Reads.same s
            | some t => exact reads_depDepend s t.dep
          split at h
          · split at h
            · rename_i s2 h2
              exact (h1.seq (ih _ _ _ h2)).seq (ihl _ _ h)
            · simp at h
          · exact h1.seq (ihl _ _ h)
        · exact ihl _ _ h
      | _ => simp only [dependArray] at h; exact ihl _ _ h

theorem Reads.heap_eq {s s' : State} (h : Reads s s') : s'.heap = s.heap := by
  obtain ⟨ds, _, rfl⟩ := h; rfl

theorem Reads.cells_eq {s s' : State} (h : Reads s s') : s'.cells = s.cells := by
  obtain ⟨ds, _, rfl⟩ := h; rfl

theorem Reads.target_eq {s s' : State} (h : Reads s s') : s'.target = s.target := by
  obtain ⟨ds, _, rfl⟩ := h; rfl

theorem notifications_append (l1 l2 : List Event) :
    notifications (l1 ++ l2) = notifications l1 ++ notifications l2 := by
  induction l1 with
  | nil => rfl
  | cons e rest ih => cases e <;> simp [notifications, ih]

theorem setterCalls_append (l1 l2 : List Event) :
    setterCalls (l1 ++ l2) = setterCalls l1 ++ setterCalls l2 := by
  induction l1 with
  | nil => rfl
  | cons e rest ih => cases e <;> simp [setterCalls, ih]

theorem notifications_depends (ds : List Event) (h : ∀ e ∈ ds, e.isDepend = true) :
    notifications ds = [] := by
  induction ds with
  | nil => rfl
  | cons e rest ih =>
    have he := h e (List.mem_cons_self _ _)
    cases e <;> simp [Event.isDepend] at he
    simp only [notifications]
    exact ih (fun x hx => h x (List.mem_cons_of_mem _ hx))

theorem setterCalls_depends (ds : List Event) (h : ∀ e ∈ ds, e.isDepend = true) :
    setterCalls ds = [] := by
  induction ds with
  | nil => rfl
  | cons e rest ih =>
    have he := h e (List.mem_cons_self _ _)
    cases e <;> simp [Event.isDepend] at he
    simp only [setterCalls]
    exact ih (fun x hx => h x (List.mem_cons_of_mem _ hx))

theorem Reads.notifications_eq {s s' : State} (h : Reads s s') :
    notifications s'.trace = notifications s.trace := by
  obtain ⟨ds, hds, rfl⟩ := h
  simp [notifications_append, notifications_depends ds hds]

theorem Reads.setterCalls_eq {s s' : State} (h : Reads s s') :
    setterCalls s'.trace = setterCalls s.trace := by
  obtain ⟨ds, hds, rfl⟩ := h
  simp [setterCalls_append, setterCalls_depends ds hds]

theorem collect_spec {fuel : Nat} {c : Closure} {s s' : State} {v : Val}
    (h : collect fuel c s v = .ok s') : Reads s s' ∧ (s.target = none → s' = s) := by
  unfold collect at h
  split at h
  · rename_i ht
    refine ⟨?_, fun hn => by simp [hn] at ht⟩
    have h1 := reads_depDepend s c.dep
    split at h
    · rename_i ob _
      have h2 := h1.seq (reads_depDepend (depDepend s c.dep) ob.dep)
      split at h
      · dsimp only at h
        split at h
        · split at h
          · exact h2.seq (dependArray_reads _ _ _ _ h)
          · cases h; exact h2
        · cases h; exact h2
      · cases h; exact h2
    · cases h; exact h1
  · cases h
    exact ⟨Reads.same s, fun _ => rfl⟩

theorem collect_quiet (fuel : Nat) (c : Closure) (s : State) (v : Val)
    (ht : s.target = none) : collect fuel c s v = .ok s := by
  simp [collect, ht]

theorem reactiveGetter_spec {fuel : Nat} : ∀ {slot : Slot} {s s' : State} {v : Val},
    reactiveGetter fuel slot s = .ok (s', v) →
      Reads s s' ∧ v = peekSlot s.cells slot ∧ (s.target = none → s' = s) := by
  intro slot
  induction slot with
  | base c g st =>
    intro s s' v h
    simp only [reactiveGetter] at h
    split at h
    · rename_i s1 h1
      cases h
      obtain ⟨hr, hq⟩ := collect_spec h1
      exact ⟨hr, by cases g <;> rfl, hq⟩
    · simp at h
  | wrap c inner ih =>
    intro s s' v h
    simp only [reactiveGetter] at h
    split at h
    · rename_i s0 value h0
      obtain ⟨hr0, hv0, hq0⟩ := ih h0
      split at h
      · rename_i s1 h1
        cases h
        obtain ⟨hr, hq⟩ := collect_spec h1
        refine ⟨hr0.seq hr, by simpa [peekSlot] using hv0, fun hn => ?_⟩
        have e0 := hq0 hn
        subst e0
        exact hq hn
      · simp at h
    · simp at h

theorem reactiveGetter_quiet (fuel : Nat) (slot : Slot) (s : State) (ht : s.target = none) :
    reactiveGetter fuel slot s = .ok (s, peekSlot s.cells slot) := by
  induction slot with
  | base c g st => cases g <;> simp [reactiveGetter, collect_quiet _ _ _ _ ht, peekSlot]
  | wrap c inner ih => simp [reactiveGetter, ih, collect_quiet _ _ _ _ ht, peekSlot]

theorem currentValue_spec {fuel : Nat} {slot : Slot} {s s' : State} {v : Val}
    (h : currentValue fuel slot s = .ok (s', v)) :
      Reads s s' ∧ v = peekSlot s.cells slot ∧ (s.target = none → s' = s) := by
  cases slot with
  | base c g st =>
    simp only [currentValue] at h
    cases h
    exact ⟨Reads.same s, by cases g <;> rfl, fun _ => rfl⟩
  | wrap c inner =>
    simp only [currentValue] at h
    simpa [peekSlot] using reactiveGetter_spec h

theorem getProp_spec {fuel : Nat} {s s' : State} {obj : Nat} {key : Key} {v : Val}
    (h : getProp fuel s obj key = .ok (s', v)) :
      Reads s s' ∧ v = peek s obj key ∧ (s.target = none → s' = s) := by
  unfold getProp at h
  unfold peek
  split at h
  · cases h; exact ⟨Reads.same s, rfl, fun _ => rfl⟩
  · split at h
    · cases h; exact ⟨Reads.same s, rfl, fun _ => rfl⟩
    · rename_i d hd
      split at h
      · rename_i hb; cases h; exact ⟨Reads.same s, by simp [peekDesc, hb], fun _ => rfl⟩
      · rename_i hb; cases h; exact ⟨Reads.same s, by simp [peekDesc, hb], fun _ => rfl⟩
      · rename_i hb; cases h; exact ⟨Reads.same s, by simp [peekDesc, hb], fun _ => rfl⟩
      · rename_i slot hb
        have := reactiveGetter_spec h
        simpa [peekDesc, hb] using this

theorem getProp_quiet (fuel : Nat) (s : State) (obj : Nat) (key : Key) (ht : s.target = none) :
    getProp fuel s obj key = .ok (s, peek s obj key) := by
  unfold getProp peek
  split
  · rfl
  · split
    · rfl
    · rename_i d hd
      split <;> rename_i hb <;> simp [peekDesc, hb, reactiveGetter_quiet _ _ _ ht]

/-! ## What instrumentation preserves -/

theorem ObjExt.unchanged (cells : List Val) (o : Obj) : ObjExt cells o o where
  kind := rfl
  extensible := rfl
  isVue := rfl
  elems := rfl
  tag := fun _ h => h
  absent := fun _ h => h
  present := fun _ d h => ⟨d, h, rfl, fun hc => hc⟩

theorem ObjExt.comp {cells : List Val} {o o1 o2 : Obj} (h1 : ObjExt cells o o1)
    (h2 : ObjExt cells o1 o2) : ObjExt cells o o2 where
  kind := h2.kind.trans h1.kind
  extensible := h2.extensible.trans h1.extensible
  isVue := h2.isVue.trans h1.isVue
  elems := h2.elems.trans h1.elems
  tag := fun t h => h2.tag t (h1.tag t h)
  absent := fun k h => h2.absent k (h1.absent k h)
  present := fun k d h => by
    obtain ⟨d1, hd1, hp1, hc1⟩ := h1.present k d h
    obtain ⟨d2, hd2, hp2, hc2⟩ := h2.present k d1 hd1
    exact ⟨d2, hd2, hp2.trans hp1, fun hc => hc2 (hc1 hc)⟩

theorem ExtOn.nothing (F : Nat → Prop) (s : State) : ExtOn F s s where
  len := rfl
  cells := rfl
  target := rfl
  shouldObserve := rfl
  serverRendering := rfl
  production := rfl
  hasProto := rfl
  trace := ⟨[], by simp, by simp⟩
  quiet := fun _ => rfl
  frame := fun _ _ _ h _ => h
  obj := fun _ o h => ⟨o, h, ObjExt.unchanged _ o⟩
  untouched := fun _ _ h _ => h

theorem ExtOn.chain {F : Nat → Prop} {s s1 s2 : State} (h1 : ExtOn F s s1)
    (h2 : ExtOn F s1 s2) : ExtOn F s s2 where
  len := h2.len.trans h1.len
  cells := h2.cells.trans h1.cells
  target := h2.target.trans h1.target
  shouldObserve := h2.shouldObserve.trans h1.shouldObserve
  serverRendering := h2.serverRendering.trans h1.serverRendering
  production := h2.production.trans h1.production
  hasProto := h2.hasProto.trans h1.hasProto
  trace := by
    obtain ⟨d1, hd1, e1⟩ := h1.trace
    obtain ⟨d2, hd2, e2⟩ := h2.trace
    refine ⟨d1 ++ d2, ?_, by rw [e2, e1, List.append_assoc]⟩
    intro e he
    rcases List.mem_append.mp he with h | h
    · exact hd1 e h
    · exact hd2 e h
  quiet := fun hn => (h2.quiet (h1.target.trans hn)).trans (h1.quiet hn)
  frame := fun a o hF h ht => h2.frame a o hF (h1.frame a o hF h ht) ht
  obj := fun a o h => by
    obtain ⟨o1, ho1, e1⟩ := h1.obj a o h
    obtain ⟨o2, ho2, e2⟩ := h2.obj a o1 ho1
    exact ⟨o2, ho2, e1.comp (h1.cells ▸ e2)⟩
  untouched := fun a o' h hn => h1.untouched a o' (h2.untouched a o' h hn) hn

theorem ExtOn.mono {F G : Nat → Prop} {s s' : State} (h : ExtOn F s s')
    (hFG : ∀ a, F a → G a) : ExtOn G s s' :=
  { h with frame := fun a o hG => h.frame a o (fun hF => hG (hFG a hF)) }

theorem ExtOn.of_reads {F : Nat → Prop} {s s' : State} (h : Reads s s')
    (hq : s.target = none → s' = s) : ExtOn F s s' := by
  obtain ⟨ds, hds, rfl⟩ := h
  exact
    { len := rfl, cells := rfl, target := rfl, shouldObserve := rfl, serverRendering := rfl,
      production := rfl, hasProto := rfl, trace := ⟨ds, hds, rfl⟩,
      quiet := fun hn => by rw [hq hn],
      frame := fun _ _ _ h _ => h,
      obj := fun _ o h => ⟨o, h, ObjExt.unchanged _ o⟩,
      untouched := fun _ _ h _ => h }

theorem extOn_newDep (F : Nat → Prop) (s : State) : ExtOn F s (newDep s).1 where
  len := rfl
  cells := rfl
  target := rfl
  shouldObserve := rfl
  serverRendering := rfl
  production := rfl
  hasProto := rfl
  trace := ⟨[], by simp, by simp [newDep]⟩
  quiet := fun _ => rfl
  frame := fun _ _ _ h _ => h
  obj := fun _ o h => ⟨o, h, ObjExt.unchanged _ o⟩
  untouched := fun _ _ h _ => h

theorem getElem?_setObj_self {s : State} {a : Nat} {o o' : Obj} (h : s.heap[a]? = some o) :
    (s.setObj a o').heap[a]? = some o' := by
  have hlt : a < s.heap.length := by
    by_contra hge
    rw [List.getElem?_eq_none (by omega)] at h
    cases h
  simp [State.setObj, List.getElem?_set, hlt]

theorem getElem?_setObj_ne {s : State} {a b : Nat} {o' : Obj} (h : b ≠ a) :
    (s.setObj a o').heap[b]? = s.heap[b]? := by
  simp [State.setObj, List.getElem?_set, Ne.symm h]

theorem extOn_setObj {F : Nat → Prop} {s : State} {a : Nat} {o o' : Obj}
    (h : s.heap[a]? = some o) (he : ObjExt s.cells o o') (hF : F a ∨ o.ob = none)
    (htag : o'.ob.isSome = true) : ExtOn F s (s.setObj a o') where
  len := by simp [State.setObj]
  cells := rfl
  target := rfl
  shouldObserve := rfl
  serverRendering := rfl
  production := rfl
  hasProto := rfl
  trace := ⟨[], by simp, by simp [State.setObj]⟩
  quiet := fun _ => rfl
  frame := fun b ob hb hget ht => by
    by_cases hba : b = a
    · subst hba
      rcases hF with hF | hF
      · exact absurd hF hb
      · rw [h] at hget
        cases hget
        simp [hF] at ht
    · rw [getElem?_setObj_ne hba]; exact hget
  obj := fun b ob hget => by
    by_cases hba : b = a
    · subst hba
      rw [h] at hget
      cases hget
      exact ⟨o', getElem?_setObj_self h, he⟩
    · exact ⟨ob, by rw [getElem?_setObj_ne hba]; exact hget, ObjExt.unchanged _ ob⟩
  untouched := fun b ob hget hn => by
    by_cases hba : b = a
    · subst hba
      rw [getElem?_setObj_self h] at hget
      cases hget
      simp [hn] at htag
    · rw [getElem?_setObj_ne hba] at hget; exact hget

theorem ExtOn.close {a : Nat} {s s' : State} {o : Obj} (h : ExtOn (fun b => b = a) s s')
    (hget : s.heap[a]? = some o) (hob : o.ob = none) : Ext s s' :=
  { h with
    frame := fun b ob _ hb ht => by
      by_cases hba : b = a
      · subst hba
        rw [hget] at hb
        cases hb
        simp [hob] at ht
      · exact h.frame b ob hba hb ht }

theorem findProp_putProp (ps : List (Key × Desc)) (k k' : Key) (d : Desc) :
    findProp (putProp ps k d) k' = if k' = k then some d else findProp ps k' := by
  induction ps with
  | nil =>
    by_cases h : k' = k
    · simp [putProp, findProp, h]
    · simp [putProp, findProp, h, Ne.symm h]
  | cons p rest ih =>
    obtain ⟨k0, d0⟩ := p
    by_cases h0 : k0 = k
    · subst h0
      by_cases h : k' = k0
      · simp [putProp, findProp, h]
      · simp [putProp, findProp, h, Ne.symm h]
    · by_cases h : k' = k
      · subst h
        simp [putProp, findProp, h0, ih]
      · by_cases h1 : k0 = k'
        · simp [putProp, findProp, h0, h1, h]
        · simp [putProp, findProp, h0, h1, h, ih]

theorem peekSlot_makeSlot (cells : List Val) (c : Closure) (d : Desc)
    (hv : getterOnly (some d) = false → c.val = peekDesc cells d) :
    peekSlot cells (makeSlot c (some d)) = peekDesc cells d := by
  obtain ⟨b, en, cf⟩ := d
  cases b with
  | data v w =>
    have := hv (by simp [getterOnly])
    simp [makeSlot, peekSlot, peekDesc] at this ⊢
    exact this
  | accessor g st =>
    cases g with
    | none =>
      have := hv (by simp [getterOnly])
      simp [makeSlot, peekSlot, peekDesc] at this ⊢
      exact this
    | some cell => simp [makeSlot, peekSlot, peekDesc]
  | reactive slot => simp [makeSlot, peekSlot, peekDesc]

theorem defineReactiveWith_ext {obs : State → Val → Except Err (State × Option Observer)}
    {fuel : Nat} {F : Nat → Prop}
    (hobs : ∀ s v s' r, obs s v = .ok (s', r) → Ext s s')
    {s s' : State} {obj : Nat} {key : Key} {o : Obj}
    (hget : s.heap[obj]? = some o) (hkey : (findProp o.props key).isSome = true) (hF : F obj)
    (htag : o.ob.isSome = true)
    (h : defineReactiveWith obs fuel s obj key none false false = .ok s') : ExtOn F s s' := by
  obtain ⟨d, hd⟩ := Option.isSome_iff_exists.mp hkey
  unfold defineReactiveWith at h
  simp only [newDep] at h
  have hget1 : ({ s with nextDep := s.nextDep + 1 } : State).heap[obj]? = some o := hget
  rw [hget1] at h
  simp only [hd] at h
  have e0 : ExtOn F s { s with nextDep := s.nextDep + 1 } := extOn_newDep F s
  split at h
  · cases h; exact e0
  · rename_i hconf
    simp at hconf
    split at h
    · simp at h
    · rename_i s1 v hread
      have hr : Reads { s with nextDep := s.nextDep + 1 } s1 ∧
          (getterOnly (some d) = false → v = peekDesc s.cells d) ∧
          (s.target = none → s1 = { s with nextDep := s.nextDep + 1 }) := by
        split at hread
        · cases hread
          exact ⟨Reads.same _, fun hg => by simp_all, fun _ => rfl⟩
        · rename_i hg
          obtain ⟨r1, r2, r3⟩ := getProp_spec hread
          refine ⟨r1, fun _ => ?_, r3⟩
          rw [r2]
          simp [peek, hget1, hd]
      obtain ⟨hr1, hr2, hr3⟩ := hr
      have e1 : ExtOn F s s1 := e0.chain (ExtOn.of_reads hr1 hr3)
      split at h
      · simp at h
      · rename_i s2 childOb hchild
        simp only [Bool.false_eq_true, if_false] at hchild
        have e2 : ExtOn F s s2 := e1.chain ((hobs _ _ _ _ hchild).mono (fun _ hf => hf.elim))
        obtain ⟨o2, ho2, hoe⟩ := e2.obj obj o hget
        obtain ⟨d2, hd2, hp2, hc2⟩ := hoe.present key d hd
        unfold defineProperty at h
        rw [ho2] at h
        simp only [hd2, hc2 hconf, if_true] at h
        cases h
        have htag2 : o2.ob.isSome = true := by
          obtain ⟨t, ht⟩ := Option.isSome_iff_exists.mp htag
          rw [hoe.tag t ht]; rfl
        refine e2.chain (extOn_setObj ho2 ?_ (Or.inl hF) htag2)
        have hcells : s2.cells = s.cells := e2.cells
        refine
          { kind := rfl, extensible := rfl, isVue := rfl, elems := rfl, tag := fun _ ht => ht,
            absent := ?_, present := ?_ }
        · intro k hk
          simp only [findProp_putProp]
          by_cases hkk : k = key
          · subst hkk; rw [hd2] at hk; cases hk
          · simp [hkk, hk]
        · intro k dk hk
          simp only [findProp_putProp]
          by_cases hkk : k = key
          · subst hkk
            rw [hd2] at hk
            cases hk
            rw [if_pos rfl]
            refine ⟨_, rfl, ?_, fun _ => rfl⟩
            rw [hcells, hp2]
            exact peekSlot_makeSlot s.cells _ d hr2
          · exact ⟨dk, by simp [hkk, hk], rfl, fun hc => hc⟩

theorem findProp_isSome_of_mem (ps : List (Key × Desc)) (k : Key)
    (h : k ∈ ps.map Prod.fst) : (findProp ps k).isSome = true := by
  induction ps with
  | nil => simp at h
  | cons p rest ih =>
    obtain ⟨k0, d0⟩ := p
    by_cases h0 : k0 = k
    · simp [findProp, h0]
    · simp only [List.map_cons, List.mem_cons] at h
      rcases h with h | h
      · exact absurd h.symm h0
      · simp [findProp, h0, ih h]

theorem objectKeys_present (o : Obj) (k : Key) (h : k ∈ objectKeys o) :
    (findProp o.props k).isSome = true := by
  apply findProp_isSome_of_mem
  unfold objectKeys at h
  simp only [List.mem_map, List.mem_filter] at h ⊢
  obtain ⟨p, ⟨hp, _⟩, rfl⟩ := h
  exact ⟨p, hp, rfl⟩

theorem walkWith_ext {obs : State → Val → Except Err (State × Option Observer)}
    {fuel : Nat} {F : Nat → Prop}
    (hobs : ∀ s v s' r, obs s v = .ok (s', r) → Ext s s') {obj : Nat} (hF : F obj) :
    ∀ (keys : List Key) (s s' : State) (o : Obj), s.heap[obj]? = some o →
      o.ob.isSome = true →
      (∀ k ∈ keys, (findProp o.props k).isSome = true) →
      walkWith obs fuel obj s keys = .ok s' → ExtOn F s s' := by
  intro keys
  induction keys with
  | nil =>
    intro s s' o _ _ _ h
    simp only [walkWith] at h
    cases h
    exact ExtOn.nothing F s
  | cons k rest ih =>
    intro s s' o hget htag hkeys h
    simp only [walkWith] at h
    split at h
    · rename_i s1 h1
      have e1 : ExtOn F s s1 :=
        defineReactiveWith_ext hobs hget (hkeys k (List.mem_cons_self _ _)) hF htag h1
      obtain ⟨o1, ho1, hoe⟩ := e1.obj obj o hget
      have htag1 : o1.ob.isSome = true := by
        obtain ⟨t, ht⟩ := Option.isSome_iff_exists.mp htag
        rw [hoe.tag t ht]; rfl
      refine e1.chain (ih s1 s' o1 ho1 htag1 ?_ h)
      intro k' hk'
      obtain ⟨d, hd⟩ := Option.isSome_iff_exists.mp (hkeys k' (List.mem_cons_of_mem _ hk'))
      obtain ⟨d', hd', _⟩ := hoe.present k' d hd
      simp [hd']
    · simp at h

theorem observeArrayWith_ext {obs : State → Val → Except Err (State × Option Observer)}
    (hobs : ∀ s v s' r, obs s v = .ok (s', r) → Ext s s') :
    ∀ (items : List Val) (s s' : State), observeArrayWith obs s items = .ok s' → Ext s s' := by
  intro items
  induction items with
  | nil =>
    intro s s' h
    simp only [observeArrayWith] at h
    cases h
    exact ExtOn.nothing _ s
  | cons v rest ih =>
    intro s s' h
    simp only [observeArrayWith] at h
    split at h
    · rename_i s1 r h1
      exact (hobs _ _ _ _ h1).chain (ih s1 s' h)
    · simp at h

theorem augment_eq (b : Bool) (o : Obj) :
    (if b then protoAugment o else copyAugment o) = { o with augmented := true } := by
  cases b <;> rfl

theorem newObserverWith_ext {obs : State → Val → Except Err (State × Option Observer)}
    {fuel : Nat} (hobs : ∀ s v s' r, obs s v = .ok (s', r) → Ext s s')
    {s s' : State} {a : Nat} {o : Obj} {ob : Observer}
    (hget : s.heap[a]? = some o) (hob : o.ob = none)
    (h : newObserverWith obs fuel s a o = .ok (s', ob)) :
    Ext s s' ∧ ob = { value := a, dep := s.nextDep } ∧
      ∃ o', s'.heap[a]? = some o' ∧ o'.ob = some { dep := s.nextDep, vmCount := 0 } := by
  unfold newObserverWith at h
  simp only [newDep, augment_eq] at h
  split at h
  · rename_i s2 hw
    cases h
    let F : Nat → Prop := fun b => b = a
    have e0 : ExtOn F s { s with nextDep := s.nextDep + 1 } := extOn_newDep F s
    have hget0 : ({ s with nextDep := s.nextDep + 1 } : State).heap[a]? = some o := hget
    have key : ∀ (o1 : Obj) (sw : State), ObjExt s.cells o o1 →
        o1.ob = some { dep := s.nextDep, vmCount := 0 } →
        ExtOn F (({ s with nextDep := s.nextDep + 1 } : State).setObj a o1) sw →
        Ext s sw ∧ ∃ o', sw.heap[a]? = some o' ∧ o'.ob = some { dep := s.nextDep, vmCount := 0 } := by
      intro o1 sw he1 htag hsw
      have e1 : ExtOn F s (({ s with nextDep := s.nextDep + 1 } : State).setObj a o1) :=
        e0.chain (extOn_setObj hget0 he1 (Or.inl rfl) (by rw [htag]; rfl))
      refine ⟨(e1.chain hsw).close hget hob, ?_⟩
      obtain ⟨o', ho', hoe⟩ := hsw.obj a o1 (getElem?_setObj_self hget0)
      exact ⟨o', ho', hoe.tag _ htag⟩
    split at hw
    · have he1 : ObjExt s.cells o
          { o with ob := some { dep := s.nextDep, vmCount := 0 }, augmented := true } :=
        { kind := rfl, extensible := rfl, isVue := rfl, elems := rfl,
          tag := fun t ht => by simp [hob] at ht,
          absent := fun _ hk => hk, present := fun _ d hk => ⟨d, hk, rfl, fun hc => hc⟩ }
      obtain ⟨h1, h2⟩ := key _ _ he1 rfl
        ((observeArrayWith_ext hobs _ _ _ hw).mono (fun _ hf => hf.elim))
      exact ⟨h1, rfl, h2⟩
    · have he1 : ObjExt s.cells o { o with ob := some { dep := s.nextDep, vmCount := 0 } } :=
        { kind := rfl, extensible := rfl, isVue := rfl, elems := rfl,
          tag := fun t ht => by simp [hob] at ht,
          absent := fun _ hk => hk, present := fun _ d hk => ⟨d, hk, rfl, fun hc => hc⟩ }
      obtain ⟨h1, h2⟩ := key _ _ he1 rfl
        (walkWith_ext hobs (show F a from rfl) _ _ _ _ (getElem?_setObj_self hget0) rfl
          (fun k hk => objectKeys_present o k hk) hw)
      exact ⟨h1, rfl, h2⟩
  · simp at h

theorem observe_ext : ∀ (fuel : Nat) (s : State) (v : Val) (s' : State) (r : Option Observer),
    observe fuel s v false = .ok (s', r) → Ext s s' := by
  intro fuel
  induction fuel with
  | zero => intro s v s' r h; simp [observe] at h
  | succ n ih =>
    intro s v s' r h
    cases v with
    | ref a =>
      simp only [observe] at h
      split at h
      · cases h; exact ExtOn.nothing _ s
      · rename_i o hget
        split at h
        · cases h; exact ExtOn.nothing _ s
        · split at h
          · simp at h
          · rename_i s1 hmade
            cases h
            split at hmade
            · cases hmade
            · rename_i hob
              split at hmade
              · split at hmade
                · simp at hmade
                · simp at hmade
              · cases hmade; exact ExtOn.nothing _ s
          · rename_i s1 ob hmade
            simp only [Bool.false_eq_true, if_false] at h
            cases h
            split at hmade
            · cases hmade; exact ExtOn.nothing _ s
            · rename_i hob
              split at hmade
              · split at hmade
                · rename_i s2 ob2 hnew
                  cases hmade
                  exact (newObserverWith_ext (fun s v s' r => ih s v s' r) hget hob hnew).1
                · simp at hmade
              · cases hmade
    | _ => simp only [observe] at h; cases h; exact ExtOn.nothing _ s

/-! ## `observe` returns -/

theorem countP_le_of_pointwise (p : Obj → Bool) : ∀ (l l' : List Obj),
    l'.length = l.length →
    (∀ (i : Nat) (o : Obj), l[i]? = some o → ∃ o', l'[i]? = some o' ∧ (p o' = true → p o = true)) →
    l'.countP p ≤ l.countP p := by
  intro l
  induction l with
  | nil =>
    intro l' hlen _
    have : l' = [] := List.length_eq_zero.mp hlen
    subst this
    simp
  | cons x xs ih =>
    intro l' hlen h
    cases l' with
    | nil => simp at hlen
    | cons y ys =>
      have h0 := h 0 x (by simp)
      obtain ⟨o', ho', hp⟩ := h0
      simp only [List.getElem?_cons_zero, Option.some.injEq] at ho'
      subst ho'
      have htail := ih ys (by simpa using hlen) (fun i o hi => by
        have := h (i + 1) o (by simpa using hi)
        simpa using this)
      simp only [List.countP_cons]
      by_cases hy : p y = true
      · simp [hy, hp hy]; exact htail
      · simp [hy]
        exact Nat.le_trans htail (Nat.le_add_right _ _)

theorem untagged_le_of_extOn {F : Nat → Prop} {s s' : State} (h : ExtOn F s s') :
    untagged s' ≤ untagged s := by
  unfold untagged
  apply countP_le_of_pointwise _ _ _ h.len
  intro i o hi
  obtain ⟨o', ho', hoe⟩ := h.obj i o hi
  refine ⟨o', ho', fun hn => ?_⟩
  cases hob : o.ob with
  | none => rfl
  | some t => rw [hoe.tag t hob] at hn; simp at hn

theorem countP_set_tag (p : Obj → Bool) : ∀ (l : List Obj) (a : Nat) (o o' : Obj),
    l[a]? = some o → p o = true → p o' = false →
    (l.set a o').countP p + 1 = l.countP p := by
  intro l
  induction l with
  | nil => intro a o o' h; simp at h
  | cons x xs ih =>
    intro a o o' h hp hp'
    cases a with
    | zero =>
      simp only [List.getElem?_cons_zero, Option.some.injEq] at h
      subst h
      simp [List.countP_cons, hp, hp']
    | succ a =>
      simp only [List.getElem?_cons_succ] at h
      have := ih a o o' h hp hp'
      simp only [List.set_cons_succ, List.countP_cons]
      omega

theorem untagged_setObj_tag {s : State} {a : Nat} {o o' : Obj} (h : s.heap[a]? = some o)
    (hob : o.ob = none) (hob' : o'.ob.isSome = true) :
    untagged (s.setObj a o') + 1 = untagged s := by
  unfold untagged State.setObj
  apply countP_set_tag _ _ _ o o' h
  · simp [hob]
  · cases h' : o'.ob with
    | none => simp [h'] at hob'
    | some t => simp

theorem defineReactiveWith_total {obs : State → Val → Except Err (State × Option Observer)}
    (fuel : Nat) {n : Nat}
    (hobs : ∀ s v s' r, obs s v = .ok (s', r) → Ext s s')
    (htot : ∀ s v, s.target = none → untagged s < n → ∃ res, obs s v = .ok res)
    {s : State} {obj : Nat} {key : Key} {o : Obj}
    (hget : s.heap[obj]? = some o) (hkey : (findProp o.props key).isSome = true)
    (ht : s.target = none) (hn : untagged s < n) :
    ∃ s', defineReactiveWith obs fuel s obj key none false false = .ok s' := by
  obtain ⟨d, hd⟩ := Option.isSome_iff_exists.mp hkey
  unfold defineReactiveWith
  simp only [newDep]
  have hget1 : ({ s with nextDep := s.nextDep + 1 } : State).heap[obj]? = some o := hget
  rw [hget1]
  simp only [hd]
  split
  · exact ⟨_, rfl⟩
  · rename_i hconf
    simp at hconf
    have ht1 : ({ s with nextDep := s.nextDep + 1 } : State).target = none := ht
    have hread : ∃ v, (if getterOnly (some d) = true then
          (Except.ok (({ s with nextDep := s.nextDep + 1 } : State), Val.undefined) :
            Except Err (State × Val))
        else getProp fuel { s with nextDep := s.nextDep + 1 } obj key) =
          .ok ({ s with nextDep := s.nextDep + 1 }, v) := by
      split
      · exact ⟨_, rfl⟩
      · exact ⟨_, getProp_quiet _ _ _ _ ht1⟩
    obtain ⟨v, hv⟩ := hread
    rw [hv]
    simp only [Bool.false_eq_true, if_false]
    obtain ⟨⟨s2, childOb⟩, hchild⟩ := htot { s with nextDep := s.nextDep + 1 } v ht1 hn
    rw [hchild]
    simp only
    have e2 : Ext { s with nextDep := s.nextDep + 1 } s2 := hobs _ _ _ _ hchild
    obtain ⟨o2, ho2, hoe⟩ := e2.obj obj o hget1
    obtain ⟨d2, hd2, _, hc2⟩ := hoe.present key d hd
    unfold defineProperty
    rw [ho2]
    simp only [hd2, hc2 hconf, if_true]
    exact ⟨_, rfl⟩

theorem walkWith_total {obs : State → Val → Except Err (State × Option Observer)}
    (fuel : Nat) {n : Nat}
    (hobs : ∀ s v s' r, obs s v = .ok (s', r) → Ext s s')
    (htot : ∀ s v, s.target = none → untagged s < n → ∃ res, obs s v = .ok res)
    {obj : Nat} :
    ∀ (keys : List Key) (s : State) (o : Obj), s.heap[obj]? = some o →
      o.ob.isSome = true →
      (∀ k ∈ keys, (findProp o.props k).isSome = true) →
      s.target = none → untagged s < n →
      ∃ s', walkWith obs fuel obj s keys = .ok s' := by
  intro keys
  induction keys with
  | nil => intro s o _ _ _ _ _; exact ⟨s, rfl⟩
  | cons k rest ih =>
    intro s o hget htag hkeys ht hn
    simp only [walkWith]
    obtain ⟨s1, h1⟩ := defineReactiveWith_total fuel hobs htot hget
      (hkeys k (List.mem_cons_self _ _)) ht hn
    rw [h1]
    have e1 : ExtOn (fun b => b = obj) s s1 :=
      defineReactiveWith_ext hobs hget (hkeys k (List.mem_cons_self _ _)) rfl htag h1
    obtain ⟨o1, ho1, hoe⟩ := e1.obj obj o hget
    have htag1 : o1.ob.isSome = true := by
      obtain ⟨t, ht⟩ := Option.isSome_iff_exists.mp htag
      rw [hoe.tag t ht]; rfl
    refine ih s1 o1 ho1 htag1 ?_ (e1.target.trans ht)
      (Nat.lt_of_le_of_lt (untagged_le_of_extOn e1) hn)
    intro k' hk'
    obtain ⟨d, hd⟩ := Option.isSome_iff_exists.mp (hkeys k' (List.mem_cons_of_mem _ hk'))
    obtain ⟨d', hd', _⟩ := hoe.present k' d hd
    simp [hd']

theorem observeArrayWith_total {obs : State → Val → Except Err (State × Option Observer)}
    {n : Nat}
    (hobs : ∀ s v s' r, obs s v = .ok (s', r) → Ext s s')
    (htot : ∀ s v, s.target = none → untagged s < n → ∃ res, obs s v = .ok res) :
    ∀ (items : List Val) (s : State), s.target = none → untagged s < n →
      ∃ s', observeArrayWith obs s items = .ok s' := by
  intro items
  induction items with
  | nil => intro s _ _; exact ⟨s, rfl⟩
  | cons v rest ih =>
    intro s ht hn
    simp only [observeArrayWith]
    obtain ⟨⟨s1, r⟩, h1⟩ := htot s v ht hn
    rw [h1]
    have e1 : Ext s s1 := hobs _ _ _ _ h1
    exact ih s1 (e1.target.trans ht) (Nat.lt_of_le_of_lt (untagged_le_of_extOn e1) hn)

theorem newObserverWith_total {obs : State → Val → Except Err (State × Option Observer)}
    (fuel : Nat) {n : Nat}
    (hobs : ∀ s v s' r, obs s v = .ok (s', r) → Ext s s')
    (htot : ∀ s v, s.target = none → untagged s < n → ∃ res, obs s v = .ok res)
    {s : State} {a : Nat} {o : Obj} (hget : s.heap[a]? = some o) (hob : o.ob = none)
    (ht : s.target = none) (hn : untagged s < n + 1) :
    ∃ res, newObserverWith obs fuel s a o = .ok res := by
  unfold newObserverWith
  simp only [newDep, augment_eq]
  have hget0 : ({ s with nextDep := s.nextDep + 1 } : State).heap[a]? = some o := hget
  have hu : ∀ o1 : Obj, o1.ob.isSome = true →
      untagged (({ s with nextDep := s.nextDep + 1 } : State).setObj a o1) < n := by
    intro o1 h1
    have := untagged_setObj_tag hget0 hob h1
    have hs : untagged ({ s with nextDep := s.nextDep + 1 } : State) = untagged s := rfl
    omega
  by_cases hk : o.kind = .array
  · rw [if_pos hk]
    obtain ⟨s2, h2⟩ := observeArrayWith_total hobs htot o.elems
      (({ s with nextDep := s.nextDep + 1 } : State).setObj a
        { o with ob := some { dep := s.nextDep, vmCount := 0 }, augmented := true })
      ht (hu _ rfl)
    rw [h2]
    exact ⟨_, rfl⟩
  · rw [if_neg hk]
    obtain ⟨s2, h2⟩ := walkWith_total fuel hobs htot (objectKeys o)
      (({ s with nextDep := s.nextDep + 1 } : State).setObj a
        { o with ob := some { dep := s.nextDep, vmCount := 0 } })
      _ (getElem?_setObj_self hget0) rfl (fun k hk => objectKeys_present o k hk) ht (hu _ rfl)
    rw [h2]
    exact ⟨_, rfl⟩

theorem observe_total : ∀ (fuel : Nat) (s : State) (v : Val) (r : Bool),
    s.target = none → untagged s < fuel → ∃ res, observe fuel s v r = .ok res := by
  intro fuel
  induction fuel with
  | zero => intro s v r _ h; omega
  | succ n ih =>
    intro s v r ht hn
    cases v with
    | ref a =>
      simp only [observe]
      split
      · exact ⟨_, rfl⟩
      · rename_i o hget
        split
        · exact ⟨_, rfl⟩
        · cases hob : o.ob with
          | some t =>
            simp only
            cases r <;> exact ⟨_, rfl⟩
          | none =>
            simp only
            by_cases hobs : observable s o = true
            · obtain ⟨⟨s1, ob⟩, h1⟩ := newObserverWith_total n
                (fun s v s' r => observe_ext n s v s' r)
                (fun s v ht hn => ih s v false ht hn) hget hob ht hn
              rw [if_pos hobs, h1]
              simp only
              cases r <;> exact ⟨_, rfl⟩
            · rw [if_neg hobs]
              exact ⟨_, rfl⟩
    | _ => exact ⟨_, rfl⟩

/-! ## What `observe` returns -/

theorem observe_tagged (fuel : Nat) {s : State} {a : Nat} {o : Obj} {t : Tag}
    (hget : s.heap[a]? = some o) (hk : o.kind ≠ .vnode) (hob : o.ob = some t) (r : Bool) :
    observe (fuel + 1) s (.ref a) r =
      .ok (if r then bumpVmCount s a else s, some { value := a, dep := t.dep }) := by
  simp only [observe, hget, hk, hob, if_false]
  cases r <;> rfl

theorem observe_cases {fuel : Nat} {s s' : State} {v : Val} {r : Option Observer}
    (h : observe fuel s v false = .ok (s', r)) :
    (r = none ∧ s' = s ∧
      ∀ a o, v = .ref a → s.heap[a]? = some o → o.kind ≠ .vnode →
        o.ob = none ∧ observable s o = false) ∨
    (∃ a o o' t, v = .ref a ∧ s.heap[a]? = some o ∧ o.kind ≠ .vnode ∧
      (o.ob.isSome = true ∨ observable s o = true) ∧
      s'.heap[a]? = some o' ∧ o'.ob = some t ∧ r = some { value := a, dep := t.dep }) := by
  cases fuel with
  | zero => simp [observe] at h
  | succ n =>
    cases v with
    | ref a =>
      simp only [observe] at h
      split at h
      · rename_i hget
        cases h
        exact Or.inl ⟨rfl, rfl, fun a' o hv hg => by cases hv; rw [hget] at hg; cases hg⟩
      · rename_i o hget
        split at h
        · rename_i hk
          cases h
          exact Or.inl ⟨rfl, rfl, fun a' o' hv hg hk' => by
            cases hv; rw [hget] at hg; cases hg; exact absurd hk hk'⟩
        · rename_i hk
          cases hob : o.ob with
          | some t =>
            simp only [hob, Bool.false_eq_true, if_false] at h
            cases h
            exact Or.inr ⟨a, o, o, t, rfl, hget, hk, Or.inl (by simp [hob]), hget, hob, rfl⟩
          | none =>
            simp only [hob] at h
            by_cases hobs : observable s o = true
            · rw [if_pos hobs] at h
              split at h
              · simp at h
              · rename_i s1 hmade
                split at hmade
                · cases hmade
                · simp at hmade
              · rename_i s1 ob hmade
                simp only [Bool.false_eq_true, if_false] at h
                cases h
                split at hmade
                · rename_i s2 ob2 hnew
                  cases hmade
                  obtain ⟨_, hob2, o', ho', htag⟩ :=
                    newObserverWith_ext (fun s v s' r => observe_ext n s v s' r) hget hob hnew
                  subst hob2
                  exact Or.inr ⟨a, o, o', _, rfl, hget, hk, Or.inr hobs, ho', htag, rfl⟩
                · simp at hmade
            · rw [if_neg hobs] at h
              simp only at h
              cases h
              refine Or.inl ⟨rfl, rfl, fun a' o' hv hg _ => ?_⟩
              cases hv
              rw [hget] at hg
              cases hg
              exact ⟨hob, by simpa using hobs⟩
    | _ =>
      simp only [observe] at h
      cases h
      exact Or.inl ⟨rfl, rfl, fun a o hv => by cases hv⟩

/-! ## Writes to a reactive slot -/

theorem slotAt_some {s : State} {obj : Nat} {key : Key} {slot : Slot}
    (h : slotAt s obj key = some slot) :
    ∃ o d, s.heap[obj]? = some o ∧ findProp o.props key = some d ∧ d.body = .reactive slot := by
  unfold slotAt at h
  split at h
  · cases h
  · rename_i o ho
    split at h
    · cases h
    · rename_i d hd
      split at h
      · rename_i sl hb
        cases h
        exact ⟨o, d, ho, hd, hb⟩
      · cases h

theorem assign_reactive {fuel : Nat} {s : State} {obj : Nat} {key : Key} {slot : Slot}
    (h : slotAt s obj key = some slot) (val : Val) :
    assign fuel s obj key val =
      reactiveSetter (fun s1 v => observe fuel s1 v false) fuel obj key slot s val := by
  obtain ⟨o, d, ho, hd, hb⟩ := slotAt_some h
  simp only [assign, ho, hd, hb]

theorem unchanged_of_same {newVal value : Val}
    (h : strictEq newVal value = true ∨ (newVal = .nan ∧ value = .nan)) :
    unchanged newVal value = true := by
  rcases h with h | ⟨rfl, rfl⟩
  · simp [unchanged, h]
  · simp [unchanged, strictEq]

theorem reactiveSetter_unchanged (obs : State → Val → Except Err (State × Option Observer))
    {fuel : Nat} {obj : Nat} {key : Key} {slot : Slot} {s s0 : State} {newVal value : Val}
    (hcur : currentValue fuel slot s = .ok (s0, value))
    (hsame : unchanged newVal value = true) :
    reactiveSetter obs fuel obj key slot s newVal = .ok s0 := by
  cases slot with
  | base c g st =>
    simp only [currentValue] at hcur
    cases hcur
    simp only [reactiveSetter, hsame, if_true]
  | wrap c inner =>
    simp only [currentValue] at hcur
    simp only [reactiveSetter, hcur, hsame, if_true]

/-- C1: a write to a reactive slot of a value that equals the current value of
the slot by strict equality, or when both are NaN, returns at once: no registry
is notified, no wrapped setter is called, and the heap (with every captured
value) and the storage behind wrapped accessors are unchanged. Reading the
current value through a wrapped reactive getter may record dependencies. -/
theorem write_of_unchanged_value_is_silent (fuel : Nat) (s s0 : State) (obj : Nat) (key : Key)
    (slot : Slot) (newVal value : Val)
    (hslot : slotAt s obj key = some slot)
    (hcur : currentValue fuel slot s = .ok (s0, value))
    (hsame : strictEq newVal value = true ∨ (newVal = .nan ∧ value = .nan)) :
    assign fuel s obj key newVal = .ok s0 ∧
      notifications s0.trace = notifications s.trace ∧
      setterCalls s0.trace = setterCalls s.trace ∧
      s0.heap = s.heap ∧ s0.cells = s.cells ∧ (s.target = none → s0 = s) := by
  obtain ⟨hr, _, hq⟩ := currentValue_spec hcur
  refine ⟨?_, hr.notifications_eq, hr.setterCalls_eq, hr.heap_eq, hr.cells_eq, hq⟩
  rw [assign_reactive hslot]
  exact reactiveSetter_unchanged _ hcur (unchanged_of_same hsame)

theorem write_of_unchanged_value_is_silent_witness :
    slotAt sampleNaN 0 (.name "a") = some (Slot.plainOf 1 .nan) ∧
    currentValue 1 (Slot.plainOf 1 .nan) sampleNaN = .ok (sampleNaN, .nan) ∧
    (strictEq .nan .nan = true ∨ (Val.nan = Val.nan ∧ Val.nan = Val.nan)) ∧
    (assign 1 sampleNaN 0 (.name "a") .nan = .ok sampleNaN ∧
      notifications sampleNaN.trace = notifications sampleNaN.trace ∧
      setterCalls sampleNaN.trace = setterCalls sampleNaN.trace ∧
      sampleNaN.heap = sampleNaN.heap ∧ sampleNaN.cells = sampleNaN.cells ∧
      (sampleNaN.target = none → sampleNaN = sampleNaN)) :=
  ⟨by decide, by decide, Or.inr ⟨rfl, rfl⟩,
    write_of_unchanged_value_is_silent 1 sampleNaN sampleNaN 0 (.name "a")
      (Slot.plainOf 1 .nan) .nan .nan (by decide) (by decide) (Or.inr ⟨rfl, rfl⟩)⟩

/-! ## Observation is idempotent -/

/-- C3: for a value that already carries an Observer, `observe` returns that
Observer and leaves the whole state as it is: no second Observer, no registry,
no accessor, no second array interception. As root data it only increments
`vmCount`. Hence a second `observe` after a first one returns the Observer the
first one returned and changes nothing. The value is not a virtual node. -/
theorem observe_observed_value (fuel : Nat) (s : State) (a : Nat) (o : Obj) (t : Tag)
    (hget : s.heap[a]? = some o) (hob : o.ob = some t) (hk : o.kind ≠ .vnode) :
    observe (fuel + 1) s (.ref a) false = .ok (s, some { value := a, dep := t.dep }) ∧
    observe (fuel + 1) s (.ref a) true =
      .ok (s.setObj a { o with ob := some { t with vmCount := t.vmCount + 1 } },
        some { value := a, dep := t.dep }) ∧
    ∀ (fuel0 : Nat) (s0 : State) (first : Observer),
      observe fuel0 s0 (.ref a) false = .ok (s, some first) →
        observe (fuel + 1) s (.ref a) false = .ok (s, some first) := by
  have h1 := observe_tagged fuel hget hk hob false
  have h2 := observe_tagged fuel hget hk hob true
  simp only [Bool.false_eq_true, if_false] at h1
  simp only [if_true, bumpVmCount, hget, hob] at h2
  refine ⟨h1, h2, ?_⟩
  intro fuel0 s0 first hfirst
  rcases observe_cases hfirst with ⟨hnone, _⟩ | ⟨a', o0, o', t', hv, _, _, _, ho', ht', hr⟩
  · cases hnone
  · cases hv
    rw [hget] at ho'
    cases ho'
    rw [hob] at ht'
    cases ht'
    cases hr
    exact h1

theorem observe_observed_value_witness :
    sampleArray.heap[0]? = some sampleArrayObj ∧
    sampleArrayObj.ob = some { dep := 0, vmCount := 0 } ∧ sampleArrayObj.kind ≠ .vnode ∧
    observe 1 sampleArray (.ref 0) false = .ok (sampleArray, some { value := 0, dep := 0 }) :=
  ⟨by decide, rfl, by decide,
    (observe_observed_value 0 sampleArray 0 sampleArrayObj { dep := 0, vmCount := 0 }
      (by decide) rfl (by decide)).1⟩

/-! ## Updates of a captured variable -/

theorem modifySlot_cases (s : State) (obj : Nat) (key : Key) (d : Nat) (f : Closure → Closure) :
    s.modifySlot obj key d f = s ∨
    ∃ o desc slot, s.heap[obj]? = some o ∧ findProp o.props key = some desc ∧
      desc.body = .reactive slot ∧
      s.modifySlot obj key d f = s.setObj obj
        { o with props := putProp o.props key { desc with body := .reactive (slot.modify d f) } } := by
  unfold State.modifySlot
  split
  · exact Or.inl rfl
  · rename_i o ho
    split
    · exact Or.inl rfl
    · rename_i desc hd
      split
      · rename_i slot hb
        exact Or.inr ⟨o, desc, slot, ho, hd, hb, rfl⟩
      · exact Or.inl rfl

theorem peekSlot_modify (cells : List Val) (d : Nat) (f : Closure → Closure)
    (hf : ∀ c, (f c).val = c.val) (slot : Slot) :
    peekSlot cells (slot.modify d f) = peekSlot cells slot := by
  induction slot with
  | base c g st =>
    simp only [Slot.modify]
    split <;> cases g <;> simp [peekSlot, hf]
  | wrap c inner ih =>
    simp only [Slot.modify]
    split <;> simp [peekSlot, ih]

theorem peek_modifySlot (s : State) (obj : Nat) (key : Key) (d : Nat) (f : Closure → Closure)
    (hf : ∀ c, (f c).val = c.val) (a : Nat) (k : Key) :
    peek (s.modifySlot obj key d f) a k = peek s a k := by
  rcases modifySlot_cases s obj key d f with h | ⟨o, desc, slot, ho, hd, hb, h⟩
  · rw [h]
  · rw [h]
    unfold peek
    by_cases hao : a = obj
    · subst hao
      rw [getElem?_setObj_self ho, ho]
      simp only [findProp_putProp]
      by_cases hkk : k = key
      · subst hkk
        rw [if_pos rfl, hd]
        simp only [peekDesc, hb]
        exact peekSlot_modify _ _ _ hf slot
      · rw [if_neg hkk]
        rfl
    · rw [getElem?_setObj_ne hao]
      rfl

theorem modifySlot_shell (s : State) (obj : Nat) (key : Key) (d : Nat) (f : Closure → Closure) :
    (s.modifySlot obj key d f).cells = s.cells ∧ (s.modifySlot obj key d f).trace = s.trace ∧
    (s.modifySlot obj key d f).target = s.target ∧
    (s.modifySlot obj key d f).production = s.production ∧
    (s.modifySlot obj key d f).shouldObserve = s.shouldObserve ∧
    (s.modifySlot obj key d f).serverRendering = s.serverRendering ∧
    (s.modifySlot obj key d f).heap.length = s.heap.length ∧
    ∀ (a : Nat) (o : Obj), s.heap[a]? = some o →
      ∃ o', (s.modifySlot obj key d f).heap[a]? = some o' ∧ o'.shell = o.shell := by
  rcases modifySlot_cases s obj key d f with h | ⟨o, desc, slot, ho, hd, hb, h⟩
  · rw [h]; exact ⟨rfl, rfl, rfl, rfl, rfl, rfl, rfl, fun a o h => ⟨o, h, rfl⟩⟩
  · rw [h]
    refine ⟨rfl, rfl, rfl, rfl, rfl, rfl, by simp [State.setObj], fun a oa ha => ?_⟩
    by_cases hao : a = obj
    · subst hao
      rw [ho] at ha
      cases ha
      exact ⟨_, getElem?_setObj_self ho, rfl⟩
    · exact ⟨oa, by rw [getElem?_setObj_ne hao]; exact ha, rfl⟩

theorem modifySlot_val {s : State} {obj : Nat} {key : Key} {c : Closure} {st : Option Nat}
    (h : slotAt s obj key = some (.base c none st)) (newVal : Val) :
    peek (s.modifySlot obj key c.dep (fun x => { x with val := newVal })) obj key = newVal := by
  obtain ⟨o, desc, ho, hd, hb⟩ := slotAt_some h
  simp only [State.modifySlot, ho, hd, hb]
  simp only [peek, getElem?_setObj_self ho, findProp_putProp, if_true, peekDesc, Slot.modify,
    peekSlot]

theorem untagged_le_of_shell {s s' : State} (hlen : s'.heap.length = s.heap.length)
    (h : ∀ (a : Nat) (o : Obj), s.heap[a]? = some o →
      ∃ o', s'.heap[a]? = some o' ∧ o'.shell = o.shell) : untagged s' ≤ untagged s := by
  unfold untagged
  apply countP_le_of_pointwise _ _ _ hlen
  intro i o hi
  obtain ⟨o', ho', hs⟩ := h i o hi
  refine ⟨o', ho', fun hn => ?_⟩
  have h2 : o'.shell.ob = o.shell.ob := by rw [hs]
  have : o'.ob = o.ob := h2
  rw [← this]; exact hn

theorem observe_carries {fuel : Nat} {s s' : State} {v : Val} {r : Option Observer}
    (h : observe fuel s v false = .ok (s', r)) :
    (canObserve s v = true → carriesObserver s' v = true ∧ r.isSome = true) ∧
    (canObserve s v = false → s' = s ∧ r = none) := by
  rcases observe_cases h with ⟨hr, hs, hall⟩ | ⟨a, o, o', t, hv, hget, hk, hor, ho', ht', hr⟩
  · refine ⟨fun hc => ?_, fun _ => ⟨hs, hr⟩⟩
    exfalso
    cases v with
    | ref a =>
      simp only [canObserve] at hc
      split at hc
      · rename_i o ho
        simp only [Bool.and_eq_true, Bool.not_eq_true', decide_eq_false_iff_not,
          Bool.or_eq_true] at hc
        obtain ⟨h1, h2⟩ := hall a o rfl ho hc.1
        rcases hc.2 with h3 | h3
        · simp [h1] at h3
        · simp [h2] at h3
      · cases hc
    | _ => simp [canObserve] at hc
  · subst hv
    refine ⟨fun _ => ⟨by simp [carriesObserver, ho', ht'], by simp [hr]⟩, fun hc => ?_⟩
    exfalso
    simp only [canObserve, hget, Bool.and_eq_false_imp, Bool.not_eq_true',
      decide_eq_false_iff_not, Bool.or_eq_false_iff] at hc
    have := hc hk
    rcases hor with h3 | h3
    · simp [this.1] at h3
    · simp [this.2] at h3

theorem canObserve_of_shell {s s' : State} {v : Val}
    (h1 : s'.shouldObserve = s.shouldObserve) (h2 : s'.serverRendering = s.serverRendering)
    (hlen : s'.heap.length = s.heap.length)
    (h : ∀ (a : Nat) (o : Obj), s.heap[a]? = some o →
      ∃ o', s'.heap[a]? = some o' ∧ o'.shell = o.shell) :
    canObserve s' v = canObserve s v := by
  cases v with
  | ref a =>
    simp only [canObserve]
    cases hget : s.heap[a]? with
    | none =>
      have : s'.heap[a]? = none := by
        rw [List.getElem?_eq_none_iff] at hget ⊢
        omega
      simp [this]
    | some o =>
      obtain ⟨o', ho', hs⟩ := h a o hget
      have e1 : o'.kind = o.kind := by
        have : o'.shell.kind = o.shell.kind := by rw [hs]
        exact this
      have e2 : o'.ob = o.ob := by
        have : o'.shell.ob = o.shell.ob := by rw [hs]
        exact this
      have e3 : o'.extensible = o.extensible := by
        have : o'.shell.extensible = o.shell.extensible := by rw [hs]
        exact this
      have e4 : o'.isVue = o.isVue := by
        have : o'.shell.isVue = o.shell.isVue := by rw [hs]
        exact this
      simp [ho', observable, e1, e2, e3, e4, h1, h2]
  | _ => rfl

theorem carriesObserver_of_shell {s s' : State} {v : Val}
    (h : ∀ (a : Nat) (o : Obj), s.heap[a]? = some o →
      ∃ o', s'.heap[a]? = some o' ∧ o'.shell = o.shell)
    (hc : carriesObserver s v = true) : carriesObserver s' v = true := by
  cases v with
  | ref a =>
    simp only [carriesObserver] at hc ⊢
    cases hget : s.heap[a]? with
    | none => simp [hget] at hc
    | some o =>
      obtain ⟨o', ho', hs⟩ := h a o hget
      have e2 : o'.ob = o.ob := by
        have : o'.shell.ob = o.shell.ob := by rw [hs]
        exact this
      simpa [ho', hget, e2] using hc
  | _ => simp [carriesObserver] at hc

theorem peek_of_extOn {F : Nat → Prop} {s s' : State} (h : ExtOn F s s') (a : Nat) (k : Key) :
    peek s' a k = peek s a k := by
  unfold peek
  cases hget : s.heap[a]? with
  | none =>
    have : s'.heap[a]? = none := by
      rw [List.getElem?_eq_none_iff] at hget ⊢
      rw [h.len]; exact hget
    simp [this]
  | some o =>
    obtain ⟨o', ho', hoe⟩ := h.obj a o hget
    simp only [ho']
    cases hk : findProp o.props k with
    | none => simp [hoe.absent k hk]
    | some d =>
      obtain ⟨d', hd', hp, _⟩ := hoe.present k d hk
      simp [hd', h.cells, hp]

theorem finishSet_spec {fuel : Nat} {c : Closure} {obj : Nat} {key : Key} {s2 s' : State}
    {newVal : Val}
    (h : finishSet (fun s1 v => observe fuel s1 v false) c obj key s2 newVal = .ok s') :
    notifications s'.trace = notifications s2.trace ++ [c.dep] ∧
    setterCalls s'.trace = setterCalls s2.trace ∧
    (∀ a k, peek s' a k = peek s2 a k) ∧
    (c.shallow = false → canObserve s2 newVal = true → carriesObserver s' newVal = true) ∧
    s'.cells = s2.cells := by
  unfold finishSet at h
  split at h
  · rename_i hsh
    cases h
    have hs := modifySlot_shell s2 obj key c.dep (fun x => { x with childOb := none })
    refine ⟨?_, ?_, fun a k => ?_, fun hn => by simp [hsh] at hn, ?_⟩
    · simp [depNotify, State.log, notifications_append, notifications, hs.2.1]
    · simp [depNotify, State.log, setterCalls_append, setterCalls, hs.2.1]
    · exact peek_modifySlot s2 obj key c.dep (fun x => { x with childOb := none })
        (fun _ => rfl) a k
    · exact hs.1
  · rename_i hsh
    split at h
    · rename_i s3 childOb hobs
      cases h
      have e3 : Ext s2 s3 := observe_ext _ _ _ _ _ hobs
      have hs := modifySlot_shell s3 obj key c.dep (fun x => { x with childOb := childOb })
      obtain ⟨ds, hds, htr⟩ := e3.trace
      refine ⟨?_, ?_, fun a k => ?_, fun _ hc => ?_, ?_⟩
      · simp [depNotify, State.log, notifications_append, notifications, hs.2.1, htr,
          notifications_depends ds hds]
      · simp [depNotify, State.log, setterCalls_append, setterCalls, hs.2.1, htr,
          setterCalls_depends ds hds]
      · exact (peek_modifySlot s3 obj key c.dep (fun x => { x with childOb := childOb })
          (fun _ => rfl) a k).trans (peek_of_extOn e3 a k)
      · have := ((observe_carries hobs).1 hc).1
        exact carriesObserver_of_shell hs.2.2.2.2.2.2.2 this
      · exact hs.1.trans e3.cells
    · simp at h

theorem callCustomSetter_spec (c : Closure) (s : State) :
    notifications (callCustomSetter c s).trace = notifications s.trace ∧
    setterCalls (callCustomSetter c s).trace = setterCalls s.trace ∧
    (callCustomSetter c s).heap = s.heap ∧ (callCustomSetter c s).cells = s.cells ∧
    (callCustomSetter c s).target = s.target ∧
    (callCustomSetter c s).shouldObserve = s.shouldObserve ∧
    (callCustomSetter c s).serverRendering = s.serverRendering := by
  unfold callCustomSetter
  split
  · simp [State.log, notifications_append, notifications, setterCalls_append, setterCalls]
  · simp

theorem base_write_spec {fuel : Nat} {s s' : State} {obj : Nat} {key : Key} {c : Closure}
    {g st : Option Nat} {newVal : Val}
    (hslot : slotAt s obj key = some (.base c g st))
    (hrw : g = none ∨ st.isSome = true)
    (hdiff : unchanged newVal (peekSlot s.cells (.base c g st)) = false)
    (h : assign fuel s obj key newVal = .ok s') :
    notifications s'.trace = notifications s.trace ++ [c.dep] ∧
    setterCalls s'.trace = setterCalls s.trace ++ (st.map (fun cell => (cell, newVal))).toList ∧
    (g = none → st = none → peek s' obj key = newVal) ∧
    (c.shallow = false → canObserve s newVal = true → carriesObserver s' newVal = true) := by
  rw [assign_reactive hslot] at h
  simp only [reactiveSetter] at h
  have hv : ∀ g' : Option Nat, (match g' with
      | some cell => s.cells.getD cell Val.undefined
      | none => c.val) = peekSlot s.cells (.base c g' st) := by intro g'; cases g' <;> rfl
  rw [hv g, hdiff] at h
  simp only [Bool.false_eq_true, if_false] at h
  obtain ⟨c1, c2, c3, c4, c5, c6, c7⟩ := callCustomSetter_spec c s
  cases st with
  | some cell =>
    have h' : finishSet (fun s1 v => observe fuel s1 v false) c obj key
        ({ callCustomSetter c s with
            cells := (callCustomSetter c s).cells.set cell newVal }.log
          (.setterCall cell newVal)) newVal = .ok s' := by
      cases g <;> exact h
    obtain ⟨f1, f2, _, f4, _⟩ := finishSet_spec h'
    refine ⟨?_, ?_, fun _ hst => (by cases hst), fun hsh hc => f4 hsh ?_⟩
    · rw [f1]
      simp [State.log, notifications_append, notifications, c1]
    · rw [f2]
      simp [State.log, setterCalls_append, setterCalls, c2]
    · rw [← hc]
      apply canObserve_of_shell
      · exact c6
      · exact c7
      · simp [State.log, c3]
      · intro a o ha
        exact ⟨o, by simpa [State.log, c3] using ha, rfl⟩
  | none =>
    have hg : g = none := by
      rcases hrw with hg | hst
      · exact hg
      · simp at hst
    subst hg
    simp only at h
    have hslot1 : slotAt (callCustomSetter c s) obj key = some (.base c none none) := by
      unfold slotAt at hslot ⊢
      rw [c3]; exact hslot
    have hs := modifySlot_shell (callCustomSetter c s) obj key c.dep
      (fun x => { x with val := newVal })
    obtain ⟨f1, f2, f3, f4, _⟩ := finishSet_spec h
    refine ⟨?_, ?_, fun _ _ => ?_, fun hsh hc => f4 hsh ?_⟩
    · rw [f1, hs.2.1, c1]
    · rw [f2, hs.2.1, c2]; simp
    · rw [f3]; exact modifySlot_val hslot1 newVal
    · rw [← hc]
      apply canObserve_of_shell
      · exact hs.2.2.2.2.1.trans c6
      · exact hs.2.2.2.2.2.1.trans c7
      · rw [hs.2.2.2.2.2.2.1, c3]
      · intro a o ha
        exact hs.2.2.2.2.2.2.2 a o (by rw [c3]; exact ha)

theorem finishSet_total {fuel : Nat} (c : Closure) (obj : Nat) (key : Key) (s2 : State)
    (newVal : Val) (ht : s2.target = none) (hn : untagged s2 < fuel) :
    ∃ s', finishSet (fun s1 v => observe fuel s1 v false) c obj key s2 newVal = .ok s' := by
  unfold finishSet
  split
  · exact ⟨_, rfl⟩
  · obtain ⟨⟨s3, r⟩, h3⟩ := observe_total fuel s2 newVal false ht hn
    dsimp only
    rw [h3]
    exact ⟨_, rfl⟩

theorem base_write_total {fuel : Nat} {s : State} {obj : Nat} {key : Key} {c : Closure}
    {g st : Option Nat} (newVal : Val)
    (hslot : slotAt s obj key = some (.base c g st))
    (ht : s.target = none) (hn : untagged s < fuel) :
    ∃ s', assign fuel s obj key newVal = .ok s' := by
  rw [assign_reactive hslot]
  simp only [reactiveSetter]
  obtain ⟨c1, c2, c3, c4, c5, c6, c7⟩ := callCustomSetter_spec c s
  have hu1 : untagged (callCustomSetter c s) = untagged s := by unfold untagged; rw [c3]
  split
  · exact ⟨_, rfl⟩
  · cases st with
    | some cell =>
      have hgoal : ∃ s', finishSet (fun s1 v => observe fuel s1 v false) c obj key
          ({ callCustomSetter c s with
              cells := (callCustomSetter c s).cells.set cell newVal }.log
            (.setterCall cell newVal)) newVal = .ok s' := by
        apply finishSet_total
        · exact c5.trans ht
        · have : untagged ({ callCustomSetter c s with
              cells := (callCustomSetter c s).cells.set cell newVal }.log
                (.setterCall cell newVal)) = untagged (callCustomSetter c s) := rfl
          rw [this, hu1]; exact hn
      cases g <;> exact hgoal
    | none =>
      cases g with
      | some cell => exact ⟨_, rfl⟩
      | none =>
        have hs := modifySlot_shell (callCustomSetter c s) obj key c.dep
          (fun x => { x with val := newVal })
        apply finishSet_total
        · exact hs.2.2.1.trans (c5.trans ht)
        · have := untagged_le_of_shell hs.2.2.2.2.2.2.1 hs.2.2.2.2.2.2.2
          omega

theorem strictEq_self_false {v : Val} (h : strictEq v v = false) : v = .nan := by
  cases v <;> simp [strictEq] at h ⊢

theorem unchanged_of_differs {newVal value : Val} (h1 : strictEq newVal value = false)
    (h2 : ¬ (newVal = .nan ∧ value = .nan)) : unchanged newVal value = false := by
  unfold unchanged
  rw [h1]
  simp only [Bool.false_or, Bool.and_eq_false_imp, Bool.not_eq_true', Bool.not_eq_false']
  intro hn
  cases hv : strictEq value value with
  | true => rfl
  | false => exact absurd ⟨strictEq_self_false hn, strictEq_self_false hv⟩ h2

/-! ## A changing write to a slot of any depth -/

theorem canObserve_of_extOn {F : Nat → Prop} {s s' : State} (h : ExtOn F s s') {v : Val}
    (hc : canObserve s v = true) : canObserve s' v = true := by
  cases v with
  | ref a =>
    simp only [canObserve] at hc ⊢
    cases hget : s.heap[a]? with
    | none => simp [hget] at hc
    | some o =>
      obtain ⟨o', ho', hoe⟩ := h.obj a o hget
      simp only [hget, Bool.and_eq_true, Bool.not_eq_true', decide_eq_false_iff_not,
        Bool.or_eq_true] at hc
      simp only [ho', Bool.and_eq_true, Bool.not_eq_true', decide_eq_false_iff_not,
        Bool.or_eq_true, hoe.kind]
      refine ⟨hc.1, ?_⟩
      rcases hc.2 with h1 | h2
      · obtain ⟨t, ht⟩ := Option.isSome_iff_exists.mp h1
        exact Or.inl (by rw [hoe.tag t ht]; rfl)
      · right
        simpa [observable, hoe.kind, hoe.extensible, hoe.isVue, h.shouldObserve,
          h.serverRendering] using h2
  | _ => simp [canObserve] at hc

theorem carriesObserver_of_extOn {F : Nat → Prop} {s s' : State} (h : ExtOn F s s') {v : Val}
    (hc : carriesObserver s v = true) : carriesObserver s' v = true := by
  cases v with
  | ref a =>
    simp only [carriesObserver] at hc ⊢
    cases hget : s.heap[a]? with
    | none => simp [hget] at hc
    | some o =>
      obtain ⟨o', ho', hoe⟩ := h.obj a o hget
      simp only [hget] at hc
      obtain ⟨t, ht⟩ := Option.isSome_iff_exists.mp hc
      simp [ho', hoe.tag t ht]
  | _ => simp [carriesObserver] at hc

theorem innermost_dep_mem : ∀ (slot : Slot) (c : Closure) (g st : Option Nat),
    slot.innermost = .base c g st → c.dep ∈ slot.deps := by
  intro slot
  induction slot with
  | base c0 g0 st0 =>
    intro c g st h
    simp only [Slot.innermost] at h
    cases h
    simp [Slot.deps]
  | wrap c0 inner ih =>
    intro c g st h
    simp only [Slot.innermost] at h
    simp only [Slot.deps, List.mem_append]
    exact Or.inl (ih c g st h)

theorem wrapped_of_innermost : ∀ (slot : Slot) (c : Closure) (g st : Option Nat),
    slot.innermost = .base c g st → slot.wrapped = (g, st) := by
  intro slot
  induction slot with
  | base c0 g0 st0 =>
    intro c g st h
    simp only [Slot.innermost] at h
    cases h
    rfl
  | wrap c0 inner ih =>
    intro c g st h
    simp only [Slot.innermost] at h
    simp only [Slot.wrapped]
    exact ih c g st h

theorem peekSlot_modify_innermost (cells : List Val) (v : Val) :
    ∀ (top : Slot) (c : Closure) (st : Option Nat),
      top.innermost = .base c none st → top.deps.Nodup →
      peekSlot cells (top.modify c.dep (fun x => { x with val := v })) = v := by
  intro top
  induction top with
  | base c0 g0 st0 =>
    intro c st h _
    simp only [Slot.innermost] at h
    cases h
    simp [Slot.modify, peekSlot]
  | wrap c0 inner ih =>
    intro c st h hnd
    simp only [Slot.innermost] at h
    simp only [Slot.deps] at hnd
    have hmem := innermost_dep_mem inner c none st h
    have hne : c0.dep ≠ c.dep := by
      intro he
      rw [List.nodup_append] at hnd
      exact hnd.2.2 hmem (by simp [he])
    simp only [Slot.modify, if_neg hne, peekSlot]
    exact ih c st h (List.Nodup.of_append_left hnd)

theorem peek_modifySlot_at {s : State} {obj : Nat} {key : Key} {top : Slot}
    (h : slotAt s obj key = some top) (d : Nat) (f : Closure → Closure) :
    peek (s.modifySlot obj key d f) obj key = peekSlot s.cells (top.modify d f) := by
  obtain ⟨o, desc, ho, hd, hb⟩ := slotAt_some h
  simp only [State.modifySlot, ho, hd, hb]
  simp only [peek, getElem?_setObj_self ho, findProp_putProp, if_true, peekDesc]
  rfl

theorem keeps_refl (s : State) : Keeps s s :=
  ⟨rfl, Nat.le_refl _, fun _ h => h, fun _ h => h⟩

theorem keeps_trans {s s1 s2 : State} (h1 : Keeps s s1) (h2 : Keeps s1 s2) : Keeps s s2 :=
  ⟨h2.1.trans h1.1, Nat.le_trans h2.2.1 h1.2.1, fun v hv => h2.2.2.1 v (h1.2.2.1 v hv),
    fun v hv => h2.2.2.2 v (h1.2.2.2 v hv)⟩

theorem keeps_of_shell {s s' : State} (ht : s'.target = s.target)
    (h1 : s'.shouldObserve = s.shouldObserve) (h2 : s'.serverRendering = s.serverRendering)
    (hlen : s'.heap.length = s.heap.length)
    (h : ∀ (a : Nat) (o : Obj), s.heap[a]? = some o →
      ∃ o', s'.heap[a]? = some o' ∧ o'.shell = o.shell) : Keeps s s' :=
  ⟨ht, untagged_le_of_shell hlen h,
    fun v hv => (canObserve_of_shell (v := v) h1 h2 hlen h).trans hv,
    fun _ hv => carriesObserver_of_shell h hv⟩

theorem keeps_of_heap {s s' : State} (hh : s'.heap = s.heap) (ht : s'.target = s.target)
    (h1 : s'.shouldObserve = s.shouldObserve) (h2 : s'.serverRendering = s.serverRendering) :
    Keeps s s' :=
  keeps_of_shell ht h1 h2 (by rw [hh]) (fun a o ho => ⟨o, by rw [hh]; exact ho, rfl⟩)

theorem keeps_of_ext {s s' : State} (e : Ext s s') : Keeps s s' :=
  ⟨e.target, untagged_le_of_extOn e, fun _ hv => canObserve_of_extOn e hv,
    fun _ hv => carriesObserver_of_extOn e hv⟩

theorem keeps_callCustomSetter (c : Closure) (s : State) : Keeps s (callCustomSetter c s) := by
  obtain ⟨_, _, c3, _, c5, c6, c7⟩ := callCustomSetter_spec c s
  exact keeps_of_heap c3 c5 c6 c7

theorem keeps_modifySlot (s : State) (obj : Nat) (key : Key) (d : Nat)
    (f : Closure → Closure) : Keeps s (s.modifySlot obj key d f) := by
  have hs := modifySlot_shell s obj key d f
  exact keeps_of_shell hs.2.2.1 hs.2.2.2.2.1 hs.2.2.2.2.2.1 hs.2.2.2.2.2.2.1 hs.2.2.2.2.2.2.2

theorem finishSet_keeps {fuel : Nat} {c : Closure} {obj : Nat} {key : Key} {s2 s' : State}
    {newVal : Val}
    (h : finishSet (fun s1 v => observe fuel s1 v false) c obj key s2 newVal = .ok s') :
    Keeps s2 s' := by
  unfold finishSet at h
  split at h
  · cases h
    exact keeps_trans (keeps_modifySlot s2 obj key c.dep _) (keeps_of_heap rfl rfl rfl rfl)
  · split at h
    · rename_i s3 childOb hobs
      cases h
      exact keeps_trans (keeps_of_ext (observe_ext _ _ _ _ _ hobs))
        (keeps_trans (keeps_modifySlot s3 obj key c.dep _) (keeps_of_heap rfl rfl rfl rfl))
    · simp at h

theorem keeps_of_reads {s s' : State} (h : Reads s s') : Keeps s s' := by
  obtain ⟨ds, _, hs⟩ := h
  subst hs
  exact keeps_of_heap rfl rfl rfl rfl

theorem reactiveSetter_keeps {fuel : Nat} {obj : Nat} {key : Key} {newVal : Val} :
    ∀ (slot : Slot) (s s' : State),
      reactiveSetter (fun s1 v => observe fuel s1 v false) fuel obj key slot s newVal = .ok s' →
      Keeps s s' := by
  intro slot
  induction slot with
  | base c g st =>
    intro s s' h
    simp only [reactiveSetter] at h
    split at h
    · cases h; exact keeps_refl s
    · have k1 := keeps_callCustomSetter c s
      split at h
      · cases h; exact k1
      · rename_i cell
        refine keeps_trans (keeps_trans k1 ?_) (finishSet_keeps h)
        exact keeps_of_heap rfl rfl rfl rfl
      · exact keeps_trans (keeps_trans k1 (keeps_modifySlot _ obj key c.dep _))
          (finishSet_keeps h)
  | wrap c inner ih =>
    intro s s' h
    simp only [reactiveSetter] at h
    split at h
    · cases h
    · rename_i s0 value hread
      have k0 := keeps_of_reads (reactiveGetter_spec hread).1
      split at h
      · cases h; exact k0
      · split at h
        · rename_i s2 h2
          exact keeps_trans (keeps_trans (keeps_trans k0 (keeps_callCustomSetter c s0))
            (ih _ _ h2)) (finishSet_keeps h)
        · cases h

theorem reactiveSetter_total {fuel : Nat} {obj : Nat} {key : Key} (newVal : Val) :
    ∀ (slot : Slot) (s : State), s.target = none → untagged s < fuel →
      ∃ s', reactiveSetter (fun s1 v => observe fuel s1 v false) fuel obj key slot s newVal
        = .ok s' := by
  intro slot
  induction slot with
  | base c g st =>
    intro s ht hn
    simp only [reactiveSetter]
    have k1 := keeps_callCustomSetter c s
    split
    · exact ⟨_, rfl⟩
    · split
      · exact ⟨_, rfl⟩
      · apply finishSet_total
        · exact k1.1.trans ht
        · exact Nat.lt_of_le_of_lt
            (keeps_of_heap (s := callCustomSetter c s) rfl rfl rfl rfl).2.1
            (Nat.lt_of_le_of_lt k1.2.1 hn)
      · have k2 := keeps_trans k1 (keeps_modifySlot (callCustomSetter c s) obj key c.dep
          (fun x => { x with val := newVal }))
        exact finishSet_total _ _ _ _ _ (k2.1.trans ht) (Nat.lt_of_le_of_lt k2.2.1 hn)
  | wrap c inner ih =>
    intro s ht hn
    simp only [reactiveSetter, reactiveGetter_quiet fuel inner s ht]
    split
    · exact ⟨_, rfl⟩
    · have k1 := keeps_callCustomSetter c s
      obtain ⟨s2, h2⟩ := ih (callCustomSetter c s) (k1.1.trans ht)
        (Nat.lt_of_le_of_lt k1.2.1 hn)
      rw [h2]
      have k2 := keeps_trans k1 (reactiveSetter_keeps _ _ _ h2)
      exact finishSet_total _ _ _ _ _ (k2.1.trans ht) (Nat.lt_of_le_of_lt k2.2.1 hn)

theorem slot_write_spec {fuel : Nat} {obj : Nat} {key : Key} {newVal : Val} (top : Slot) :
    ∀ (sub : Slot) (s s' : State),
      slotAt s obj key = some top → sub.innermost = top.innermost →
      (sub.wrapped.1 = none ∨ sub.wrapped.2.isSome = true) →
      unchanged newVal (peekSlot s.cells sub) = false →
      reactiveSetter (fun s1 v => observe fuel s1 v false) fuel obj key sub s newVal = .ok s' →
      notifications s'.trace = notifications s.trace ++ sub.deps ∧
      setterCalls s'.trace =
        setterCalls s.trace ++ (sub.wrapped.2.map (fun cell => (cell, newVal))).toList ∧
      (sub.wrapped = (none, none) → top.deps.Nodup → peek s' obj key = newVal) ∧
      (sub.closure.shallow = false → canObserve s newVal = true →
        carriesObserver s' newVal = true) := by
  intro sub
  induction sub with
  | base c g st =>
    intro s s' hslot hin hrw hdiff h
    simp only [reactiveSetter] at h
    have hv : ∀ g' : Option Nat, (match g' with
        | some cell => s.cells.getD cell Val.undefined
        | none => c.val) = peekSlot s.cells (.base c g' st) := by intro g'; cases g' <;> rfl
    rw [hv g, hdiff] at h
    simp only [Bool.false_eq_true, if_false] at h
    obtain ⟨c1, c2, c3, c4, c5, c6, c7⟩ := callCustomSetter_spec c s
    have k1 := keeps_callCustomSetter c s
    cases st with
    | some cell =>
      have h' : finishSet (fun s1 v => observe fuel s1 v false) c obj key
          ({ callCustomSetter c s with
              cells := (callCustomSetter c s).cells.set cell newVal }.log
            (.setterCall cell newVal)) newVal = .ok s' := by
        cases g <;> exact h
      obtain ⟨f1, f2, _, f4, _⟩ := finishSet_spec h'
      refine ⟨?_, ?_, fun hw _ => ?_, fun hsh hc => f4 hsh ?_⟩
      · rw [f1]
        simp [State.log, notifications_append, notifications, c1, Slot.deps]
      · rw [f2]
        simp [State.log, setterCalls_append, setterCalls, c2, Slot.wrapped]
      · simp [Slot.wrapped] at hw
      · exact (keeps_trans k1 (keeps_of_heap (s := callCustomSetter c s) rfl rfl rfl rfl)).2.2.1
          _ hc
    | none =>
      have hg : g = none := by
        rcases hrw with hg | hst
        · exact hg
        · simp [Slot.wrapped] at hst
      subst hg
      simp only at h
      have hslot1 : slotAt (callCustomSetter c s) obj key = some top := by
        unfold slotAt at hslot ⊢
        rw [c3]; exact hslot
      have hs := modifySlot_shell (callCustomSetter c s) obj key c.dep
        (fun x => { x with val := newVal })
      obtain ⟨f1, f2, f3, f4, _⟩ := finishSet_spec h
      refine ⟨?_, ?_, fun _ hnd => ?_, fun hsh hc => f4 hsh ?_⟩
      · rw [f1, hs.2.1, c1]; rfl
      · rw [f2, hs.2.1, c2]; simp [Slot.wrapped]
      · rw [f3, peek_modifySlot_at hslot1]
        exact peekSlot_modify_innermost _ newVal top c none hin.symm hnd
      · exact (keeps_trans k1 (keeps_modifySlot _ obj key c.dep _)).2.2.1 _ hc
  | wrap c inner ih =>
    intro s s' hslot hin hrw hdiff h
    simp only [reactiveSetter] at h
    split at h
    · cases h
    · rename_i s0 value hread
      obtain ⟨hreads, hval, _⟩ := reactiveGetter_spec hread
      have k0 := keeps_of_reads hreads
      obtain ⟨ds, hds, hs0⟩ := hreads
      have hdiff' : unchanged newVal value = false := by rw [hval]; exact hdiff
      rw [hdiff'] at h
      simp only [Bool.false_eq_true, if_false] at h
      obtain ⟨c1, c2, c3, c4, c5, c6, c7⟩ := callCustomSetter_spec c s0
      have k1 := keeps_callCustomSetter c s0
      split at h
      · rename_i s2 h2
        have hslotI : slotAt (callCustomSetter c s0) obj key = some top := by
          unfold slotAt at hslot ⊢
          rw [c3, hs0]; exact hslot
        have hdiffI : unchanged newVal (peekSlot (callCustomSetter c s0).cells inner) = false := by
          rw [c4, hs0]; exact hdiff
        obtain ⟨i1, i2, i3, _⟩ := ih _ _ hslotI hin hrw hdiffI h2
        obtain ⟨f1, f2, f3, f4, _⟩ := finishSet_spec h
        have k2 := keeps_trans (keeps_trans k0 k1) (reactiveSetter_keeps _ _ _ h2)
        refine ⟨?_, ?_, fun hw hnd => ?_, fun hsh hc => f4 hsh (k2.2.2.1 _ hc)⟩
        · rw [f1, i1, c1, hs0]
          simp [notifications_append, notifications_depends ds hds, Slot.deps]
        · rw [f2, i2, c2, hs0]
          simp [setterCalls_append, setterCalls_depends ds hds, Slot.wrapped]
        · rw [f3]
          exact i3 hw hnd
      · cases h

/-- C2 fails for a slot that wraps a getter without a setter: the write of 2
over the current value 1 stores nothing, notifies nothing and a following read
still returns 1. It also fails for a shallow slot: the written object is stored
and notified but not observed. And it fails for a slot that wraps the slot of
a getter without a setter: the write is handed to the wrapped slot, which drops
it, so nothing is stored and a following read still returns 1, though the
registry of the outer slot is notified. -/
theorem write_to_getter_only_slot_is_dropped :
    (slotAt sampleGetterOnly 0 (.name "a") =
      some (.base { dep := 1, val := .undefined, childOb := none, shallow := false,
                    customSetter := false } (some 0) none) ∧
    strictEq (.num 2) (peek sampleGetterOnly 0 (.name "a")) = false ∧
    assign 1 sampleGetterOnly 0 (.name "a") (.num 2) = .ok sampleGetterOnly ∧
    notifications sampleGetterOnly.trace = [] ∧
    getProp 1 sampleGetterOnly 0 (.name "a") = .ok (sampleGetterOnly, .num 1)) ∧
    (canObserve sampleShallow (.ref 1) = true ∧
    ∃ s', assign 2 sampleShallow 0 (.name "a") (.ref 1) = .ok s' ∧
      peek s' 0 (.name "a") = .ref 1 ∧ notifications s'.trace = [1] ∧
      carriesObserver s' (.ref 1) = false) ∧
    (strictEq (.num 2) (peek sampleGetterTwice 0 (.name "a")) = false ∧
    ∃ s', assign 1 sampleGetterTwice 0 (.name "a") (.num 2) = .ok s' ∧
      notifications s'.trace = [2] ∧ s'.cells = sampleGetterTwice.cells ∧
      getProp 1 s' 0 (.name "a") = .ok (s', .num 1)) :=
  ⟨by decide, ⟨by decide, _, rfl, by decide, by decide, by decide⟩,
    by decide, _, rfl, by decide, by decide, by decide⟩

/-- C2 (amended): a write of a value that differs from the current value (by
strict equality, two NaN counting as equal) to a reactive slot of any depth
that does not wrap a getter without a setter, directly or through the slots it
wraps, stores the value (in the captured variable of the innermost slot, or by
one call of the wrapped setter), observes it unless the slot is shallow, and
notifies the registry of the slot once, after the registries of the slots it
wraps, and no other registry; when no accessor is wrapped the slot then reads
the new value (the registries of the slots being distinct, as `defineReactive`
makes them). A slot that itself wraps a getter without a setter drops the
write: nothing is stored, no registry is notified, no setter is called. The
write returns whenever no evaluation unit is active. -/
theorem changed_write_stores_and_notifies (fuel : Nat) (s : State) (obj : Nat) (key : Key)
    (slot : Slot) (newVal : Val)
    (hslot : slotAt s obj key = some slot)
    (hdiff : strictEq newVal (peekSlot s.cells slot) = false)
    (hnan : ¬ (newVal = .nan ∧ peekSlot s.cells slot = .nan)) :
    (slot.wrapped.1 = none ∨ slot.wrapped.2.isSome = true →
      ∀ s', assign fuel s obj key newVal = .ok s' →
        notifications s'.trace = notifications s.trace ++ slot.deps ∧
        setterCalls s'.trace =
          setterCalls s.trace ++ (slot.wrapped.2.map (fun cell => (cell, newVal))).toList ∧
        (slot.wrapped = (none, none) → slot.deps.Nodup →
          peek s' obj key = newVal ∧
          ∀ fuel' s'' v, getProp fuel' s' obj key = .ok (s'', v) → v = newVal) ∧
        (slot.closure.shallow = false → canObserve s newVal = true →
          carriesObserver s' newVal = true)) ∧
    (∀ c g, slot = .base c (some g) none →
      assign fuel s obj key newVal = .ok (callCustomSetter c s) ∧
      (callCustomSetter c s).heap = s.heap ∧ (callCustomSetter c s).cells = s.cells ∧
      notifications (callCustomSetter c s).trace = notifications s.trace ∧
      setterCalls (callCustomSetter c s).trace = setterCalls s.trace) ∧
    (s.target = none → untagged s < fuel → ∃ s', assign fuel s obj key newVal = .ok s') := by
  have hun := unchanged_of_differs hdiff hnan
  refine ⟨fun hrw s' h => ?_, fun c g hs => ?_, fun ht hn => ?_⟩
  · rw [assign_reactive hslot] at h
    obtain ⟨h1, h2, h3, h4⟩ := slot_write_spec slot slot s s' hslot rfl hrw hun h
    refine ⟨h1, h2, fun hw hnd => ⟨h3 hw hnd, fun fuel' s'' v hread => ?_⟩, h4⟩
    rw [(getProp_spec hread).2.1]
    exact h3 hw hnd
  · subst hs
    obtain ⟨c1, c2, c3, c4, _⟩ := callCustomSetter_spec c s
    refine ⟨?_, c3, c4, c1, c2⟩
    rw [assign_reactive hslot]
    simp only [reactiveSetter]
    have hv : s.cells.getD g Val.undefined = peekSlot s.cells (.base c (some g) none) := rfl
    rw [hv, hun]
    simp
  · rw [assign_reactive hslot]
    exact reactiveSetter_total newVal slot s ht hn

theorem changed_write_stores_and_notifies_witness :
    slotAt sampleTwice 0 (.name "a") =
      some (.wrap { dep := 2, val := .num 1, childOb := none, shallow := false,
                    customSetter := false } (Slot.plainOf 1 (.num 1))) ∧
    strictEq (.num 5) (.num 1) = false ∧
    ∃ s', assign 1 sampleTwice 0 (.name "a") (.num 5) = .ok s' ∧
      notifications s'.trace = [1, 2] ∧ peek s' 0 (.name "a") = .num 5 := by
  have h := changed_write_stores_and_notifies 1 sampleTwice 0 (.name "a")
    (.wrap { dep := 2, val := .num 1, childOb := none, shallow := false,
             customSetter := false } (Slot.plainOf 1 (.num 1)))
    (.num 5) (by decide) (by decide) (by decide)
  obtain ⟨s', hs'⟩ := h.2.2 (by decide) (by decide)
  obtain ⟨h1, _, h3, _⟩ := h.1 (Or.inl rfl) s' hs'
  exact ⟨by decide, by decide, s', hs', h1, (h3 rfl (by decide)).1⟩

/-! ## The methods of the platform touch elements only -/

theorem native_shape {sortBy : List Val → List Val → List Val} {method : Method}
    {s s1 : State} {this : Nat} {args : List Val} {r : Val}
    (h : arrayProto sortBy method s this args = .ok (s1, r)) :
    ∃ sA, (sA = s ∨ ∃ l, sA = (allocArray s l).1) ∧ (s1 = sA ∨ ∃ e, s1 = setElems sA this e) := by
  cases method <;> simp only [arrayProto] at h
  · -- push
    unfold nativePush at h
    split at h
    · cases h
    · split at h
      · cases h
      · cases h; exact ⟨s, Or.inl rfl, Or.inr ⟨_, rfl⟩⟩
  · unfold nativePop at h
    split at h
    · cases h
    · split at h
      · cases h; exact ⟨s, Or.inl rfl, Or.inl rfl⟩
      · cases h; exact ⟨s, Or.inl rfl, Or.inr ⟨_, rfl⟩⟩
  · unfold nativeShift at h
    split at h
    · cases h
    · cases h; exact ⟨s, Or.inl rfl, Or.inl rfl⟩
    · cases h; exact ⟨s, Or.inl rfl, Or.inr ⟨_, rfl⟩⟩
  · unfold nativeUnshift at h
    split at h
    · cases h
    · split at h
      · cases h
      · cases h; exact ⟨s, Or.inl rfl, Or.inr ⟨_, rfl⟩⟩
  · unfold nativeSplice at h
    split at h
    · cases h
    · rename_i elems helems
      dsimp only at h
      split at h
      · cases h; exact ⟨_, Or.inr ⟨_, rfl⟩, Or.inl rfl⟩
      · split at h
        · cases h
        · split at h
          · cases h
          · split at h
            · cases h
            · cases h; exact ⟨_, Or.inr ⟨_, rfl⟩, Or.inr ⟨_, rfl⟩⟩
  · unfold nativeSort at h
    split at h
    · cases h
    · cases h; exact ⟨s, Or.inl rfl, Or.inr ⟨_, rfl⟩⟩
  · unfold nativeReverse at h
    split at h
    · cases h
    · cases h; exact ⟨s, Or.inl rfl, Or.inr ⟨_, rfl⟩⟩

theorem elemsOnly_same (s : State) : ElemsOnly s s where
  cells := rfl
  trace := rfl
  target := rfl
  shouldObserve := rfl
  serverRendering := rfl
  obj := fun _ o h => ⟨o, h, rfl⟩
  untagged := Nat.le_add_right _ _

theorem elemsOnly_alloc (s : State) (l : List Val) : ElemsOnly s (allocArray s l).1 where
  cells := rfl
  trace := rfl
  target := rfl
  shouldObserve := rfl
  serverRendering := rfl
  obj := fun a o h => by
    refine ⟨o, ?_, rfl⟩
    have hlt : a < s.heap.length := by
      by_contra hge
      rw [List.getElem?_eq_none (by omega)] at h
      cases h
    simp only [allocArray]
    rw [List.getElem?_append_left hlt]
    exact h
  untagged := by
    simp [untagged, allocArray, List.countP_append]

theorem elemsOnly_setElems {s sA : State} (h : ElemsOnly s sA) (this : Nat) (e : List Val) :
    ElemsOnly s (setElems sA this e) := by
  unfold setElems
  split
  · rename_i oA hA
    refine
      { cells := h.cells, trace := h.trace, target := h.target,
        shouldObserve := h.shouldObserve, serverRendering := h.serverRendering,
        obj := ?_, untagged := ?_ }
    · intro a o ha
      obtain ⟨o1, ho1, he1⟩ := h.obj a o ha
      by_cases hat : a = this
      · subst hat
        rw [hA] at ho1
        cases ho1
        refine ⟨_, getElem?_setObj_self hA, ?_⟩
        rw [← he1]
      · exact ⟨o1, by rw [getElem?_setObj_ne hat]; exact ho1, he1⟩
    · refine Nat.le_trans ?_ h.untagged
      unfold untagged
      apply countP_le_of_pointwise
      · simp [State.setObj]
      · intro a o ha
        by_cases hat : a = this
        · subst hat
          rw [hA] at ha
          cases ha
          exact ⟨_, getElem?_setObj_self hA, fun hn => hn⟩
        · exact ⟨o, by rw [getElem?_setObj_ne hat]; exact ha, fun hn => hn⟩
  · exact h

theorem native_elemsOnly {sortBy : List Val → List Val → List Val} {method : Method}
    {s s1 : State} {this : Nat} {args : List Val} {r : Val}
    (h : arrayProto sortBy method s this args = .ok (s1, r)) : ElemsOnly s s1 := by
  obtain ⟨sA, hA, h1⟩ := native_shape h
  have eA : ElemsOnly s sA := by
    rcases hA with rfl | ⟨l, rfl⟩
    · exact elemsOnly_same _
    · exact elemsOnly_alloc s l
  rcases h1 with rfl | ⟨e, rfl⟩
  · exact eA
  · exact elemsOnly_setElems eA this e

theorem arrayElems_of_extOn {F : Nat → Prop} {s s' : State} (h : ExtOn F s s') (a : Nat) :
    arrayElems s' a = arrayElems s a := by
  unfold arrayElems
  cases hget : s.heap[a]? with
  | none =>
    have : s'.heap[a]? = none := by
      rw [List.getElem?_eq_none_iff] at hget ⊢
      rw [h.len]; exact hget
    simp [this]
  | some o =>
    obtain ⟨o', ho', hoe⟩ := h.obj a o hget
    simp [ho', hoe.kind, hoe.elems]

/-! ## The wrappers of the array methods -/

theorem observeArray_ext {fuel : Nat} {s s' : State} {items : List Val}
    (h : observeArray fuel s items = .ok s') : Ext s s' :=
  observeArrayWith_ext (fun s v s' r => observe_ext fuel s v s' r) items s s' h

theorem observeArray_total (fuel : Nat) (s : State) (items : List Val)
    (ht : s.target = none) (hn : untagged s < fuel) :
    ∃ s', observeArray fuel s items = .ok s' :=
  observeArrayWith_total (fun s v s' r => observe_ext fuel s v s' r)
    (fun s v ht hn => observe_total fuel s v false ht hn) items s ht hn

theorem mutator_spec (fuel : Nat) (method : Method) {original : NativeFn}
    {s s1 : State} {this : Nat} {args : List Val} {r : Val} {o1 : Obj} {t : Tag}
    (horig : original s this args = .ok (s1, r))
    (hget : s1.heap[this]? = some o1) (hob : o1.ob = some t) :
    (∀ s' r', mutator fuel method original s this args = .ok (s', r') →
      r' = r ∧ ∃ s2, Ext s1 s2 ∧ s' = depNotify s2 t.dep ∧
        (∀ items, inserted method args = some items → observeArray fuel s1 items = .ok s2) ∧
        (inserted method args = none → s2 = s1)) ∧
    (s1.target = none → untagged s1 < fuel →
      ∃ s', mutator fuel method original s this args = .ok (s', r)) := by
  have hb : (s1.heap[this]?).bind (fun o => o.ob) = some t := by simp [hget, hob]
  unfold mutator
  simp only [horig, hb]
  constructor
  · intro s' r' h
    cases hins : inserted method args with
    | none =>
      simp only [hins] at h
      cases h
      exact ⟨rfl, s1, ExtOn.nothing _ s1, rfl, fun _ hi => (by cases hi), fun _ => rfl⟩
    | some items =>
      simp only [hins] at h
      split at h
      · simp at h
      · rename_i s2 h2
        cases h
        exact ⟨rfl, s2, observeArray_ext h2, rfl, fun _ hi => (by cases hi; exact h2),
          fun hi => (by cases hi)⟩
  · intro ht hn
    cases hins : inserted method args with
    | none => exact ⟨_, rfl⟩
    | some items =>
      obtain ⟨s2, h2⟩ := observeArray_total fuel s1 items ht hn
      simp only [h2]
      exact ⟨_, rfl⟩

theorem native_keeps_tag {s s1 : State} (h : ElemsOnly s s1) {this : Nat} {o : Obj} {t : Tag}
    (hget : s.heap[this]? = some o) (hob : o.ob = some t) :
    ∃ o1, s1.heap[this]? = some o1 ∧ o1.ob = some t := by
  obtain ⟨o1, ho1, he⟩ := h.obj this o hget
  refine ⟨o1, ho1, ?_⟩
  have : ({ o1 with elems := o.elems } : Obj).ob = o.ob := by rw [he]
  exact this.trans hob

/-- C4: each of the seven wrappers returns what the method of the platform
returns and leaves every array, the receiver included, with the elements the
method of the platform leaves it with; it throws what that method throws. With
no evaluation unit active it returns whenever that method returns. -/
theorem wrapper_result_is_native (fuel : Nat) (sortBy : List Val → List Val → List Val)
    (method : Method) (s : State) (this : Nat) (args : List Val) (o : Obj) (t : Tag)
    (hget : s.heap[this]? = some o) (hob : o.ob = some t) :
    (∀ e, arrayProto sortBy method s this args = .error e →
      arrayMethods fuel sortBy method s this args = .error e) ∧
    (∀ s1 r, arrayProto sortBy method s this args = .ok (s1, r) →
      (∀ s' r', arrayMethods fuel sortBy method s this args = .ok (s', r') →
        r' = r ∧ ∀ a, arrayElems s' a = arrayElems s1 a) ∧
      (s.target = none → untagged s + 1 < fuel →
        ∃ s', arrayMethods fuel sortBy method s this args = .ok (s', r))) := by
  constructor
  · intro e he
    simp only [arrayMethods, mutator, he]
  · intro s1 r horig
    have hE := native_elemsOnly horig
    obtain ⟨o1, ho1, hob1⟩ := native_keeps_tag hE hget hob
    obtain ⟨m1, m2⟩ := mutator_spec fuel method horig ho1 hob1
    constructor
    · intro s' r' h
      obtain ⟨hr, s2, e2, hs', _⟩ := m1 s' r' h
      refine ⟨hr, fun a => ?_⟩
      rw [hs']
      exact arrayElems_of_extOn e2 a
    · intro ht hn
      exact m2 (hE.target.trans ht) (Nat.lt_of_le_of_lt hE.untagged hn)

theorem wrapper_result_is_native_witness :
    sampleArray.heap[0]? = some sampleArrayObj ∧
    sampleArrayObj.ob = some { dep := 0, vmCount := 0 } ∧
    ∃ s', arrayMethods 2 (fun _ e => e) .push sampleArray 0 [.num 2] = .ok (s', .num 2) ∧
      arrayElems s' 0 = some [.num 1, .num 2] := by
  have h := wrapper_result_is_native 2 (fun _ e => e) .push sampleArray 0 [.num 2]
    sampleArrayObj { dep := 0, vmCount := 0 } (by decide) rfl
  have hn : arrayProto (fun _ e => e) .push sampleArray 0 [.num 2] =
      .ok (setElems sampleArray 0 [.num 1, .num 2], .num 2) := by decide
  obtain ⟨s', hs'⟩ := (h.2 _ _ hn).2 (by decide) (by decide)
  refine ⟨by decide, rfl, s', hs', ?_⟩
  rw [((h.2 _ _ hn).1 s' _ hs').2 0]
  decide

theorem mutator_ok_inv {fuel : Nat} {method : Method} {original : NativeFn}
    {s s' : State} {this : Nat} {args : List Val} {r : Val}
    (h : mutator fuel method original s this args = .ok (s', r)) :
    ∃ s1 o1 t, original s this args = .ok (s1, r) ∧ s1.heap[this]? = some o1 ∧
      o1.ob = some t := by
  unfold mutator at h
  cases horig : original s this args with
  | error e => simp [horig] at h
  | ok res =>
    obtain ⟨s1, r1⟩ := res
    simp only [horig] at h
    cases hget : s1.heap[this]? with
    | none => simp [hget] at h
    | some o1 =>
      cases hob : o1.ob with
      | none => simp [hget, hob] at h
      | some t =>
        have hb : (s1.heap[this]?).bind (fun o => o.ob) = some t := by simp [hget, hob]
        simp only [hb] at h
        generalize (match inserted method args with
          | some items => observeArray fuel s1 items
          | none => Except.ok s1) = X at h
        cases X with
        | error e => simp at h
        | ok s2 =>
          simp only [Except.ok.injEq, Prod.mk.injEq] at h
          obtain ⟨_, rfl⟩ := h
          exact ⟨s1, o1, t, rfl, hget, hob⟩

/-- C5: a call of any of the seven wrappers on an observed array that returns
has notified the registry of the Observer of that array exactly once and no
other registry, whatever the arguments; with no evaluation unit active the
call returns whenever the method of the platform does. -/
theorem wrapper_notifies_own_registry_once (fuel : Nat)
    (sortBy : List Val → List Val → List Val) (method : Method) (s : State) (this : Nat)
    (args : List Val) (o : Obj) (t : Tag)
    (hget : s.heap[this]? = some o) (hob : o.ob = some t) :
    (∀ s' r, arrayMethods fuel sortBy method s this args = .ok (s', r) →
      notifications s'.trace = notifications s.trace ++ [t.dep]) ∧
    (∀ s1 r, arrayProto sortBy method s this args = .ok (s1, r) →
      s.target = none → untagged s + 1 < fuel →
      ∃ s', arrayMethods fuel sortBy method s this args = .ok (s', r)) := by
  constructor
  · intro s' r h
    obtain ⟨s1, o1', t', horig, ho1', hob1'⟩ := mutator_ok_inv h
    have hE := native_elemsOnly horig
    obtain ⟨o1, ho1, hob1⟩ := native_keeps_tag hE hget hob
    obtain ⟨_, s2, e2, hs', _⟩ := (mutator_spec fuel method horig ho1 hob1).1 s' r h
    obtain ⟨ds, hds, htr⟩ := e2.trace
    rw [hs']
    simp [depNotify, State.log, notifications_append, notifications, htr,
      notifications_depends ds hds, hE.trace]
  · intro s1 r horig ht hn
    have hE := native_elemsOnly horig
    obtain ⟨o1, ho1, hob1⟩ := native_keeps_tag hE hget hob
    exact (mutator_spec fuel method horig ho1 hob1).2 (hE.target.trans ht)
      (Nat.lt_of_le_of_lt hE.untagged hn)

theorem wrapper_notifies_own_registry_once_witness :
    sampleArray.heap[0]? = some sampleArrayObj ∧
    sampleArrayObj.ob = some { dep := 0, vmCount := 0 } ∧
    ∃ s', arrayMethods 2 (fun _ e => e) .pop sampleArray 0 [] = .ok (s', .num 1) ∧
      notifications s'.trace = [0] := by
  have h := wrapper_notifies_own_registry_once 2 (fun _ e => e) .pop sampleArray 0 []
    sampleArrayObj { dep := 0, vmCount := 0 } (by decide) rfl
  have hn : arrayProto (fun _ e => e) .pop sampleArray 0 [] =
      .ok (setElems sampleArray 0 [], .num 1) := by decide
  obtain ⟨s', hs'⟩ := h.2 _ _ hn (by decide) (by decide)
  exact ⟨by decide, rfl, s', hs', h.1 s' _ hs'⟩

/-! ## `set` on an array -/

theorem clampStart_padded (elems : List Val) (k : Nat) :
    clampStart (elems ++ List.replicate (k - elems.length) Val.undefined).length (k : Int) = k := by
  unfold clampStart
  have : ¬ ((k : Int) < 0) := by omega
  simp only [this, if_false, Int.toNat_ofNat, List.length_append, List.length_replicate]
  omega

theorem replaced_spec (elems : List Val) (k : Nat) (v : Val) :
    (replaced elems k v).length = max elems.length (k + 1) ∧
    (replaced elems k v)[k]? = some v ∧
    ∀ i, i < elems.length → i ≠ k → (replaced elems k v)[i]? = elems[i]? := by
  unfold replaced
  simp only [clampStart_padded]
  have hlen : (elems ++ List.replicate (k - elems.length) Val.undefined).length
      = max elems.length k := by
    simp only [List.length_append, List.length_replicate]; omega
  have h1 : Int.toNat 1 = 1 := rfl
  rw [h1, hlen]
  refine ⟨?_, ?_, ?_⟩
  · simp only [List.length_append, List.length_take, List.length_drop, List.length_replicate,
      List.length_cons, List.length_nil]
    omega
  · rw [List.append_assoc, List.getElem?_append_right (by simp)]
    simp only [List.length_take, List.length_append, List.length_replicate]
    have : k - min k (elems.length + (k - elems.length)) = 0 := by omega
    rw [this]
    simp
  · intro i hi hik
    by_cases hlt : i < k
    · rw [List.append_assoc, List.getElem?_append_left (by simp; omega)]
      rw [List.getElem?_take_of_lt hlt, List.getElem?_append_left hi]
    · have hk : k < elems.length := by omega
      have hpad : elems ++ List.replicate (k - elems.length) Val.undefined = elems := by
        have : k - elems.length = 0 := by omega
        simp [this]
      rw [hpad]
      have hm : min 1 (max elems.length k - k) = 1 := by omega
      rw [hm, List.append_assoc, List.getElem?_append_right (by simp; omega)]
      simp only [List.length_take]
      have hmk : min k elems.length = k := by omega
      rw [hmk]
      have hpos : i - k = (i - k - 1) + 1 := by omega
      rw [hpos]
      simp only [List.singleton_append, List.getElem?_cons_succ, List.getElem?_drop]
      congr 1
      omega

theorem arrayElems_setElems_self {s : State} {a : Nat} {o : Obj} (h : s.heap[a]? = some o)
    (hk : o.kind = .array) (e : List Val) : arrayElems (setElems s a e) a = some e := by
  unfold arrayElems setElems
  simp only [h]
  rw [getElem?_setObj_self h]
  simp [hk]

theorem getElem?_allocArray {s : State} {a : Nat} {o : Obj} (h : s.heap[a]? = some o)
    (l : List Val) : (allocArray s l).1.heap[a]? = some o := by
  have hlt : a < s.heap.length := by
    by_contra hge
    rw [List.getElem?_eq_none (by omega)] at h
    cases h
  simp only [allocArray]
  rw [List.getElem?_append_left hlt]
  exact h

theorem growthError_none {s : State} {a : Nat} {o : Obj} {n : Nat}
    (h : s.heap[a]? = some o)
    (hn : n ≤ o.elems.length ∨ (o.extensible = true ∧ n ≤ maxArrayLength)) :
    growthError s a n = none := by
  unfold growthError
  rw [h]
  dsimp only
  rcases hn with hn | ⟨he, hn⟩
  · rw [if_pos hn]
  · by_cases hl : n ≤ o.elems.length
    · rw [if_pos hl]
    · rw [if_neg hl, if_neg (by simp [he]), if_neg (by omega)]

theorem nativeSplice_replace {s : State} {target : Nat} {o : Obj} (k : Nat) (v : Val)
    (hget : s.heap[target]? = some o) (hk : o.kind = .array)
    (hgrow : k < o.elems.length ∨ (o.extensible = true ∧ k < maxArrayLength)) :
    ∃ s1 r, nativeSplice
        (s.setObj target
          { o with elems := o.elems ++ List.replicate (k - o.elems.length) .undefined })
        target [.num k, .num 1, v] = .ok (s1, r) ∧
      arrayElems s1 target = some (replaced o.elems k v) := by
  have hget1 : (s.setObj target
      { o with elems := o.elems ++ List.replicate (k - o.elems.length) .undefined }).heap[target]?
      = some { o with elems := o.elems ++ List.replicate (k - o.elems.length) .undefined } :=
    getElem?_setObj_self hget
  have hE : arrayElems (s.setObj target
      { o with elems := o.elems ++ List.replicate (k - o.elems.length) .undefined }) target
      = some (o.elems ++ List.replicate (k - o.elems.length) .undefined) := by
    unfold arrayElems
    rw [hget1]
    simp [hk]
  have hG : growthError (s.setObj target
      { o with elems := o.elems ++ List.replicate (k - o.elems.length) .undefined }) target
      (replaced o.elems k v).length = none := by
    apply growthError_none hget1
    have hle := (replaced_spec o.elems k v).1
    simp only [List.length_append, List.length_replicate]
    by_cases hlt : k < o.elems.length
    · left; omega
    · rcases hgrow with h | ⟨he, h⟩
      · exact absurd h hlt
      · right; exact ⟨he, by unfold maxArrayLength at h ⊢; omega⟩
  unfold replaced at hG
  dsimp only at hG
  unfold nativeSplice
  simp only [hE, toInteger, List.drop_succ_cons, List.drop_zero, hG]
  refine ⟨_, _, rfl, ?_⟩
  rw [arrayElems_setElems_self (getElem?_allocArray hget1 _) hk]
  rfl

theorem set_array_eq {fuel : Nat} {s : State} {target : Nat} {o : Obj} (k : Nat) (v : Val)
    (hget : s.heap[target]? = some o) (hk : o.kind = .array)
    (hlen : k ≤ maxArrayLength ∨ k ≤ o.elems.length) :
    set fuel s target (.index k) v =
      match callSplice fuel (s.setObj target
          { o with elems := o.elems ++ List.replicate (k - o.elems.length) .undefined })
          target [.num k, .num 1, v] with
      | .ok (s2, _) => .ok (s2, v)
      | .error e => .error e := by
  have hno : ¬ (o.elems.length < k ∧ maxArrayLength < k) := by omega
  simp only [set, hget, Key.reserved, hk, isValidArrayIndex, if_true, Bool.false_eq_true,
    if_false, hno]

theorem callSplice_replace (fuel : Nat) {s : State} {target : Nat} {o : Obj} (k : Nat) (v : Val)
    (hget : s.heap[target]? = some o) (hk : o.kind = .array)
    (hgrow : k < o.elems.length ∨ (o.extensible = true ∧ k < maxArrayLength)) :
    (∀ s' r, callSplice fuel (s.setObj target
          { o with elems := o.elems ++ List.replicate (k - o.elems.length) .undefined })
          target [.num k, .num 1, v] = .ok (s', r) →
      arrayElems s' target = some (replaced o.elems k v)) ∧
    (s.target = none → untagged s + 1 < fuel → (o.augmented = true → o.ob.isSome = true) →
      ∃ s' r, callSplice fuel (s.setObj target
          { o with elems := o.elems ++ List.replicate (k - o.elems.length) .undefined })
          target [.num k, .num 1, v] = .ok (s', r)) := by
  have hget1 : (s.setObj target
      { o with elems := o.elems ++ List.replicate (k - o.elems.length) .undefined }).heap[target]?
      = some { o with elems := o.elems ++ List.replicate (k - o.elems.length) .undefined } :=
    getElem?_setObj_self hget
  obtain ⟨s1, r1, hn, hE1⟩ := nativeSplice_replace k v hget hk hgrow
  have hnp : arrayProto (fun _ e => e) .splice
      (s.setObj target
        { o with elems := o.elems ++ List.replicate (k - o.elems.length) .undefined })
      target [.num k, .num 1, v] = .ok (s1, r1) := hn
  have hEO := native_elemsOnly hnp
  unfold callSplice
  rw [hget1]
  dsimp only
  by_cases ha : o.augmented = true
  · rw [if_pos ha]
    constructor
    · intro s' r h
      obtain ⟨s1', o1, t, horig, ho1, hob1⟩ := mutator_ok_inv h
      rw [hn] at horig
      cases horig
      obtain ⟨_, s2, e2, hs', _⟩ := (mutator_spec fuel .splice hn ho1 hob1).1 s' _ h
      rw [hs']
      exact (arrayElems_of_extOn e2 target).trans hE1
    · intro ht hu hwf
      obtain ⟨t, htag⟩ := Option.isSome_iff_exists.mp (hwf ha)
      obtain ⟨o1, ho1, hob1⟩ := native_keeps_tag hEO hget1 (show _ = some t from htag)
      have hu1 : untagged s1 < fuel := by
        have h1 := hEO.untagged
        have h2 : untagged (s.setObj target
            { o with elems := o.elems ++ List.replicate (k - o.elems.length) .undefined })
            ≤ untagged s := by
          unfold untagged
          apply countP_le_of_pointwise
          · simp [State.setObj]
          · intro a oa hoa
            by_cases hat : a = target
            · subst hat
              rw [hget] at hoa
              cases hoa
              exact ⟨_, hget1, fun hn => hn⟩
            · exact ⟨oa, by rw [getElem?_setObj_ne hat]; exact hoa, fun hn => hn⟩
        omega
      obtain ⟨s', hs'⟩ := (mutator_spec fuel .splice hn ho1 hob1).2 (hEO.target.trans ht) hu1
      exact ⟨s', r1, hs'⟩
  · rw [if_neg ha]
    constructor
    · intro s' r h
      rw [hn] at h
      cases h
      exact hE1
    · intro _ _ _
      exact ⟨s1, r1, hn⟩

theorem growthError_some {s : State} {a : Nat} {o : Obj} {n : Nat}
    (h : s.heap[a]? = some o) (hn : o.elems.length < n)
    (hbad : o.extensible = false ∨ maxArrayLength < n) :
    growthError s a n = some (if o.extensible = false then .typeError else .rangeError) := by
  unfold growthError
  rw [h]
  dsimp only
  rw [if_neg (by omega)]
  cases he : o.extensible
  · simp
  · rcases hbad with hb | hb
    · rw [he] at hb; cases hb
    · simp [hb]

theorem nativeSplice_grow_fails {s : State} {target : Nat} {o : Obj} (k : Nat) (v : Val)
    (hget : s.heap[target]? = some o) (hk : o.kind = .array) (hlen : o.elems.length ≤ k)
    (hbad : o.extensible = false ∨ maxArrayLength ≤ k) :
    nativeSplice
        (s.setObj target
          { o with elems := o.elems ++ List.replicate (k - o.elems.length) .undefined })
        target [.num k, .num 1, v] =
      .error (if o.extensible = false then .typeError else .rangeError) := by
  have hget1 : (s.setObj target
      { o with elems := o.elems ++ List.replicate (k - o.elems.length) .undefined }).heap[target]?
      = some { o with elems := o.elems ++ List.replicate (k - o.elems.length) .undefined } :=
    getElem?_setObj_self hget
  have hE : arrayElems (s.setObj target
      { o with elems := o.elems ++ List.replicate (k - o.elems.length) .undefined }) target
      = some (o.elems ++ List.replicate (k - o.elems.length) .undefined) := by
    unfold arrayElems
    rw [hget1]
    simp [hk]
  have hG := growthError_some (n := (replaced o.elems k v).length) hget1
    (by
      have hle := (replaced_spec o.elems k v).1
      simp only [List.length_append, List.length_replicate]
      omega)
    (by
      have hle := (replaced_spec o.elems k v).1
      rcases hbad with h | h
      · exact Or.inl h
      · right; omega)
  unfold replaced at hG
  dsimp only at hG
  unfold nativeSplice
  simp only [hE, toInteger, List.drop_succ_cons, List.drop_zero, hG]

theorem callSplice_grow_fails (fuel : Nat) {s : State} {target : Nat} {o : Obj} (k : Nat)
    (v : Val) (hget : s.heap[target]? = some o) (hk : o.kind = .array)
    (hlen : o.elems.length ≤ k) (hbad : o.extensible = false ∨ maxArrayLength ≤ k) :
    callSplice fuel
        (s.setObj target
          { o with elems := o.elems ++ List.replicate (k - o.elems.length) .undefined })
        target [.num k, .num 1, v] =
      .error (if o.extensible = false then .typeError else .rangeError) := by
  have hn := nativeSplice_grow_fails k v hget hk hlen hbad
  unfold callSplice
  rw [getElem?_setObj_self hget]
  dsimp only
  unfold mutator
  rw [hn]
  simp

/-- On an array that cannot take the index `k` (it is not below the length,
and the array is not extensible or `k` is not below `2^32 - 1`), `set` throws:
a `RangeError` from the assignment of the length or from `splice`, a
`TypeError` from `splice` on an array that is not extensible. -/
theorem set_array_grow_fails (fuel : Nat) {s : State} {target : Nat} {o : Obj} (k : Nat)
    (v : Val) (hget : s.heap[target]? = some o) (hk : o.kind = .array)
    (hlen : o.elems.length ≤ k) (hbad : o.extensible = false ∨ maxArrayLength ≤ k) :
    set fuel s target (.index k) v =
      .error (if o.elems.length < k ∧ maxArrayLength < k then .rangeError
        else if o.extensible = false then .typeError else .rangeError) := by
  by_cases hg : o.elems.length < k ∧ maxArrayLength < k
  · simp only [set, hget, Key.reserved, hk, isValidArrayIndex, if_true, Bool.false_eq_true,
      if_false, hg, and_self]
  · rw [if_neg hg, set_array_eq k v hget hk (by omega),
      callSplice_grow_fails fuel k v hget hk hlen hbad]

/-- C7 as stated fails where the array cannot take the index: on the array
`[1, 2]` made non-extensible, `set(arr, 5, "v")` pads the length and `splice`
throws a `TypeError`; on the extensible `[1, 2]`, `set(arr, 4294967295, "v")`
throws a `RangeError`, the length `2^32` being out of range. -/
theorem set_on_array_index_throws :
    (sampleFixedArray.heap[0]? = some
        { Obj.arrayOf [.num 1, .num 2] with
          ob := some { dep := 0, vmCount := 0 }, augmented := true, extensible := false } ∧
      sampleFixedArray.target = none ∧
      set 3 sampleFixedArray 0 (.index 5) (.str "v") = .error .typeError) ∧
    (sampleArray2.heap[0]? = some
        { Obj.arrayOf [.num 1, .num 2] with
          ob := some { dep := 0, vmCount := 0 }, augmented := true } ∧
      sampleArray2.target = none ∧
      ∀ fuel, set fuel sampleArray2 0 (.index 4294967295) (.str "v") = .error .rangeError) :=
  ⟨⟨by decide, by decide, by decide⟩, by decide, by decide, fun fuel =>
    (set_array_grow_fails fuel 4294967295 (.str "v")
      (show sampleArray2.heap[0]? = some
        { Obj.arrayOf [.num 1, .num 2] with
          ob := some { dep := 0, vmCount := 0 }, augmented := true } from by decide)
      rfl (by decide) (Or.inr (by decide))).trans (by decide)⟩

/-- C7 (amended): on an array target that can take the index `k` (`k` is below
the length, or the array is extensible and `k` is below `2^32 - 1`),
`set(target, k, v)` returns `v` and leaves the array with length
`max(oldLength, k + 1)`, element `k` equal to `v` and every other element below
the old length unchanged. With no evaluation unit active the call returns (an
intercepted array carries its Observer). -/
theorem set_on_array_index (fuel : Nat) (s : State) (target : Nat) (o : Obj) (k : Nat) (v : Val)
    (hget : s.heap[target]? = some o) (hk : o.kind = .array)
    (hgrow : k < o.elems.length ∨ (o.extensible = true ∧ k < maxArrayLength)) :
    (∀ s' r, set fuel s target (.index k) v = .ok (s', r) →
      r = v ∧ ∃ elems, arrayElems s' target = some elems ∧
        elems.length = max o.elems.length (k + 1) ∧ elems[k]? = some v ∧
        ∀ i, i < o.elems.length → i ≠ k → elems[i]? = o.elems[i]?) ∧
    (s.target = none → untagged s + 1 < fuel → (o.augmented = true → o.ob.isSome = true) →
      ∃ s', set fuel s target (.index k) v = .ok (s', v)) := by
  obtain ⟨c1, c2⟩ := callSplice_replace fuel k v hget hk hgrow
  obtain ⟨r1, r2, r3⟩ := replaced_spec o.elems k v
  rw [set_array_eq k v hget hk (by omega)]
  constructor
  · intro s' r h
    split at h
    · rename_i s2 r2' h2
      cases h
      exact ⟨rfl, _, c1 _ _ h2, r1, r2, r3⟩
    · cases h
  · intro ht hu hwf
    obtain ⟨s', r, h⟩ := c2 ht hu hwf
    rw [h]
    exact ⟨s', rfl⟩

theorem set_on_array_index_witness :
    sampleArray2.heap[0]? = some
      { Obj.arrayOf [.num 1, .num 2] with
        ob := some { dep := 0, vmCount := 0 }, augmented := true } ∧
    ∃ s', set 3 sampleArray2 0 (.index 5) (.str "v") = .ok (s', .str "v") ∧
      ∃ elems, arrayElems s' 0 = some elems ∧ elems.length = 6 ∧ elems[5]? = some (.str "v") := by
  have h := set_on_array_index 3 sampleArray2 0
    { Obj.arrayOf [.num 1, .num 2] with ob := some { dep := 0, vmCount := 0 }, augmented := true }
    5 (.str "v") (by decide) rfl (Or.inr ⟨rfl, by decide⟩)
  obtain ⟨s', hs'⟩ := h.2 (by decide) (by decide) (fun _ => rfl)
  obtain ⟨_, elems, he, hl, hk, _⟩ := h.1 s' _ hs'
  exact ⟨by decide, s', hs', elems, he, hl, hk⟩

/-! ## `set` on an object -/

theorem keyExists_of_absent {o : Obj} {key : Key} (hk : o.kind ≠ .array)
    (hown : hasOwn o key = false) (hinh : inherits o key = false) : keyExists o key = false := by
  unfold keyExists keyIn
  have : decide (o.kind = .array) = false := by simp [hk]
  rw [this, hown, hinh]
  cases inObjectPrototype key <;> simp

theorem set_object_eq {fuel : Nat} {s : State} {target : Nat} {o : Obj} {key : Key} (val : Val)
    (hget : s.heap[target]? = some o) (hres : key.reserved = false)
    (hidx : o.kind = .array → isValidArrayIndex key = none) :
    set fuel s target key val =
      if keyExists o key then
        match assign fuel s target key val with
        | .ok s1 => .ok (s1, val)
        | .error e => .error e
      else if isRoot o then .ok (warn s, val)
      else
        match o.ob with
        | none =>
          match assign fuel s target key val with
          | .ok s1 => .ok (s1, val)
          | .error e => .error e
        | some ob =>
          match defineReactive fuel s target key (some val) false false with
          | .ok s1 => .ok (depNotify s1 ob.dep, val)
          | .error e => .error e := by
  have hi : (if o.kind = .array then isValidArrayIndex key else none) = none := by
    by_cases hk : o.kind = .array
    · rw [if_pos hk]; exact hidx hk
    · rw [if_neg hk]
  simp only [set, hget, hres, hi, Bool.false_eq_true, if_false]

theorem defineReactive_new (fuel : Nat) {s : State} {target : Nat} {o : Obj} {key : Key}
    (val : Val) (hget : s.heap[target]? = some o) (hown : hasOwn o key = false)
    (hext : o.extensible = true) :
    (∀ s', defineReactive fuel s target key (some val) false false = .ok s' →
      ∃ s2 childOb, observe fuel { s with nextDep := s.nextDep + 1 } val false = .ok (s2, childOb) ∧
        notifications s'.trace = notifications s.trace ∧
        slotAt s' target key = some (.base
          { dep := s.nextDep, val := val, childOb := childOb, shallow := false,
            customSetter := false } none none) ∧
        (canObserve s val = true → carriesObserver s' val = true)) ∧
    (s.target = none → untagged s < fuel →
      ∃ s', defineReactive fuel s target key (some val) false false = .ok s') := by
  have hnone : findProp o.props key = none := by
    unfold hasOwn at hown
    cases h : findProp o.props key with
    | none => rfl
    | some d => simp [h] at hown
  have hget1 : ({ s with nextDep := s.nextDep + 1 } : State).heap[target]? = some o := hget
  unfold defineReactive defineReactiveWith
  simp only [newDep, hget1, hnone, Bool.false_eq_true, if_false]
  have hdef : ∀ (s2 : State), Ext { s with nextDep := s.nextDep + 1 } s2 →
      ∃ o2, s2.heap[target]? = some o2 ∧ ∀ nd : Desc,
        defineProperty s2 target key nd =
          .ok (s2.setObj target { o2 with props := putProp o2.props key nd }) := by
    intro s2 e2
    obtain ⟨o2, ho2, hoe⟩ := e2.obj target o hget1
    refine ⟨o2, ho2, fun nd => ?_⟩
    unfold defineProperty
    simp only [ho2, hoe.absent key hnone, hoe.extensible, hext, if_true]
  constructor
  · intro s' h
    split at h
    · simp at h
    · rename_i s2 childOb hchild
      have e2 : Ext { s with nextDep := s.nextDep + 1 } s2 := observe_ext _ _ _ _ _ hchild
      obtain ⟨o2, ho2, hd⟩ := hdef s2 e2
      rw [hd] at h
      cases h
      refine ⟨s2, childOb, hchild, ?_, ?_, ?_⟩
      · obtain ⟨ds, hds, htr⟩ := e2.trace
        simp [State.setObj, htr, notifications_append, notifications_depends ds hds]
      · simp only [slotAt, getElem?_setObj_self ho2, findProp_putProp, if_true, makeSlot]
      · intro hc
        have hc1 : carriesObserver s2 val = true := ((observe_carries hchild).1 hc).1
        cases val with
        | ref a =>
          simp only [carriesObserver] at hc1 ⊢
          by_cases hat : a = target
          · subst hat
            rw [ho2] at hc1
            rw [getElem?_setObj_self ho2]
            exact hc1
          · rw [getElem?_setObj_ne hat]; exact hc1
        | _ => simp [carriesObserver] at hc1
  · intro ht hn
    obtain ⟨⟨s2, childOb⟩, hchild⟩ :=
      observe_total fuel { s with nextDep := s.nextDep + 1 } val false ht hn
    rw [hchild]
    have e2 : Ext { s with nextDep := s.nextDep + 1 } s2 := observe_ext _ _ _ _ _ hchild
    obtain ⟨o2, ho2, hd⟩ := hdef s2 e2
    simp only [hd]
    exact ⟨_, rfl⟩

theorem peek_of_slotAt {s : State} {obj : Nat} {key : Key} {slot : Slot}
    (h : slotAt s obj key = some slot) : peek s obj key = peekSlot s.cells slot := by
  obtain ⟨o, d, ho, hd, hb⟩ := slotAt_some h
  simp [peek, ho, hd, peekDesc, hb]

/-- C8 (amended): on an extensible target that carries an Observer and is
neither a component instance nor root data, `set` with a key that is not on
the target (not own, and not found by the test `key in target` of `set`
outside `Object.prototype`) and, on an array target, is not a valid array
index, installs a reactive slot that captures `val` (a following read yields
`val`, a following write of a different value notifies the registry of the
slot once), observes `val`, notifies the registry of the Observer of the
target exactly once and returns `val`. With no evaluation unit active the call
returns. -/
theorem set_adds_reactive_slot (fuel : Nat) (s : State) (target : Nat) (o : Obj) (t : Tag)
    (key : Key) (val : Val)
    (hget : s.heap[target]? = some o) (hob : o.ob = some t)
    (hvue : o.isVue = false) (hroot : t.vmCount = 0)
    (hres : key.reserved = false) (hidx : o.kind = .array → isValidArrayIndex key = none)
    (hown : hasOwn o key = false) (hnew : keyExists o key = false)
    (hext : o.extensible = true) :
    (∀ s' r, set fuel s target key val = .ok (s', r) →
      r = val ∧
      notifications s'.trace = notifications s.trace ++ [t.dep] ∧
      (∃ c, slotAt s' target key = some (.base c none none) ∧ c.val = val ∧
        ∀ fuel' v s'', strictEq v val = false → ¬ (v = .nan ∧ val = .nan) →
          assign fuel' s' target key v = .ok s'' →
          notifications s''.trace = notifications s'.trace ++ [c.dep]) ∧
      peek s' target key = val ∧
      (canObserve s val = true → carriesObserver s' val = true)) ∧
    (s.target = none → untagged s < fuel → ∃ s', set fuel s target key val = .ok (s', val)) := by
  have hr : isRoot o = false := by simp [isRoot, hvue, hob, hroot]
  obtain ⟨d1, d2⟩ := defineReactive_new fuel val hget hown hext
  rw [set_object_eq val hget hres hidx]
  simp only [hnew, hr, hob, Bool.false_eq_true, if_false]
  constructor
  · intro s' r h
    split at h
    · rename_i s1 h1
      cases h
      obtain ⟨s2, childOb, _, hn, hslot, hc⟩ := d1 s1 h1
      have hslot' : slotAt (depNotify s1 t.dep) target key = some (.base
          { dep := s.nextDep, val := val, childOb := childOb, shallow := false,
            customSetter := false } none none) := hslot
      refine ⟨rfl, ?_, ⟨_, hslot', rfl, ?_⟩, ?_, ?_⟩
      · simp [depNotify, State.log, notifications_append, notifications, hn]
      · intro fuel' v s'' hv hnan hw
        exact (base_write_spec hslot' (Or.inl rfl)
          (unchanged_of_differs hv (by simpa [peekSlot] using hnan)) hw).1
      · rw [peek_of_slotAt hslot']; rfl
      · intro hcan
        exact hc hcan
    · cases h
  · intro ht hn
    obtain ⟨s1, h1⟩ := d2 ht hn
    rw [h1]
    exact ⟨_, rfl⟩

theorem set_adds_reactive_slot_witness :
    sampleOne.heap[0]? = some
      { Obj.plainOf [(.name "a", Desc.reactiveOf (Slot.plainOf 1 (.num 1)))] with
        ob := some { dep := 0, vmCount := 0 } } ∧
    ∃ s', set 2 sampleOne 0 (.name "b") (.num 7) = .ok (s', .num 7) ∧
      notifications s'.trace = [0] ∧ peek s' 0 (.name "b") = .num 7 := by
  have h := set_adds_reactive_slot 2 sampleOne 0
    { Obj.plainOf [(.name "a", Desc.reactiveOf (Slot.plainOf 1 (.num 1)))] with
      ob := some { dep := 0, vmCount := 0 } }
    { dep := 0, vmCount := 0 } (.name "b") (.num 7) (by decide) rfl rfl rfl (by decide)
    (by decide) (by decide) (by decide) rfl
  obtain ⟨s', hs'⟩ := h.2 (by decide) (by decide)
  obtain ⟨_, hn, _, hp, _⟩ := h.1 s' _ hs'
  exact ⟨by decide, s', hs', hn, hp⟩

/-- C8 fails on a target that was made non-extensible after it was observed:
`Object.defineProperty` throws, so no slot is added, nothing is notified and
nothing is returned. It fails too on an observed array with an index beyond the
length: `set` takes its array branch, and `splice` stores `val` as a plain
element, not as a reactive slot. -/
theorem set_on_sealed_target_throws :
    (sampleSealed.heap[0]? = some
      { Obj.plainOf [(.name "a", Desc.reactiveOf (Slot.plainOf 1 (.num 1)))] with
        ob := some { dep := 0, vmCount := 0 }, extensible := false } ∧
    hasOwn { Obj.plainOf [(.name "a", Desc.reactiveOf (Slot.plainOf 1 (.num 1)))] with
        ob := some { dep := 0, vmCount := 0 }, extensible := false } (.name "b") = false ∧
    set 2 sampleSealed 0 (.name "b") (.num 7) = .error .typeError) ∧
    (sampleArray2.heap[0]? = some
      { Obj.arrayOf [.num 1, .num 2] with
        ob := some { dep := 0, vmCount := 0 }, augmented := true } ∧
    keyIn { Obj.arrayOf [.num 1, .num 2] with
        ob := some { dep := 0, vmCount := 0 }, augmented := true } (.index 5) = false ∧
    ∃ s', set 3 sampleArray2 0 (.index 5) (.str "v") = .ok (s', .str "v") ∧
      arrayElems s' 0 =
        some [.num 1, .num 2, .undefined, .undefined, .undefined, .str "v"] ∧
      slotAt s' 0 (.index 5) = none) :=
  ⟨by decide, by decide, by decide, _, rfl, by decide, by decide⟩

/-- C9 fails as stated, by the guards of `set`: a key that is inherited and not
own is `in` the target, so `set` assigns plainly (on the observed
`Object.create({ x: 1 })`, `set(obj, "x", 2)` adds the own data property `x`,
no reactive slot, and notifies nothing); and a key that is nowhere on a target
without Observer is assigned plainly too. -/
theorem set_assigns_without_slot :
    (sampleInherits.heap[0]? = some
        { Obj.plainOf [] with
          ob := some { dep := 0, vmCount := 0 }, inherited := [.name "x"] } ∧
    hasOwn { Obj.plainOf [] with
        ob := some { dep := 0, vmCount := 0 }, inherited := [.name "x"] } (.name "x") = false ∧
    ∃ s', set 2 sampleInherits 0 (.name "x") (.num 2) = .ok (s', .num 2) ∧
      assign 2 sampleInherits 0 (.name "x") (.num 2) = .ok s' ∧
      slotAt s' 0 (.name "x") = none ∧ peek s' 0 (.name "x") = .num 2 ∧
      notifications s'.trace = []) ∧
    (sampleBare.heap[0]? = some (Obj.plainOf []) ∧
    hasOwn (Obj.plainOf []) (.name "b") = false ∧
    ∃ s', set 2 sampleBare 0 (.name "b") (.num 2) = .ok (s', .num 2) ∧
      assign 2 sampleBare 0 (.name "b") (.num 2) = .ok s' ∧
      slotAt s' 0 (.name "b") = none ∧ peek s' 0 (.name "b") = .num 2 ∧
      notifications s'.trace = []) :=
  ⟨⟨by decide, by decide, _, rfl, by decide, by decide, by decide, by decide⟩,
    by decide, by decide, _, rfl, by decide, by decide, by decide, by decide⟩

/-- C9 (amended): on a non-array target, `set` takes the plain-assignment path
(`target[key] = val; return val`) when `key` is in the target, as an own
property or one inherited from a prototype other than `Object.prototype`, and
does not bear the name of a property of `Object.prototype`. When `key` is
neither own nor so inherited, `set` warns and changes nothing on a component
instance or root data, assigns plainly on a target without Observer, and takes
the add-a-new-slot path (`defineReactive`, then one `notify` of the registry of
the Observer) on every other target. -/
theorem set_path_on_object (fuel : Nat) (s : State) (target : Nat) (o : Obj) (key : Key)
    (val : Val)
    (hget : s.heap[target]? = some o) (hk : o.kind ≠ .array) (hres : key.reserved = false) :
    ((hasOwn o key = true ∨ inherits o key = true) → inObjectPrototype key = false →
      set fuel s target key val = (assign fuel s target key val).map (fun s1 => (s1, val))) ∧
    (hasOwn o key = false → inherits o key = false → isRoot o = true →
      set fuel s target key val = .ok (warn s, val)) ∧
    (hasOwn o key = false → inherits o key = false → isRoot o = false → o.ob = none →
      set fuel s target key val = (assign fuel s target key val).map (fun s1 => (s1, val))) ∧
    (∀ t, hasOwn o key = false → inherits o key = false → isRoot o = false → o.ob = some t →
      set fuel s target key val =
        (defineReactive fuel s target key (some val) false false).map
          (fun s1 => (depNotify s1 t.dep, val))) := by
  rw [set_object_eq val hget hres (fun h => absurd h hk)]
  have hin : (hasOwn o key = true ∨ inherits o key = true) → inObjectPrototype key = false →
      keyExists o key = true := by
    intro h hp
    unfold keyExists keyIn
    rw [hp]
    rcases h with h | h <;> simp [h]
  have hout : hasOwn o key = false → inherits o key = false → keyExists o key = false :=
    keyExists_of_absent hk
  refine ⟨?_, ?_, ?_, ?_⟩
  · intro h hp
    rw [if_pos (hin h hp)]
    cases assign fuel s target key val <;> rfl
  · intro h hi hr
    simp [hout h hi, hr]
  · intro h hi hr hob
    simp only [hout h hi, hr, hob, Bool.false_eq_true, if_false]
    cases assign fuel s target key val <;> rfl
  · intro t h hi hr hob
    simp only [hout h hi, hr, hob, Bool.false_eq_true, if_false]
    cases defineReactive fuel s target key (some val) false false <;> rfl

theorem set_path_on_object_witness :
    sampleOne.heap[0]? = some
      { Obj.plainOf [(.name "a", Desc.reactiveOf (Slot.plainOf 1 (.num 1)))] with
        ob := some { dep := 0, vmCount := 0 } } ∧
    set 2 sampleOne 0 (.name "a") (.num 7) =
      (assign 2 sampleOne 0 (.name "a") (.num 7)).map (fun s1 => (s1, .num 7)) :=
  ⟨by decide,
    (set_path_on_object 2 sampleOne 0
      { Obj.plainOf [(.name "a", Desc.reactiveOf (Slot.plainOf 1 (.num 1)))] with
        ob := some { dep := 0, vmCount := 0 } }
      (.name "a") (.num 7) (by decide) (by decide) (by decide)).1 (Or.inl (by decide))
      (by decide)⟩

/-- An own property that bears the name of a property of `Object.prototype`
is not taken for a key of the target: on the own key `toString` of an observed
object `set` does not assign, as its docstring has it for a property that
exists, but installs a reactive slot on the key and notifies the registry of
the Observer. -/
theorem set_own_prototype_name_adds_slot :
    hasOwn { Obj.plainOf [(.name "toString", Desc.dataOf (.num 1))] with
        ob := some { dep := 0, vmCount := 0 } } (.name "toString") = true ∧
    slotAt sampleToString 0 (.name "toString") = none ∧
    ∃ s', set 2 sampleToString 0 (.name "toString") (.num 2) = .ok (s', .num 2) ∧
      slotAt s' 0 (.name "toString") = some (Slot.plainOf 1 (.num 2)) ∧
      notifications s'.trace = [0] ∧
      ∃ s1, assign 2 sampleToString 0 (.name "toString") (.num 2) = .ok s1 ∧
        slotAt s1 0 (.name "toString") = none ∧ notifications s1.trace = [] :=
  ⟨by decide, by decide, _, rfl, by decide, by decide, _, rfl, by decide, by decide⟩

/-! ## `del` on an object -/

theorem findProp_removeProp (ps : List (Key × Desc)) (k k' : Key) :
    findProp (removeProp ps k) k' = if k' = k then none else findProp ps k' := by
  induction ps with
  | nil => simp [removeProp, findProp]
  | cons p rest ih =>
    obtain ⟨k0, d0⟩ := p
    by_cases h0 : k0 = k
    · subst h0
      by_cases h : k' = k0
      · subst h
        simpa [removeProp] using ih
      · simp [removeProp, findProp, ih, h, Ne.symm h]
    · by_cases h : k' = k
      · subst h
        simp [removeProp, findProp, h0, ih]
      · by_cases h1 : k0 = k'
        · subst h1
          simp [removeProp, findProp, h0]
        · simp [removeProp, findProp, h0, h1, h, ih]

/-- C10, as the code has it: on a non-array target that is neither a component
instance nor root data, `del` changes and notifies nothing when `key` is not
an own property; when `key` is a configurable own property it removes it,
leaves every other property as it was, and notifies the registry of the
Observer of the target exactly once if the target carries one, and nothing
otherwise. -/
theorem del_on_object (fuel : Nat) (s : State) (target : Nat) (o : Obj) (key : Key)
    (hget : s.heap[target]? = some o) (hk : o.kind ≠ .array) (hres : key.reserved = false)
    (hroot : isRoot o = false) :
    (hasOwn o key = false → del fuel s target key = .ok s) ∧
    (∀ d, findProp o.props key = some d → d.configurable = true →
      ∃ s' o', del fuel s target key = .ok s' ∧ s'.heap[target]? = some o' ∧
        hasOwn o' key = false ∧
        (∀ k, k ≠ key → findProp o'.props k = findProp o.props k) ∧
        notifications s'.trace =
          notifications s.trace ++ (o.ob.map (fun t => t.dep)).toList) := by
  have hi : (if o.kind = .array then isValidArrayIndex key else none) = none := if_neg hk
  constructor
  · intro hown
    simp only [del, hget, hres, hi, hroot, hown, Bool.false_eq_true, if_false, Bool.not_false,
      if_true]
  · intro d hd hconf
    have hown : hasOwn o key = true := by simp [hasOwn, hd]
    have hdel : deleteProp s target key =
        .ok (s.setObj target { o with props := removeProp o.props key }) := by
      simp only [deleteProp, hget, hd, hconf, if_true]
    have hget' : (s.setObj target { o with props := removeProp o.props key }).heap[target]?
        = some { o with props := removeProp o.props key } := getElem?_setObj_self hget
    have hfacts : hasOwn { o with props := removeProp o.props key } key = false ∧
        ∀ k, k ≠ key →
          findProp ({ o with props := removeProp o.props key } : Obj).props k
            = findProp o.props k := by
      constructor
      · simp [hasOwn, findProp_removeProp]
      · intro k hkk
        simp [findProp_removeProp, hkk]
    simp only [del, hget, hres, hi, hroot, hown, hdel, Bool.false_eq_true, if_false,
      Bool.not_true]
    have htr : (s.setObj target { o with props := removeProp o.props key }).trace = s.trace :=
      rfl
    generalize s.setObj target { o with props := removeProp o.props key } = s1 at hget' htr ⊢
    cases hob : o.ob with
    | none =>
      exact ⟨_, _, rfl, hget', hfacts.1, hfacts.2, by simp [htr]⟩
    | some t =>
      refine ⟨_, _, rfl, hget', hfacts.1, hfacts.2, ?_⟩
      simp [depNotify, State.log, notifications_append, notifications, htr]

theorem del_on_object_witness :
    sampleOne.heap[0]? = some
      { Obj.plainOf [(.name "a", Desc.reactiveOf (Slot.plainOf 1 (.num 1)))] with
        ob := some { dep := 0, vmCount := 0 } } ∧
    ∃ s' o', del 1 sampleOne 0 (.name "a") = .ok s' ∧ s'.heap[0]? = some o' ∧
      hasOwn o' (.name "a") = false ∧ notifications s'.trace = [0] := by
  obtain ⟨s', o', h1, h2, h3, _, h5⟩ := (del_on_object 1 sampleOne 0
    { Obj.plainOf [(.name "a", Desc.reactiveOf (Slot.plainOf 1 (.num 1)))] with
      ob := some { dep := 0, vmCount := 0 } }
    (.name "a") (by decide) (by decide) (by decide) (by decide)).2
    (Desc.reactiveOf (Slot.plainOf 1 (.num 1))) (by decide) rfl
  exact ⟨by decide, s', o', h1, h2, h3, h5⟩

/-- C10 fails for an own property that is not configurable: `delete` throws in
strict code, so the key stays an own property and nothing is notified. -/
theorem del_of_fixed_property_throws :
    sampleFixed.heap[0]? = some
      { Obj.plainOf [(.name "a",
          { body := .data (.num 1) false, enumerable := true, configurable := false })] with
        ob := some { dep := 0, vmCount := 0 } } ∧
    hasOwn { Obj.plainOf [(.name "a",
          { body := .data (.num 1) false, enumerable := true, configurable := false })] with
        ob := some { dep := 0, vmCount := 0 } } (.name "a") = true ∧
    del 1 sampleFixed 0 (.name "a") = .error .typeError := by
  decide

/-! ## What `observe` newly observes is reachable -/

theorem reach_mono {F : Nat → Prop} {s s1 : State} (h : ExtOn F s s1) {v : Val} {b : Nat}
    (hr : Reach s1 v b) : Reach s v b := by
  induction hr with
  | here a => exact Reach.here a
  | step a o v b hget hob hv _ ih =>
    have hget0 := h.untouched a o hget hob
    exact Reach.step a o v b hget0 hob (by rw [← h.cells]; exact hv) ih

theorem newlyObserved_split {F G : Nat → Prop} {s s1 s2 : State} (h1 : ExtOn F s s1)
    (_h2 : ExtOn G s1 s2) {b : Nat} (hn : newlyObserved s s2 b) :
    newlyObserved s s1 b ∨ newlyObserved s1 s2 b := by
  obtain ⟨⟨o, ho, hob⟩, hlater⟩ := hn
  obtain ⟨o1, ho1, _⟩ := h1.obj b o ho
  cases hob1 : o1.ob with
  | none => exact Or.inr ⟨⟨o1, ho1, hob1⟩, hlater⟩
  | some t => exact Or.inl ⟨⟨o, ho, hob⟩, o1, ho1, by simp [hob1]⟩

theorem not_reach_of_not_ref {s : State} {v : Val} {b : Nat} (h : Reach s v b)
    (hv : ∀ a, v ≠ .ref a) : False := by
  cases h <;> exact hv _ rfl

theorem findProp_mem (ps : List (Key × Desc)) (k : Key) (d : Desc)
    (h : findProp ps k = some d) : (k, d) ∈ ps := by
  induction ps with
  | nil => simp [findProp] at h
  | cons p rest ih =>
    obtain ⟨k0, d0⟩ := p
    by_cases h0 : k0 = k
    · subst h0
      simp only [findProp, if_true, Option.some.injEq] at h
      subst h
      exact List.mem_cons_self _ _
    · simp only [findProp, h0, if_false] at h
      exact List.mem_cons_of_mem _ (ih h)

theorem defineReactiveWith_reach {obs : State → Val → Except Err (State × Option Observer)}
    {fuel : Nat}
    (hobs : ∀ s v s' r, obs s v = .ok (s', r) → Ext s s')
    (hreach : ∀ s v s' r, obs s v = .ok (s', r) → ∀ b, newlyObserved s s' b → Reach s v b)
    {s s' : State} {obj : Nat} {key : Key} {o : Obj}
    (hget : s.heap[obj]? = some o) (htag : o.ob.isSome = true)
    (h : defineReactiveWith obs fuel s obj key none false false = .ok s') :
    ∀ b, newlyObserved s s' b → Reach s (peek s obj key) b := by
  intro b hnew
  have hb : b ≠ obj := by
    rintro rfl
    obtain ⟨⟨ob, hob, hnone⟩, _⟩ := hnew
    rw [hget] at hob
    cases hob
    simp [hnone] at htag
  unfold defineReactiveWith at h
  simp only [newDep] at h
  have hget1 : ({ s with nextDep := s.nextDep + 1 } : State).heap[obj]? = some o := hget
  rw [hget1] at h
  dsimp only at h
  have e0 : Ext s { s with nextDep := s.nextDep + 1 } := extOn_newDep _ s
  have hstay : ∀ s0 : State, s0.heap = s.heap → ¬ newlyObserved s s0 b := by
    intro s0 hs0 ⟨⟨ob, hob, hnone⟩, o', ho', hsome⟩
    rw [hs0, hob] at ho'
    cases ho'
    simp [hnone] at hsome
  split at h
  · cases h
    exact absurd hnew (hstay _ rfl)
  · split at h
    · simp at h
    · rename_i s1 v hread
      have hr : Reads { s with nextDep := s.nextDep + 1 } s1 ∧
          (v = peek s obj key ∨ ∀ a, v ≠ .ref a) ∧
          (s.target = none → s1 = { s with nextDep := s.nextDep + 1 }) := by
        split at hread
        · cases hread
          exact ⟨Reads.same _, Or.inr (fun a => by simp), fun _ => rfl⟩
        · obtain ⟨r1, r2, r3⟩ := getProp_spec hread
          exact ⟨r1, Or.inl r2, r3⟩
      obtain ⟨hr1, hr2, hr3⟩ := hr
      have e1 : Ext s s1 := e0.chain (ExtOn.of_reads hr1 hr3)
      split at h
      · simp at h
      · rename_i s2 childOb hchild
        simp only [Bool.false_eq_true, if_false] at hchild
        have e12 : Ext s1 s2 := hobs _ _ _ _ hchild
        have hs' : s'.heap[b]? = s2.heap[b]? := by
          unfold defineProperty at h
          split at h
          · cases h
          · split at h
            · split at h
              · cases h; exact getElem?_setObj_ne hb
              · cases h
            · split at h
              · cases h; exact getElem?_setObj_ne hb
              · cases h
        have hnew2 : newlyObserved s s2 b := by
          obtain ⟨h1, o', ho', hsome⟩ := hnew
          exact ⟨h1, o', by rw [← hs']; exact ho', hsome⟩
        rcases newlyObserved_split e1 e12 hnew2 with h1 | h2
        · exact absurd h1 (hstay _ (by rw [hr1.heap_eq]))
        · have := reach_mono e1 (hreach _ _ _ _ hchild b h2)
          rcases hr2 with rfl | hne
          · exact this
          · exact (not_reach_of_not_ref this hne).elim

theorem not_newlyObserved_self (s : State) (b : Nat) : ¬ newlyObserved s s b := by
  intro ⟨⟨o, ho, hnone⟩, o', ho', hsome⟩
  rw [ho] at ho'
  cases ho'
  simp [hnone] at hsome

theorem walkWith_reach {obs : State → Val → Except Err (State × Option Observer)}
    {fuel : Nat}
    (hobs : ∀ s v s' r, obs s v = .ok (s', r) → Ext s s')
    (hreach : ∀ s v s' r, obs s v = .ok (s', r) → ∀ b, newlyObserved s s' b → Reach s v b)
    {obj : Nat} :
    ∀ (keys : List Key) (s s' : State) (o : Obj), s.heap[obj]? = some o →
      o.ob.isSome = true →
      (∀ k ∈ keys, (findProp o.props k).isSome = true) →
      walkWith obs fuel obj s keys = .ok s' →
      ∀ b, newlyObserved s s' b → ∃ k ∈ keys, Reach s (peek s obj k) b := by
  intro keys
  induction keys with
  | nil =>
    intro s s' o _ _ _ h b hnew
    simp only [walkWith] at h
    cases h
    exact absurd hnew (not_newlyObserved_self s b)
  | cons k rest ih =>
    intro s s' o hget htag hkeys h b hnew
    simp only [walkWith] at h
    split at h
    · rename_i s1 h1
      have e1 : ExtOn (fun x => x = obj) s s1 :=
        defineReactiveWith_ext hobs hget (hkeys k (List.mem_cons_self _ _)) rfl htag h1
      obtain ⟨o1, ho1, hoe⟩ := e1.obj obj o hget
      have htag1 : o1.ob.isSome = true := by
        obtain ⟨t, ht⟩ := Option.isSome_iff_exists.mp htag
        rw [hoe.tag t ht]; rfl
      have hkeys1 : ∀ k' ∈ rest, (findProp o1.props k').isSome = true := by
        intro k' hk'
        obtain ⟨d, hd⟩ := Option.isSome_iff_exists.mp (hkeys k' (List.mem_cons_of_mem _ hk'))
        obtain ⟨d', hd', _⟩ := hoe.present k' d hd
        simp [hd']
      have e2 := walkWith_ext hobs (show obj = obj from rfl) rest s1 s' o1 ho1 htag1 hkeys1 h
      rcases newlyObserved_split e1 e2 hnew with hn1 | hn2
      · exact ⟨k, List.mem_cons_self _ _, defineReactiveWith_reach hobs hreach hget htag h1 b hn1⟩
      · obtain ⟨k', hk', hr⟩ := ih s1 s' o1 ho1 htag1 hkeys1 h b hn2
        refine ⟨k', List.mem_cons_of_mem _ hk', ?_⟩
        rw [← peek_of_extOn e1 obj k']
        exact reach_mono e1 hr
    · simp at h

theorem observeArrayWith_reach {obs : State → Val → Except Err (State × Option Observer)}
    (hobs : ∀ s v s' r, obs s v = .ok (s', r) → Ext s s')
    (hreach : ∀ s v s' r, obs s v = .ok (s', r) → ∀ b, newlyObserved s s' b → Reach s v b) :
    ∀ (items : List Val) (s s' : State), observeArrayWith obs s items = .ok s' →
      ∀ b, newlyObserved s s' b → ∃ v ∈ items, Reach s v b := by
  intro items
  induction items with
  | nil =>
    intro s s' h b hnew
    simp only [observeArrayWith] at h
    cases h
    exact absurd hnew (not_newlyObserved_self s b)
  | cons v rest ih =>
    intro s s' h b hnew
    simp only [observeArrayWith] at h
    split at h
    · rename_i s1 r h1
      have e1 : Ext s s1 := hobs _ _ _ _ h1
      have e2 : Ext s1 s' := observeArrayWith_ext hobs rest s1 s' h
      rcases newlyObserved_split e1 e2 hnew with hn1 | hn2
      · exact ⟨v, List.mem_cons_self _ _, hreach _ _ _ _ h1 b hn1⟩
      · obtain ⟨v', hv', hr⟩ := ih s1 s' h b hn2
        exact ⟨v', List.mem_cons_of_mem _ hv', reach_mono e1 hr⟩
    · simp at h

theorem newObserverWith_reach {obs : State → Val → Except Err (State × Option Observer)}
    {fuel : Nat}
    (hobs : ∀ s v s' r, obs s v = .ok (s', r) → Ext s s')
    (hreach : ∀ s v s' r, obs s v = .ok (s', r) → ∀ b, newlyObserved s s' b → Reach s v b)
    {s s' : State} {a : Nat} {o : Obj} {ob : Observer}
    (hget : s.heap[a]? = some o) (hob : o.ob = none)
    (h : newObserverWith obs fuel s a o = .ok (s', ob)) :
    ∀ b, newlyObserved s s' b → Reach s (.ref a) b := by
  intro b hnew
  by_cases hba : b = a
  · subst hba; exact Reach.here b
  unfold newObserverWith at h
  simp only [newDep, augment_eq] at h
  have hget0 : ({ s with nextDep := s.nextDep + 1 } : State).heap[a]? = some o := hget
  have key : ∀ (o1 : Obj) (sw : State) (v : Val), ObjExt s.cells o o1 → o1.ob.isSome = true →
      v ∈ edges s.cells o →
      newlyObserved (({ s with nextDep := s.nextDep + 1 } : State).setObj a o1) sw b →
      Reach (({ s with nextDep := s.nextDep + 1 } : State).setObj a o1) v b →
      Reach s (.ref a) b := by
    intro o1 sw v he1 htag hv _ hr
    have e1 : ExtOn (fun x => x = a) s (({ s with nextDep := s.nextDep + 1 } : State).setObj a o1) :=
      (extOn_newDep _ s).chain (extOn_setObj hget0 he1 (Or.inl rfl) htag)
    exact Reach.step a o v b hget hob hv (reach_mono e1 hr)
  have hnew1 : ∀ (o1 : Obj),
      newlyObserved (({ s with nextDep := s.nextDep + 1 } : State).setObj a o1) s' b := by
    intro o1
    obtain ⟨⟨ob0, hob0, hnone⟩, hlater⟩ := hnew
    exact ⟨⟨ob0, by rw [getElem?_setObj_ne hba]; exact hob0, hnone⟩, hlater⟩
  split at h
  · rename_i s2 hw
    cases h
    by_cases hk : o.kind = .array
    · rw [if_pos hk] at hw
      have he1 : ObjExt s.cells o
          { o with ob := some { dep := s.nextDep, vmCount := 0 }, augmented := true } :=
        { kind := rfl, extensible := rfl, isVue := rfl, elems := rfl,
          tag := fun t ht => by simp [hob] at ht,
          absent := fun _ hk => hk, present := fun _ d hk => ⟨d, hk, rfl, fun hc => hc⟩ }
      obtain ⟨v, hv, hr⟩ := observeArrayWith_reach hobs hreach _ _ _ hw b (hnew1 _)
      exact key _ _ v he1 rfl (by simp [edges, hk, hv]) (hnew1 _) hr
    · rw [if_neg hk] at hw
      have he1 : ObjExt s.cells o { o with ob := some { dep := s.nextDep, vmCount := 0 } } :=
        { kind := rfl, extensible := rfl, isVue := rfl, elems := rfl,
          tag := fun t ht => by simp [hob] at ht,
          absent := fun _ hk => hk, present := fun _ d hk => ⟨d, hk, rfl, fun hc => hc⟩ }
      obtain ⟨k, hk', hr⟩ := walkWith_reach hobs hreach (objectKeys o) _ _
        { o with ob := some { dep := s.nextDep, vmCount := 0 } }
        (getElem?_setObj_self hget0) rfl
        (fun k hk => objectKeys_present o k hk) hw b (hnew1 _)
      refine key _ _ _ he1 rfl ?_ (hnew1 _) hr
      obtain ⟨d, hd⟩ := Option.isSome_iff_exists.mp (objectKeys_present o k hk')
      have hp : peek (({ s with nextDep := s.nextDep + 1 } : State).setObj a
          { o with ob := some { dep := s.nextDep, vmCount := 0 } }) a k = peekDesc s.cells d := by
        unfold peek
        rw [getElem?_setObj_self hget0]
        simp only [hd]
        rfl
      rw [hp]
      simp only [edges, hk, if_false, List.mem_map]
      exact ⟨(k, d), findProp_mem _ _ _ hd, rfl⟩
  · simp at h

theorem observe_reach : ∀ (fuel : Nat) (s : State) (v : Val) (s' : State) (r : Option Observer),
    observe fuel s v false = .ok (s', r) → ∀ b, newlyObserved s s' b → Reach s v b := by
  intro fuel
  induction fuel with
  | zero => intro s v s' r h; simp [observe] at h
  | succ n ih =>
    intro s v s' r h b hnew
    cases v with
    | ref a =>
      simp only [observe] at h
      split at h
      · cases h; exact absurd hnew (not_newlyObserved_self s b)
      · rename_i o hget
        split at h
        · cases h; exact absurd hnew (not_newlyObserved_self s b)
        · split at h
          · simp at h
          · rename_i s1 hmade
            cases h
            split at hmade
            · cases hmade
            · rename_i hob
              split at hmade
              · split at hmade
                · simp at hmade
                · simp at hmade
              · cases hmade; exact absurd hnew (not_newlyObserved_self s b)
          · rename_i s1 ob hmade
            simp only [Bool.false_eq_true, if_false] at h
            cases h
            split at hmade
            · cases hmade; exact absurd hnew (not_newlyObserved_self s b)
            · rename_i hob
              split at hmade
              · split at hmade
                · rename_i s2 ob2 hnew2
                  cases hmade
                  exact newObserverWith_reach (fun s v s' r => observe_ext n s v s' r)
                    (fun s v s' r => ih s v s' r) hget hob hnew2 b hnew
                · simp at hmade
              · cases hmade
    | _ =>
      simp only [observe] at h
      cases h
      exact absurd hnew (not_newlyObserved_self s b)

/-! ## The wrappers observe what they insert -/

theorem observeArray_carries {fuel : Nat} : ∀ (items : List Val) (s s' : State),
    observeArray fuel s items = .ok s' →
    ∀ v ∈ items, canObserve s v = true → carriesObserver s' v = true := by
  intro items
  induction items with
  | nil => intro s s' _ v hv; simp at hv
  | cons x rest ih =>
    intro s s' h v hv hc
    simp only [observeArray, observeArrayWith] at h
    split at h
    · rename_i s1 r h1
      have e1 : Ext s s1 := observe_ext _ _ _ _ _ h1
      have hrest : observeArray fuel s1 rest = .ok s' := h
      have e2 : Ext s1 s' := observeArray_ext hrest
      rcases List.mem_cons.mp hv with rfl | hin
      · exact carriesObserver_of_extOn e2 ((observe_carries h1).1 hc).1
      · exact ih s1 s' hrest v hin (canObserve_of_extOn e1 hc)
    · simp at h

theorem observeArray_reach {fuel : Nat} {items : List Val} {s s' : State}
    (h : observeArray fuel s items = .ok s') :
    ∀ b, newlyObserved s s' b → ∃ v ∈ items, Reach s v b :=
  observeArrayWith_reach (fun s v s' r => observe_ext fuel s v s' r)
    (fun s v s' r => observe_reach fuel s v s' r) items s s' h

theorem canObserve_of_elemsOnly {s s1 : State} (h : ElemsOnly s s1) {v : Val}
    (hc : canObserve s v = true) : canObserve s1 v = true := by
  cases v with
  | ref a =>
    simp only [canObserve] at hc ⊢
    cases hget : s.heap[a]? with
    | none => simp [hget] at hc
    | some o =>
      obtain ⟨o1, ho1, he⟩ := h.obj a o hget
      have e1 : o1.kind = o.kind := by
        have : ({ o1 with elems := o.elems } : Obj).kind = o.kind := by rw [he]
        exact this
      have e2 : o1.ob = o.ob := by
        have : ({ o1 with elems := o.elems } : Obj).ob = o.ob := by rw [he]
        exact this
      have e3 : o1.extensible = o.extensible := by
        have : ({ o1 with elems := o.elems } : Obj).extensible = o.extensible := by rw [he]
        exact this
      have e4 : o1.isVue = o.isVue := by
        have : ({ o1 with elems := o.elems } : Obj).isVue = o.isVue := by rw [he]
        exact this
      simpa [hget, ho1, observable, e1, e2, e3, e4, h.shouldObserve, h.serverRendering] using hc
  | _ => simp [canObserve] at hc

theorem newlyObserved_of_elemsOnly {s s1 s' : State} (h : ElemsOnly s s1) {b : Nat}
    (hn : newlyObserved s s' b) : newlyObserved s1 s' b := by
  obtain ⟨⟨o, ho, hnone⟩, hlater⟩ := hn
  obtain ⟨o1, ho1, he⟩ := h.obj b o ho
  have e2 : o1.ob = o.ob := by
    have : ({ o1 with elems := o.elems } : Obj).ob = o.ob := by rw [he]
    exact this
  exact ⟨⟨o1, ho1, e2.trans hnone⟩, hlater⟩

/-- C6, as the code has it: the wrappers take as inserted elements all
arguments for `push` and `unshift`, the arguments from the third on for
`splice`, and none for `pop`, `shift`, `sort` and `reverse`. After a call on an
observed array every inserted element that `observe` accepts (it carries an
Observer already, or is an extensible array or plain object that is no
component instance, with observation on and outside server rendering) carries
an Observer, and a value is newly observed only if it is an inserted element
or is reached from one through elements and property values of values that
carried no Observer. -/
theorem wrapper_observes_inserted (fuel : Nat) (sortBy : List Val → List Val → List Val)
    (method : Method) (s : State) (this : Nat) (args : List Val) (o : Obj) (t : Tag)
    (hget : s.heap[this]? = some o) (hob : o.ob = some t) :
    (inserted .push args = some args ∧ inserted .unshift args = some args ∧
      inserted .splice args = some (args.drop 2) ∧ inserted .pop args = none ∧
      inserted .shift args = none ∧ inserted .sort args = none ∧
      inserted .reverse args = none) ∧
    ∀ s1 r s' r', arrayProto sortBy method s this args = .ok (s1, r) →
      arrayMethods fuel sortBy method s this args = .ok (s', r') →
      (∀ v ∈ (inserted method args).getD [], canObserve s v = true →
        carriesObserver s' v = true) ∧
      (∀ b, newlyObserved s s' b → ∃ v ∈ (inserted method args).getD [], Reach s1 v b) := by
  refine ⟨⟨rfl, rfl, rfl, rfl, rfl, rfl, rfl⟩, ?_⟩
  intro s1 r s' r' horig h
  have hE := native_elemsOnly horig
  obtain ⟨o1, ho1, hob1⟩ := native_keeps_tag hE hget hob
  obtain ⟨_, s2, e2, hs', hsome, hnone⟩ := (mutator_spec fuel method horig ho1 hob1).1 s' r' h
  have hcar : ∀ v, carriesObserver s2 v = true → carriesObserver s' v = true := by
    intro v hv; rw [hs']; exact hv
  have hnew : ∀ b, newlyObserved s s' b → newlyObserved s1 s2 b := by
    intro b hn
    have := newlyObserved_of_elemsOnly hE hn
    rw [hs'] at this
    exact this
  cases hins : inserted method args with
  | none =>
    have := hnone hins
    subst this
    refine ⟨fun v hv => by simp at hv, fun b hn => ?_⟩
    exact absurd (hnew b hn) (not_newlyObserved_self _ b)
  | some items =>
    have hobs := hsome items hins
    refine ⟨fun v hv hc => ?_, fun b hn => ?_⟩
    · exact hcar v (observeArray_carries items s1 s2 hobs v (by simpa using hv)
        (canObserve_of_elemsOnly hE hc))
    · obtain ⟨v, hv, hr⟩ := observeArray_reach hobs b (hnew b hn)
      exact ⟨v, by simpa using hv, hr⟩

theorem wrapper_observes_inserted_witness :
    samplePush.heap[0]? = some
      { Obj.arrayOf [.ref 1] with ob := some { dep := 0, vmCount := 0 }, augmented := true } ∧
    ∃ s', arrayMethods 5 (fun _ e => e) .push samplePush 0 [.ref 3] = .ok (s', .num 2) ∧
      carriesObserver s' (.ref 3) = true := by
  have h := (wrapper_observes_inserted 5 (fun _ e => e) .push samplePush 0 [.ref 3]
    { Obj.arrayOf [.ref 1] with ob := some { dep := 0, vmCount := 0 }, augmented := true }
    { dep := 0, vmCount := 0 } (by decide) rfl).2
  have hn : arrayProto (fun _ e => e) .push samplePush 0 [.ref 3] =
      .ok (setElems samplePush 0 [.ref 1, .ref 3], .num 2) := by decide
  obtain ⟨s', hs'⟩ : ∃ s', arrayMethods 5 (fun _ e => e) .push samplePush 0 [.ref 3] =
      .ok (s', .num 2) := ⟨_, rfl⟩
  exact ⟨by decide, s', hs', (h _ _ s' _ hn hs').1 (.ref 3) (by decide) (by decide)⟩

/-- C6 fails twice on `push(f, x)` where `f` is a non-extensible object and
`x = { c: y }` refers to an unobserved element `y` of the array: the inserted
`f` carries no Observer afterwards, and `y`, which was not inserted, is newly
observed. -/
theorem push_skips_sealed_and_observes_reachable :
    ∃ s', arrayMethods 5 (fun _ e => e) .push samplePush 0 [.ref 2, .ref 3] = .ok (s', .num 3) ∧
      carriesObserver s' (.ref 2) = false ∧
      carriesObserver samplePush (.ref 1) = false ∧ carriesObserver s' (.ref 1) = true :=
  ⟨_, rfl, by decide, by decide, by decide⟩

/-! ## What `observe` and `defineReactive` refuse -/

/-- C12: for a primitive, a virtual node, and a value without Observer while
observation is toggled off, in server rendering, when the value is not
extensible or is flagged as a component instance, `observe` returns no Observer
and leaves the whole state as it is: no tag, no accessor, no interception. -/
theorem observe_refuses (fuel : Nat) (s : State) (v : Val) (asRootData : Bool)
    (h : refused s v = true) : observe (fuel + 1) s v asRootData = .ok (s, none) := by
  cases v with
  | ref a =>
    simp only [refused] at h
    simp only [observe]
    cases hget : s.heap[a]? with
    | none => rfl
    | some o =>
      simp only [hget, Bool.or_eq_true, decide_eq_true_eq, Bool.and_eq_true,
        Option.isNone_iff_eq_none, Bool.not_eq_true'] at h
      simp only
      rcases h with hk | ⟨hob, hg⟩
      · rw [if_pos hk]
      · by_cases hk : o.kind = .vnode
        · rw [if_pos hk]
        · rw [if_neg hk]
          have hobs : observable s o = false := by
            unfold observable
            rcases hg with ((h1 | h2) | h3) | h4
            · simp [h1]
            · simp [h2]
            · simp [h3]
            · simp [h4]
          simp only [hob, hobs, Bool.false_eq_true, if_false]
  | _ => rfl

theorem observe_refuses_witness :
    refused samplePush (.ref 2) = true ∧
    observe 1 samplePush (.ref 2) false = .ok (samplePush, none) :=
  ⟨by decide, observe_refuses 0 samplePush (.ref 2) false (by decide)⟩

/-- C17: on a key whose own property is not configurable, `defineReactive`
returns without error and leaves the heap, the storage behind accessors and
the trace as they are, whatever its arguments: the descriptor and its value
stay, no accessor is installed and nothing is observed. Only the counter of
registry uids has advanced (`new Dep()` precedes the test). -/
theorem defineReactive_leaves_fixed_property (fuel : Nat) (s : State) (obj : Nat) (key : Key)
    (o : Obj) (d : Desc) (val : Option Val) (customSetter shallow : Bool)
    (hget : s.heap[obj]? = some o) (hd : findProp o.props key = some d)
    (hc : d.configurable = false) :
    defineReactive fuel s obj key val customSetter shallow =
      .ok { s with nextDep := s.nextDep + 1 } := by
  unfold defineReactive defineReactiveWith
  simp only [newDep]
  have hget1 : ({ s with nextDep := s.nextDep + 1 } : State).heap[obj]? = some o := hget
  rw [hget1]
  simp only [hd, hc, Bool.not_false, if_true]

theorem defineReactive_leaves_fixed_property_witness :
    sampleFixed.heap[0]? = some
      { Obj.plainOf [(.name "a",
          { body := .data (.num 1) false, enumerable := true, configurable := false })] with
        ob := some { dep := 0, vmCount := 0 } } ∧
    defineReactive 0 sampleFixed 0 (.name "a") none false false =
      .ok { sampleFixed with nextDep := sampleFixed.nextDep + 1 } :=
  ⟨by decide,
    defineReactive_leaves_fixed_property 0 sampleFixed 0 (.name "a")
      { Obj.plainOf [(.name "a",
          { body := .data (.num 1) false, enumerable := true, configurable := false })] with
        ob := some { dep := 0, vmCount := 0 } }
      { body := .data (.num 1) false, enumerable := true, configurable := false }
      none false false (by decide) (by decide) rfl⟩

/-- C15: on a non-array target that is a component instance or whose Observer
counts a root owner, `set` with a key that is not on the target (neither own
nor inherited) and `del` with any key return at once (`set` returns the
value): the heap and the storage behind accessors are unchanged, no registry is
notified, no wrapped setter is called; the only effect is the development
warning. -/
theorem set_and_del_refuse_root (fuel : Nat) (s : State) (target : Nat) (o : Obj) (key : Key)
    (val : Val)
    (hget : s.heap[target]? = some o) (hk : o.kind ≠ .array) (hres : key.reserved = false)
    (hroot : isRoot o = true) :
    (hasOwn o key = false → inherits o key = false →
      set fuel s target key val = .ok (warn s, val)) ∧
    del fuel s target key = .ok (warn s) ∧
    (warn s).heap = s.heap ∧ (warn s).cells = s.cells ∧
    notifications (warn s).trace = notifications s.trace ∧
    setterCalls (warn s).trace = setterCalls s.trace := by
  have hi : (if o.kind = .array then isValidArrayIndex key else none) = none := if_neg hk
  refine ⟨fun hown hinh => ?_, ?_, ?_, ?_, ?_, ?_⟩
  · have hex : keyExists o key = false := keyExists_of_absent hk hown hinh
    rw [set_object_eq val hget hres (fun h => absurd h hk)]
    simp only [hex, hroot, Bool.false_eq_true, if_false, if_true]
  · simp only [del, hget, hres, hi, hroot, Bool.false_eq_true, if_false, if_true]
  · unfold warn; split <;> rfl
  · unfold warn; split <;> rfl
  · unfold warn; split
    · rfl
    · simp [State.log, notifications_append, notifications]
  · unfold warn; split
    · rfl
    · simp [State.log, setterCalls_append, setterCalls]

theorem set_and_del_refuse_root_witness :
    sampleRoot.heap[1]? = some
      { Obj.plainOf [(.name "a", Desc.reactiveOf (Slot.plainOf 1 (.num 1)))] with
        ob := some { dep := 0, vmCount := 1 } } ∧
    set 0 sampleRoot 1 (.name "b") (.num 2) = .ok (warn sampleRoot, .num 2) ∧
    del 0 sampleRoot 1 (.name "b") = .ok (warn sampleRoot) := by
  have h := set_and_del_refuse_root 0 sampleRoot 1
    { Obj.plainOf [(.name "a", Desc.reactiveOf (Slot.plainOf 1 (.num 1)))] with
      ob := some { dep := 0, vmCount := 1 } }
    (.name "b") (.num 2) (by decide) (by decide) (by decide) (by decide)
  exact ⟨by decide, h.1 (by decide) (by decide), h.2.1⟩

/-- On a component instance a method of `Vue.prototype` is `in` the target:
`set(vm, "$watch", 2)` does not warn, it assigns, and the instance gains the
own property. What an assignment to the inherited accessor `$data` does is
outside the model. -/
theorem set_on_instance_method_assigns :
    sampleRoot.heap[0]? = some (Obj.vmOf [(.name "a", Desc.dataOf (.num 1))]) ∧
    isRoot (Obj.vmOf [(.name "a", Desc.dataOf (.num 1))]) = true ∧
    hasOwn (Obj.vmOf [(.name "a", Desc.dataOf (.num 1))]) (.name "$watch") = false ∧
    keyIn (Obj.vmOf [(.name "a", Desc.dataOf (.num 1))]) (.name "$watch") = true ∧
    (∃ s', set 0 sampleRoot 0 (.name "$watch") (.num 2) = .ok (s', .num 2) ∧
      peek s' 0 (.name "$watch") = .num 2 ∧ s'.trace = []) ∧
    set 0 sampleRoot 0 (.name "$data") (.num 2) = .error .unsupported :=
  ⟨by decide, by decide, by decide, by decide, ⟨_, rfl, by decide, by decide⟩, by decide⟩

/-! ## `observe` intercepts the arrays it tags -/

theorem intercepted_of_heap {s s' : State} (h : s'.heap = s.heap) (hi : Intercepted s) :
    Intercepted s' := by
  intro a o ho
  rw [h] at ho
  exact hi a o ho

theorem intercepted_of_untagged {s : State}
    (h : ∀ (a : Nat) (o : Obj), s.heap[a]? = some o → o.ob = none) : Intercepted s := by
  intro a o ho _ hob
  rw [h a o ho] at hob
  cases hob

theorem intercepted_setObj {s : State} {a : Nat} {o' : Obj} (hi : Intercepted s)
    (h : o'.kind = .array → o'.ob.isSome = true → o'.augmented = true) :
    Intercepted (s.setObj a o') := by
  intro b ob hb
  by_cases hba : b = a
  · subst hba
    by_cases hlt : b < s.heap.length
    · have : (s.setObj b o').heap[b]? = some o' := by
        simp [State.setObj, List.getElem?_set, hlt]
      rw [this] at hb
      cases hb
      exact h
    · have : (s.setObj b o').heap[b]? = none := by
        simp [State.setObj, List.getElem?_set, hlt]
      rw [this] at hb
      cases hb
  · rw [getElem?_setObj_ne hba] at hb
    exact hi b ob hb

theorem defineProperty_intercepts {s s' : State} {obj : Nat} {key : Key} {d : Desc}
    (h : defineProperty s obj key d = .ok s') (hi : Intercepted s) : Intercepted s' := by
  unfold defineProperty at h
  split at h
  · cases h
  · rename_i o ho
    split at h
    · split at h
      · cases h
        exact intercepted_setObj hi (fun hk hob => hi obj o ho hk hob)
      · cases h
    · split at h
      · cases h
        exact intercepted_setObj hi (fun hk hob => hi obj o ho hk hob)
      · cases h

theorem defineReactiveWith_intercepts
    {obs : State → Val → Except Err (State × Option Observer)} {fuel : Nat}
    (hobs : ∀ s v s' r, obs s v = .ok (s', r) → Intercepted s → Intercepted s')
    {s s' : State} {obj : Nat} {key : Key} {val : Option Val} {customSetter shallow : Bool}
    (h : defineReactiveWith obs fuel s obj key val customSetter shallow = .ok s')
    (hi : Intercepted s) : Intercepted s' := by
  unfold defineReactiveWith at h
  simp only [newDep] at h
  have hi0 : Intercepted { s with nextDep := s.nextDep + 1 } := intercepted_of_heap rfl hi
  split at h
  · cases h
  · rename_i o ho
    split at h
    · cases h; exact hi0
    · split at h
      · cases h
      · rename_i s1 v hread
        have hi1 : Intercepted s1 := by
          cases val with
          | some v0 =>
            simp only at hread
            cases hread
            exact hi0
          | none =>
            simp only at hread
            split at hread
            · cases hread; exact hi0
            · obtain ⟨ds, _, hs1⟩ := (getProp_spec hread).1
              exact intercepted_of_heap (by rw [hs1]) hi0
        split at h
        · cases h
        · rename_i s2 childOb hchild
          have hi2 : Intercepted s2 := by
            split at hchild
            · cases hchild; exact hi1
            · exact hobs _ _ _ _ hchild hi1
          exact defineProperty_intercepts h hi2

theorem walkWith_intercepts
    {obs : State → Val → Except Err (State × Option Observer)} {fuel : Nat} {obj : Nat}
    (hobs : ∀ s v s' r, obs s v = .ok (s', r) → Intercepted s → Intercepted s') :
    ∀ (keys : List Key) (s s' : State), walkWith obs fuel obj s keys = .ok s' →
      Intercepted s → Intercepted s' := by
  intro keys
  induction keys with
  | nil =>
    intro s s' h hi
    simp only [walkWith] at h
    cases h
    exact hi
  | cons k rest ih =>
    intro s s' h hi
    simp only [walkWith] at h
    split at h
    · rename_i s1 h1
      exact ih _ _ h (defineReactiveWith_intercepts hobs h1 hi)
    · cases h

theorem observeArrayWith_intercepts
    {obs : State → Val → Except Err (State × Option Observer)}
    (hobs : ∀ s v s' r, obs s v = .ok (s', r) → Intercepted s → Intercepted s') :
    ∀ (items : List Val) (s s' : State), observeArrayWith obs s items = .ok s' →
      Intercepted s → Intercepted s' := by
  intro items
  induction items with
  | nil =>
    intro s s' h hi
    simp only [observeArrayWith] at h
    cases h
    exact hi
  | cons v rest ih =>
    intro s s' h hi
    simp only [observeArrayWith] at h
    split at h
    · rename_i s1 r h1
      exact ih _ _ h (hobs _ _ _ _ h1 hi)
    · cases h

theorem newObserverWith_intercepts
    {obs : State → Val → Except Err (State × Option Observer)} {fuel : Nat}
    (hobs : ∀ s v s' r, obs s v = .ok (s', r) → Intercepted s → Intercepted s')
    {s s' : State} {a : Nat} {o : Obj} {ob : Observer}
    (h : newObserverWith obs fuel s a o = .ok (s', ob)) (hi : Intercepted s) :
    Intercepted s' := by
  unfold newObserverWith at h
  simp only [newDep] at h
  have hi0 : Intercepted { s with nextDep := s.nextDep + 1 } := intercepted_of_heap rfl hi
  split at h
  · rename_i s2 hw
    cases h
    split at hw
    · rename_i hk
      refine observeArrayWith_intercepts hobs _ _ _ hw (intercepted_setObj hi0 ?_)
      intro _ _
      split <;> rfl
    · rename_i hk
      exact walkWith_intercepts hobs _ _ _ hw (intercepted_setObj hi0 (fun hk' => absurd hk' hk))
  · cases h

theorem bumpVmCount_intercepts {s : State} (a : Nat) (hi : Intercepted s) :
    Intercepted (bumpVmCount s a) := by
  unfold bumpVmCount
  split
  · exact hi
  · rename_i o ho
    split
    · exact hi
    · rename_i t ht
      exact intercepted_setObj hi (fun hk _ => hi a o ho hk (by simp [ht]))

/-- What `observe` tags it intercepts: in a state where every array that
carries an Observer has the wrappers of `array.js` for methods, `observe`
leaves such a state. -/
theorem observe_intercepts : ∀ (fuel : Nat) (s : State) (v : Val) (asRootData : Bool)
    (s' : State) (r : Option Observer),
    observe fuel s v asRootData = .ok (s', r) → Intercepted s → Intercepted s' := by
  intro fuel
  induction fuel with
  | zero => intro s v b s' r h; simp [observe] at h
  | succ n ih =>
    intro s v b s' r h hi
    cases v with
    | ref a =>
      simp only [observe] at h
      split at h
      · cases h; exact hi
      · rename_i o hget
        split at h
        · cases h; exact hi
        · have hm : ∀ (s1 : State) (r1 : Option Observer),
              (match o.ob with
                | some t => (Except.ok (s, some { value := a, dep := t.dep }) :
                    Except Err (State × Option Observer))
                | none =>
                  if observable s o = true then
                    match newObserverWith (fun s1 v => observe n s1 v false) n s a o with
                    | .ok (s1, ob) => .ok (s1, some ob)
                    | .error e => .error e
                  else .ok (s, none)) = .ok (s1, r1) → Intercepted s1 := by
            intro s1 r1 hmade
            split at hmade
            · cases hmade; exact hi
            · split at hmade
              · split at hmade
                · rename_i s2 ob2 hnew
                  cases hmade
                  exact newObserverWith_intercepts (fun s v s' r h => ih s v false s' r h)
                    hnew hi
                · cases hmade
              · cases hmade; exact hi
          split at h
          · cases h
          · rename_i s1 hmade
            cases h
            exact hm _ _ hmade
          · rename_i s1 ob hmade
            split at h
            · cases h
              exact bumpVmCount_intercepts a (hm _ _ hmade)
            · cases h
              exact hm _ _ hmade
    | _ => simp only [observe] at h; cases h; exact hi

/-- An array that `observe` accepts is observed afterwards in the sense of the
statements about arrays: it carries the tag of the Observer that `observe`
returns and its mutating methods are the wrappers. -/
theorem observe_tags_and_intercepts {fuel : Nat} {s s' : State} {a : Nat} {o : Obj}
    {ob : Observer} (hi : Intercepted s) (hget : s.heap[a]? = some o) (hk : o.kind = .array)
    (h : observe fuel s (.ref a) false = .ok (s', some ob)) :
    ∃ o' t, s'.heap[a]? = some o' ∧ o'.kind = .array ∧ o'.ob = some t ∧ t.dep = ob.dep ∧
      o'.augmented = true := by
  have hi' := observe_intercepts fuel s (.ref a) false s' (some ob) h hi
  have hext : Ext s s' := observe_ext _ _ _ _ _ h
  rcases observe_cases h with ⟨hr, _, _⟩ | ⟨a', o0, o', t, hv, _, _, _, ho', ht', hr⟩
  · cases hr
  · cases hv
    obtain ⟨o2, ho2, hoe⟩ := hext.obj a o hget
    rw [ho'] at ho2
    cases ho2
    have hk' : o'.kind = .array := by rw [hoe.kind]; exact hk
    cases hr
    exact ⟨o', t, ho', hk', ht', rfl, hi' a o' ho' hk' (by simp [ht'])⟩

/-! ## `set` on an observed array -/

theorem elemsOnly_pad {s : State} {target : Nat} {o : Obj} (hget : s.heap[target]? = some o)
    (e : List Val) : ElemsOnly s (s.setObj target { o with elems := e }) := by
  have h := elemsOnly_setElems (elemsOnly_same s) target e
  unfold setElems at h
  simp only [hget] at h
  exact h

theorem elemsOnly_comp {s s1 s2 : State} (h1 : ElemsOnly s s1) (h2 : ElemsOnly s1 s2) :
    (∀ v, canObserve s v = true → canObserve s2 v = true) ∧
    s2.trace = s.trace ∧ s2.target = s.target ∧
    untagged s2 ≤ untagged s + 2 :=
  ⟨fun _ hc => canObserve_of_elemsOnly h2 (canObserve_of_elemsOnly h1 hc),
    h2.trace.trans h1.trace, h2.target.trans h1.target,
    Nat.le_trans h2.untagged (Nat.add_le_add_right h1.untagged 1)⟩

/-- C20 as stated fails where the array cannot take the index: on the observed
array `[1, 2]` made non-extensible afterwards, `set(arr, 2, "v")` throws a
`TypeError` inside the wrapper of `splice`, before `notify`; on an observed
extensible array, `set(arr, 4294967296, "v")` throws a `RangeError` at the
assignment of the length. Nothing is notified. -/
theorem set_on_observed_array_throws :
    (sampleFixedArray.heap[0]? = some
        { Obj.arrayOf [.num 1, .num 2] with
          ob := some { dep := 0, vmCount := 0 }, augmented := true, extensible := false } ∧
      ∀ fuel, set fuel sampleFixedArray 0 (.index 2) (.str "v") = .error .typeError) ∧
    (samplePush.heap[0]? = some
        { Obj.arrayOf [.ref 1] with ob := some { dep := 0, vmCount := 0 }, augmented := true } ∧
      ∀ fuel, set fuel samplePush 0 (.index 4294967296) (.str "v") = .error .rangeError) :=
  ⟨⟨by decide, fun fuel =>
      (set_array_grow_fails fuel 2 (.str "v")
        (show sampleFixedArray.heap[0]? = some
          { Obj.arrayOf [.num 1, .num 2] with
            ob := some { dep := 0, vmCount := 0 }, augmented := true, extensible := false }
          from by decide)
        rfl (by decide) (Or.inl rfl)).trans (by decide)⟩,
    by decide, fun fuel =>
      (set_array_grow_fails fuel 4294967296 (.str "v")
        (show samplePush.heap[0]? = some
          { Obj.arrayOf [.ref 1] with ob := some { dep := 0, vmCount := 0 }, augmented := true }
          from by decide)
        rfl (by decide) (Or.inr (by decide))).trans (by decide)⟩

/-- C20 (amended): on an observed (tagged and intercepted, see
`observe_intercepts`) array that can take the index `k` (`k` is below the
length, or the array is extensible and `k` is below `2^32 - 1`),
`set(target, k, v)` notifies the registry of the Observer of the array exactly
once and no other registry, and a `v` that `observe` accepts carries an
Observer afterwards. With no evaluation unit active the call returns. -/
theorem set_on_observed_array (fuel : Nat) (s : State) (target : Nat) (o : Obj) (t : Tag)
    (k : Nat) (v : Val)
    (hget : s.heap[target]? = some o) (hk : o.kind = .array) (hob : o.ob = some t)
    (haug : o.augmented = true)
    (hgrow : k < o.elems.length ∨ (o.extensible = true ∧ k < maxArrayLength)) :
    (∀ s' r, set fuel s target (.index k) v = .ok (s', r) →
      notifications s'.trace = notifications s.trace ++ [t.dep] ∧
      (canObserve s v = true → carriesObserver s' v = true)) ∧
    (s.target = none → untagged s + 1 < fuel →
      ∃ s', set fuel s target (.index k) v = .ok (s', v)) := by
  have hget1 : (s.setObj target
      { o with elems := o.elems ++ List.replicate (k - o.elems.length) .undefined }).heap[target]?
      = some { o with elems := o.elems ++ List.replicate (k - o.elems.length) .undefined } :=
    getElem?_setObj_self hget
  have hpad := elemsOnly_pad hget (o.elems ++ List.replicate (k - o.elems.length) .undefined)
  have hcs : callSplice fuel (s.setObj target
      { o with elems := o.elems ++ List.replicate (k - o.elems.length) .undefined })
      target [.num k, .num 1, v] =
      mutator fuel .splice nativeSplice (s.setObj target
        { o with elems := o.elems ++ List.replicate (k - o.elems.length) .undefined })
        target [.num k, .num 1, v] := by
    unfold callSplice
    rw [hget1]
    dsimp only
    rw [if_pos haug]
  rw [set_array_eq k v hget hk (by omega), hcs]
  constructor
  · intro s' r h
    split at h
    · rename_i s2 r2 h2
      cases h
      obtain ⟨s1, o1', t', horig, _, _⟩ := mutator_ok_inv h2
      have hnp : arrayProto (fun _ e => e) .splice (s.setObj target
          { o with elems := o.elems ++ List.replicate (k - o.elems.length) .undefined })
          target [.num k, .num 1, v] = .ok (s1, r2) := horig
      have hE := native_elemsOnly hnp
      obtain ⟨o1, ho1, hob1⟩ := native_keeps_tag hE hget1 (show _ = some t from hob)
      obtain ⟨_, s3, e3, hs', hsome, _⟩ := (mutator_spec fuel .splice horig ho1 hob1).1 _ _ h2
      obtain ⟨hcan, htr, _, _⟩ := elemsOnly_comp hpad hE
      obtain ⟨ds, hds, htr3⟩ := e3.trace
      constructor
      · rw [hs']
        simp [depNotify, State.log, notifications_append, notifications, htr3,
          notifications_depends ds hds, htr]
      · intro hc
        rw [hs']
        exact observeArray_carries [v] s1 s3 (hsome [v] rfl) v (List.mem_singleton.mpr rfl)
          (hcan v hc)
    · cases h
  · intro ht hu
    obtain ⟨s1, r1, hn, _⟩ := nativeSplice_replace k v hget hk hgrow
    have hnp : arrayProto (fun _ e => e) .splice (s.setObj target
        { o with elems := o.elems ++ List.replicate (k - o.elems.length) .undefined })
        target [.num k, .num 1, v] = .ok (s1, r1) := hn
    have hE := native_elemsOnly hnp
    obtain ⟨o1, ho1, hob1⟩ := native_keeps_tag hE hget1 (show _ = some t from hob)
    obtain ⟨_, _, htg, _⟩ := elemsOnly_comp hpad hE
    have hu1 : untagged s1 < fuel := by
      have h1 := hE.untagged
      have h2 : untagged (s.setObj target
          { o with elems := o.elems ++ List.replicate (k - o.elems.length) .undefined })
          ≤ untagged s := by
        unfold untagged
        apply countP_le_of_pointwise
        · simp [State.setObj]
        · intro a oa hoa
          by_cases hat : a = target
          · subst hat
            rw [hget] at hoa
            cases hoa
            exact ⟨_, hget1, fun hn => hn⟩
          · exact ⟨oa, by rw [getElem?_setObj_ne hat]; exact hoa, fun hn => hn⟩
      omega
    obtain ⟨s', hs'⟩ := (mutator_spec fuel .splice hn ho1 hob1).2 (htg.trans ht) hu1
    rw [hs']
    exact ⟨s', rfl⟩

theorem set_on_observed_array_witness :
    samplePush.heap[0]? = some
      { Obj.arrayOf [.ref 1] with ob := some { dep := 0, vmCount := 0 }, augmented := true } ∧
    ∃ s', set 5 samplePush 0 (.index 3) (.ref 3) = .ok (s', .ref 3) ∧
      notifications s'.trace = [0] ∧ carriesObserver s' (.ref 3) = true := by
  have h := set_on_observed_array 5 samplePush 0
    { Obj.arrayOf [.ref 1] with ob := some { dep := 0, vmCount := 0 }, augmented := true }
    { dep := 0, vmCount := 0 } 3 (.ref 3) (by decide) rfl rfl rfl (Or.inr ⟨rfl, by decide⟩)
  obtain ⟨s', hs'⟩ := h.2 (by decide) (by decide)
  obtain ⟨hn, hc⟩ := h.1 s' _ hs'
  exact ⟨by decide, s', hs', hn, hc (by decide)⟩

/-! ## `defineReactive` on an existing property -/

theorem defineReactive_getterOnly (n : Nat) {s : State} {obj : Nat} {key : Key} {o : Obj}
    {d : Desc} {g : Nat}
    (hget : s.heap[obj]? = some o) (hd : findProp o.props key = some d)
    (hb : d.body = .accessor (some g) none) (hconf : d.configurable = true) :
    defineReactive (n + 1) s obj key none false false =
      .ok (({ s with nextDep := s.nextDep + 1 } : State).setObj obj
        { o with props := putProp o.props key (Desc.reactiveOf (getterSlot s.nextDep g)) }) := by
  have hget1 : ({ s with nextDep := s.nextDep + 1 } : State).heap[obj]? = some o := hget
  have hg : getterOnly (some d) = true := by simp [getterOnly, hb]
  unfold defineReactive defineReactiveWith
  simp only [newDep, hget1, hd, hconf, hg, Bool.not_true, Bool.false_eq_true, if_false, if_true,
    observe, defineProperty, makeSlot, hb, getterSlot]
  rfl

theorem defineReactive_existing {fuel : Nat} {s : State} {obj : Nat} {key : Key} {o : Obj}
    {d : Desc}
    (hget : s.heap[obj]? = some o) (hd : findProp o.props key = some d)
    (hconf : d.configurable = true) (hng : getterOnly (some d) = false) :
    (∀ s', defineReactive fuel s obj key none false false = .ok s' →
      ∃ r, slotAt s' obj key = some (makeSlot
          { dep := s.nextDep, val := peek s obj key, childOb := r, shallow := false,
            customSetter := false } (some d)) ∧
        (canObserve s (peek s obj key) = true →
          carriesObserver s' (peek s obj key) = true)) ∧
    (s.target = none → untagged s < fuel →
      ∃ s', defineReactive fuel s obj key none false false = .ok s') := by
  have hget1 : ({ s with nextDep := s.nextDep + 1 } : State).heap[obj]? = some o := hget
  have e0 : Ext s { s with nextDep := s.nextDep + 1 } := extOn_newDep _ s
  unfold defineReactive defineReactiveWith
  simp only [newDep, hget1, hd, hconf, hng, Bool.not_true, Bool.false_eq_true, if_false]
  have hdef : ∀ (s2 : State), Ext s s2 →
      ∃ o2, s2.heap[obj]? = some o2 ∧ ∀ nd : Desc,
        defineProperty s2 obj key nd =
          .ok (s2.setObj obj { o2 with props := putProp o2.props key nd }) := by
    intro s2 e2
    obtain ⟨o2, ho2, hoe⟩ := e2.obj obj o hget
    obtain ⟨d2, hd2, _, hc2⟩ := hoe.present key d hd
    refine ⟨o2, ho2, fun nd => ?_⟩
    unfold defineProperty
    simp only [ho2, hd2, hc2 hconf, if_true]
  constructor
  · intro s' h
    split at h
    · simp at h
    · rename_i s1 v hread
      obtain ⟨hr1, hr2, hr3⟩ := getProp_spec hread
      have hv : v = peek s obj key := hr2
      have e1 : Ext s s1 := e0.chain (ExtOn.of_reads hr1 hr3)
      split at h
      · simp at h
      · rename_i s2 childOb hchild
        have e12 : Ext s1 s2 := observe_ext _ _ _ _ _ hchild
        obtain ⟨o2, ho2, hdp⟩ := hdef s2 (e1.chain e12)
        rw [hdp] at h
        cases h
        subst hv
        refine ⟨childOb, ?_, fun hc => ?_⟩
        · simp only [slotAt, getElem?_setObj_self ho2, findProp_putProp, if_true]
        · have hc1 : carriesObserver s2 (peek s obj key) = true :=
            ((observe_carries hchild).1 (canObserve_of_extOn e1 hc)).1
          generalize peek s obj key = w at hc1 ⊢
          cases w with
          | ref a =>
            simp only [carriesObserver] at hc1 ⊢
            by_cases hat : a = obj
            · subst hat
              rw [ho2] at hc1
              rw [getElem?_setObj_self ho2]
              exact hc1
            · rw [getElem?_setObj_ne hat]; exact hc1
          | _ => simp [carriesObserver] at hc1
  · intro ht hn
    have ht1 : ({ s with nextDep := s.nextDep + 1 } : State).target = none := ht
    rw [getProp_quiet fuel _ obj key ht1]
    dsimp only
    obtain ⟨⟨s2, childOb⟩, hchild⟩ :=
      observe_total fuel { s with nextDep := s.nextDep + 1 }
        (peek { s with nextDep := s.nextDep + 1 } obj key) false ht1 hn
    rw [hchild]
    have e12 : Ext { s with nextDep := s.nextDep + 1 } s2 := observe_ext _ _ _ _ _ hchild
    obtain ⟨o2, ho2, hdp⟩ := hdef s2 (e0.chain e12)
    simp only [hdp]
    exact ⟨_, rfl⟩


/-- C16, as the code has it: `defineReactive(obj, key)` on a configurable
property that has a getter and no setter does not call the getter. The slot it
installs captures `undefined` and retains no Observer, no value gains an
Observer, and the property still reads what the getter returns. On a
configurable property of any other shape the captured value is the value the
property read, and that value is observed when `observe` accepts it. -/
theorem defineReactive_without_value (n : Nat) (s : State) (obj : Nat) (key : Key) (o : Obj)
    (d : Desc) (hget : s.heap[obj]? = some o) (hd : findProp o.props key = some d)
    (hconf : d.configurable = true) :
    (∀ g, d.body = .accessor (some g) none →
      ∃ s', defineReactive (n + 1) s obj key none false false = .ok s' ∧
        slotAt s' obj key = some (getterSlot s.nextDep g) ∧
        (∀ v, carriesObserver s' v = carriesObserver s v) ∧
        peek s' obj key = peek s obj key ∧ s'.cells = s.cells ∧ s'.trace = s.trace) ∧
    (getterOnly (some d) = false →
      (∀ s', defineReactive (n + 1) s obj key none false false = .ok s' →
        ∃ r, slotAt s' obj key = some (makeSlot
            { dep := s.nextDep, val := peek s obj key, childOb := r, shallow := false,
              customSetter := false } (some d)) ∧
          (canObserve s (peek s obj key) = true →
            carriesObserver s' (peek s obj key) = true)) ∧
      (s.target = none → untagged s < n + 1 →
        ∃ s', defineReactive (n + 1) s obj key none false false = .ok s')) := by
  refine ⟨fun g hb => ⟨_, defineReactive_getterOnly n hget hd hb hconf, ?_, ?_, ?_, rfl, rfl⟩,
    fun hng => defineReactive_existing hget hd hconf hng⟩
  · have hget1 : ({ s with nextDep := s.nextDep + 1 } : State).heap[obj]? = some o := hget
    simp only [slotAt, getElem?_setObj_self hget1, findProp_putProp, if_true, Desc.reactiveOf]
  · intro v
    have hget1 : ({ s with nextDep := s.nextDep + 1 } : State).heap[obj]? = some o := hget
    cases v with
    | ref a =>
      simp only [carriesObserver]
      by_cases hat : a = obj
      · subst hat
        rw [getElem?_setObj_self hget1, hget]
      · rw [getElem?_setObj_ne hat]
    | _ => rfl
  · have hget1 : ({ s with nextDep := s.nextDep + 1 } : State).heap[obj]? = some o := hget
    simp only [peek, getElem?_setObj_self hget1, findProp_putProp, if_true, hget, hd, peekDesc,
      Desc.reactiveOf, getterSlot, peekSlot, hb]
    rfl

theorem defineReactive_without_value_witness :
    ∃ s', defineReactive 2 sampleGetterObj 0 (.name "a") none false false = .ok s' ∧
      slotAt s' 0 (.name "a") = some (getterSlot 0 0) ∧
      (∀ v, carriesObserver s' v = carriesObserver sampleGetterObj v) ∧
      peek s' 0 (.name "a") = peek sampleGetterObj 0 (.name "a") ∧
      s'.cells = sampleGetterObj.cells ∧ s'.trace = sampleGetterObj.trace :=
  (defineReactive_without_value 1 sampleGetterObj 0 (.name "a") _ _ rfl rfl rfl).1 0 rfl

/-- C16 fails as stated: the property `a` has a getter and no setter, and the
getter returns an object that `observe` accepts. After `defineReactive(obj,
"a")` the slot has captured `undefined`, not that object, and the object carries
no Observer. -/
theorem defineReactive_skips_getter_only :
    peek sampleGetterObj 0 (.name "a") = .ref 1 ∧
    canObserve sampleGetterObj (.ref 1) = true ∧
    ∃ s', defineReactive 2 sampleGetterObj 0 (.name "a") none false false = .ok s' ∧
      slotAt s' 0 (.name "a") = some (getterSlot 0 0) ∧
      carriesObserver s' (.ref 1) = false :=
  ⟨rfl, rfl, _, rfl, rfl, rfl⟩

/-! ## What a read collects -/

theorem elemDep_nil (heap : List Obj) (d : Nat) : ¬ ElemDep heap [] d := by
  intro h
  cases h with
  | own hm _ _ => simp at hm
  | nested hm _ _ _ => simp at hm

theorem elemDep_cons_other {heap : List Obj} {e : Val} {rest : List Val} {d : Nat}
    (he : ∀ a o, e = .ref a → heap[a]? = some o → False) :
    ElemDep heap (e :: rest) d ↔ ElemDep heap rest d := by
  constructor
  · intro h
    cases h with
    | own hm ho ht =>
      rcases List.mem_cons.1 hm with h1 | h1
      · exact (he _ _ h1.symm ho).elim
      · exact .own h1 ho ht
    | nested hm ho hk hd =>
      rcases List.mem_cons.1 hm with h1 | h1
      · exact (he _ _ h1.symm ho).elim
      · exact .nested h1 ho hk hd
  · intro h
    cases h with
    | own hm ho ht => exact .own (List.mem_cons_of_mem _ hm) ho ht
    | nested hm ho hk hd => exact .nested (List.mem_cons_of_mem _ hm) ho hk hd

theorem elemDep_cons_ref {heap : List Obj} {a : Nat} {o : Obj} {rest : List Val} {d : Nat}
    (ho : heap[a]? = some o) :
    ElemDep heap (.ref a :: rest) d ↔
      ((∃ t, o.ob = some t ∧ d = t.dep) ∨ (o.kind = .array ∧ ElemDep heap o.elems d)) ∨
        ElemDep heap rest d := by
  constructor
  · intro h
    cases h with
    | own hm ho' ht =>
      rcases List.mem_cons.1 hm with h1 | h1
      · cases h1
        rw [ho] at ho'
        cases ho'
        exact .inl (.inl ⟨_, ht, rfl⟩)
      · exact .inr (.own h1 ho' ht)
    | nested hm ho' hk hd =>
      rcases List.mem_cons.1 hm with h1 | h1
      · cases h1
        rw [ho] at ho'
        cases ho'
        exact .inl (.inr ⟨hk, hd⟩)
      · exact .inr (.nested h1 ho' hk hd)
  · rintro ((⟨t, ht, rfl⟩ | ⟨hk, hd⟩) | h)
    · exact .own (List.mem_cons_self _ _) ho ht
    · exact .nested (List.mem_cons_self _ _) ho hk hd
    · cases h with
      | own hm ho ht => exact .own (List.mem_cons_of_mem _ hm) ho ht
      | nested hm ho hk hd => exact .nested (List.mem_cons_of_mem _ hm) ho hk hd

theorem logged_append (s : State) (l1 l2 : List Event) :
    ({ ({ s with trace := s.trace ++ l1 } : State) with
        trace := ({ s with trace := s.trace ++ l1 } : State).trace ++ l2 } : State) =
      { s with trace := s.trace ++ (l1 ++ l2) } := by
  simp [List.append_assoc]

theorem dependArray_deps (fuel : Nat) : ∀ (l : List Val) (s s' : State),
    dependArray fuel s l = .ok s' →
      ∃ ds : List Nat, s' = { s with trace := s.trace ++ ds.map Event.depend } ∧
        ∀ d, d ∈ ds ↔ ElemDep s.heap l d := by
  induction fuel with
  | zero => intro l s s' h; simp [dependArray] at h
  | succ n ih =>
    intro l
    induction l with
    | nil =>
      intro s s' h
      simp [dependArray] at h
      subst h
      exact ⟨[], by simp, fun d => by simp [elemDep_nil]⟩
    | cons e rest ihl =>
      intro s s' h
      have other : (∀ a o, e = .ref a → s.heap[a]? = some o → False) →
          dependArray (n + 1) s rest = .ok s' →
          ∃ ds : List Nat, s' = { s with trace := s.trace ++ ds.map Event.depend } ∧
            ∀ d, d ∈ ds ↔ ElemDep s.heap (e :: rest) d := by
        intro he h
        obtain ⟨ds, hs, hd⟩ := ihl _ _ h
        exact ⟨ds, hs, fun d => (hd d).trans (elemDep_cons_other he).symm⟩
      cases e with
      | ref a =>
        simp only [dependArray] at h
        split at h
        · rename_i o ho
          obtain ⟨ds1, h1, hd1⟩ : ∃ ds1 : List Nat,
              (match o.ob with | some t => depDepend s t.dep | none => s) =
                { s with trace := s.trace ++ ds1.map Event.depend } ∧
              ∀ d, d ∈ ds1 ↔ ∃ t, o.ob = some t ∧ d = t.dep := by
            cases o.ob with
            | none => exact ⟨[], by simp, fun d => by simp⟩
            | some t => exact ⟨[t.dep], rfl, fun d => by simp⟩
          rw [h1] at h
          split at h
          · rename_i hk
            split at h
            · rename_i s2 h2
              obtain ⟨ds2, hs2, hd2⟩ := ih _ _ _ h2
              obtain ⟨ds3, hs3, hd3⟩ := ihl _ _ h
              subst hs2
              refine ⟨ds1 ++ ds2 ++ ds3, ?_, fun d => ?_⟩
              · rw [hs3]; simp [List.append_assoc]
              · rw [elemDep_cons_ref ho, List.mem_append, List.mem_append, hd1, hd2, hd3]
                constructor
                · rintro ((h | h) | h)
                  · exact .inl (.inl h)
                  · exact .inl (.inr ⟨hk, h⟩)
                  · exact .inr h
                · rintro ((h | h) | h)
                  · exact .inl (.inl h)
                  · exact .inl (.inr h.2)
                  · exact .inr h
            · simp at h
          · rename_i hk
            obtain ⟨ds3, hs3, hd3⟩ := ihl _ _ h
            refine ⟨ds1 ++ ds3, ?_, fun d => ?_⟩
            · rw [hs3]; simp [List.append_assoc]
            · rw [elemDep_cons_ref ho, List.mem_append, hd1, hd3]
              constructor
              · rintro (h | h)
                · exact .inl (.inl h)
                · exact .inr h
              · rintro ((h | h) | h)
                · exact .inl h
                · exact (hk h.1).elim
                · exact .inr h
        · rename_i ho
          exact other (fun a' o' he ho' => by cases he; simp [ho'] at ho) h
      | _ => simp only [dependArray] at h; exact other (fun a' o' he _ => by cases he) h

theorem dependArray_total (fuel : Nat) : ∀ (l : List Val) (s : State),
    depthWithin fuel s.heap l = true → ∃ s', dependArray fuel s l = .ok s' := by
  induction fuel with
  | zero => intro l s h; simp [depthWithin] at h
  | succ n ih =>
    intro l
    induction l with
    | nil => intro s _; exact ⟨s, by simp [dependArray]⟩
    | cons e rest ihl =>
      intro s h
      simp only [depthWithin, List.all_cons, Bool.and_eq_true] at h
      have hrest : ∀ s1 : State, s1.heap = s.heap → ∃ s', dependArray (n + 1) s1 rest = .ok s' :=
        fun s1 h1 => ihl s1 (by simpa only [depthWithin, h1] using h.2)
      cases e with
      | ref a =>
        simp only [dependArray]
        cases ho : s.heap[a]? with
        | none => exact hrest s rfl
        | some o =>
          have h1 : (match o.ob with | some t => depDepend s t.dep | none => s).heap = s.heap := by
            cases o.ob <;> rfl
          dsimp only
          by_cases hk : o.kind = .array
          · rw [if_pos hk]
            have he : depthWithin n s.heap o.elems = true := by
              have := h.1
              simp only [ho, if_pos hk] at this
              exact this
            obtain ⟨s2, h2⟩ := ih o.elems _ (by rw [h1]; exact he)
            rw [h2]
            exact hrest s2 ((dependArray_reads _ _ _ _ h2).heap_eq.trans h1)
          · rw [if_neg hk]
            exact hrest _ h1
      | _ => simp only [dependArray]; exact hrest s rfl

theorem collect_deps {fuel : Nat} {c : Closure} {s s' : State} {v : Val}
    (ht : s.target.isSome = true) (h : collect fuel c s v = .ok s') :
    ∃ ds : List Nat, s' = { s with trace := s.trace ++ ds.map Event.depend } ∧
      ∀ d, d ∈ ds ↔ LayerDep s c v d := by
  unfold collect at h
  rw [if_pos ht] at h
  unfold LayerDep
  cases hc : c.childOb with
  | none =>
    rw [hc] at h
    cases h
    exact ⟨[c.dep], rfl, fun d => by simp⟩
  | some ob =>
    rw [hc] at h
    dsimp only at h
    have plain : s' = depDepend (depDepend s c.dep) ob.dep →
        (∀ a o, v = .ref a → s.heap[a]? = some o → o.kind ≠ .array) →
        ∃ ds : List Nat, s' = { s with trace := s.trace ++ ds.map Event.depend } ∧
          ∀ d, d ∈ ds ↔ d = c.dep ∨ ∃ ob', some ob = some ob' ∧ (d = ob'.dep ∨
            ∃ a o, v = .ref a ∧ s.heap[a]? = some o ∧ o.kind = .array ∧
              ElemDep s.heap o.elems d) := by
      intro hs hv
      refine ⟨[c.dep, ob.dep], by rw [hs]; simp [depDepend, State.log], fun d => ?_⟩
      constructor
      · intro hm
        simp only [List.mem_cons, List.mem_singleton, List.not_mem_nil, or_false] at hm
        rcases hm with hm | hm
        · exact .inl hm
        · exact .inr ⟨ob, rfl, .inl hm⟩
      · rintro (hm | ⟨ob', ho', hm | ⟨a, o, hva, hoa, hk, _⟩⟩)
        · simp [hm]
        · cases ho'; simp [hm]
        · exact (hv a o hva hoa hk).elim
    cases v with
    | ref a =>
      dsimp only at h
      have hh : (depDepend (depDepend s c.dep) ob.dep).heap = s.heap := rfl
      rw [hh] at h
      cases ho : s.heap[a]? with
      | none =>
        rw [ho] at h
        cases h
        exact plain rfl (fun a' o' he ho' => by cases he; simp [ho] at ho')
      | some o =>
        rw [ho] at h
        dsimp only at h
        by_cases hk : o.kind = .array
        · rw [if_pos hk] at h
          obtain ⟨ds, hs, hd⟩ := dependArray_deps _ _ _ _ h
          refine ⟨[c.dep, ob.dep] ++ ds, by rw [hs]; simp [depDepend, State.log], fun d => ?_⟩
          rw [List.mem_append, hd]
          constructor
          · rintro (hm | hm)
            · simp only [List.mem_cons, List.mem_singleton, List.not_mem_nil, or_false] at hm
              rcases hm with hm | hm
              · exact .inl hm
              · exact .inr ⟨ob, rfl, .inl hm⟩
            · exact .inr ⟨ob, rfl, .inr ⟨a, o, rfl, ho, hk, hm⟩⟩
          · rintro (hm | ⟨ob', ho', hm | ⟨a', o', hva, hoa, _, hm⟩⟩)
            · simp [hm]
            · cases ho'; simp [hm]
            · cases hva
              rw [ho] at hoa
              cases hoa
              exact .inr hm
        · rw [if_neg hk] at h
          cases h
          exact plain rfl (fun a' o' he ho' => by
            cases he; rw [ho] at ho'; cases ho'; exact hk)
    | _ =>
      cases h
      exact plain rfl (fun a' o' he _ => by cases he)

theorem layerDep_logged (s : State) (l : List Event) (c : Closure) (v : Val) (d : Nat) :
    LayerDep { s with trace := s.trace ++ l } c v d ↔ LayerDep s c v d := Iff.rfl

theorem reactiveGetter_deps {fuel : Nat} : ∀ {slot : Slot} {s s' : State} {v : Val},
    s.target.isSome = true → reactiveGetter fuel slot s = .ok (s', v) →
      ∃ ds : List Nat, s' = { s with trace := s.trace ++ ds.map Event.depend } ∧
        ∀ d, d ∈ ds ↔ SlotDep s slot d := by
  intro slot
  induction slot with
  | base c g st =>
    intro s s' v ht h
    simp only [reactiveGetter] at h
    split at h
    · rename_i s1 h1
      cases h
      obtain ⟨ds, hs, hd⟩ := collect_deps ht h1
      refine ⟨ds, hs, fun d => (hd d).trans ⟨fun hl => .layer (by cases g <;> exact hl), ?_⟩⟩
      intro hl
      cases hl with
      | layer hl => cases g <;> exact hl
    · simp at h
  | wrap c inner ih =>
    intro s s' v ht h
    simp only [reactiveGetter] at h
    split at h
    · rename_i s0 value h0
      split at h
      · rename_i s1 h1
        cases h
        obtain ⟨ds0, hs0, hd0⟩ := ih ht h0
        have hv : v = peekSlot s.cells inner := (reactiveGetter_spec h0).2.1
        subst hs0
        obtain ⟨ds1, hs1, hd1⟩ := collect_deps (by exact ht) h1
        refine ⟨ds0 ++ ds1, by rw [hs1]; simp [List.append_assoc], fun d => ?_⟩
        rw [List.mem_append, hd0, hd1, layerDep_logged, hv]
        constructor
        · rintro (hm | hm)
          · exact .inner hm
          · exact .layer hm
        · intro hm
          cases hm with
          | layer hl => exact .inr hl
          | inner hi => exact .inl hi
      · simp at h
    · simp at h

theorem collect_total (fuel : Nat) (c : Closure) (s : State) (v : Val)
    (hdepth : ∀ a o, v = .ref a → s.heap[a]? = some o → o.kind = .array →
      depthWithin fuel s.heap o.elems = true) :
    ∃ s', collect fuel c s v = .ok s' := by
  unfold collect
  split
  · split
    · rename_i ob _
      cases v with
      | ref a =>
        dsimp only
        have hh : (depDepend (depDepend s c.dep) ob.dep).heap = s.heap := rfl
        rw [hh]
        cases ho : s.heap[a]? with
        | none => exact ⟨_, rfl⟩
        | some o =>
          dsimp only
          by_cases hk : o.kind = .array
          · rw [if_pos hk]
            exact dependArray_total _ _ _ (hdepth a o rfl ho hk)
          · rw [if_neg hk]; exact ⟨_, rfl⟩
      | _ => exact ⟨_, rfl⟩
    · exact ⟨_, rfl⟩
  · exact ⟨_, rfl⟩

theorem reactiveGetter_total (fuel : Nat) : ∀ (slot : Slot) (s : State),
    (∀ a o, peekSlot s.cells slot = .ref a → s.heap[a]? = some o → o.kind = .array →
      depthWithin fuel s.heap o.elems = true) →
    ∃ s', reactiveGetter fuel slot s = .ok (s', peekSlot s.cells slot) := by
  intro slot
  induction slot with
  | base c g st =>
    intro s hdepth
    obtain ⟨s1, h1⟩ := collect_total fuel c s _ hdepth
    cases g with
    | none =>
      simp only [reactiveGetter]
      simp only [peekSlot] at h1
      rw [h1]
      exact ⟨s1, rfl⟩
    | some cell =>
      simp only [reactiveGetter]
      simp only [peekSlot] at h1
      rw [h1]
      exact ⟨s1, rfl⟩
  | wrap c inner ih =>
    intro s hdepth
    simp only [reactiveGetter]
    obtain ⟨s0, h0⟩ := ih s hdepth
    rw [h0]
    dsimp only
    have hr := (reactiveGetter_spec h0).1
    obtain ⟨s1, h1⟩ := collect_total fuel c s0 (peekSlot s.cells inner) (by
        intro a o hv ho hk
        rw [hr.heap_eq] at ho ⊢
        exact hdepth a o hv ho hk)
    rw [h1]
    exact ⟨s1, rfl⟩

/-- C14, as the code has it: the getter of a reactive slot returns the value the
slot reads. With no active unit it changes no state. With an active unit it adds
depend events only, and the registries it calls depend on are exactly those of
`SlotDep`: the registry of the slot, the registry of the Observer the slot
retained (not the Observer the value may carry), and, when an Observer is
retained and the value is an array, the Observer registries of its observed
elements through nested arrays, together with what a wrapped reactive getter
collects. The getter returns whenever the nesting of the arrays is below the
fuel. -/
theorem getter_collects (fuel : Nat) (slot : Slot) (s : State) :
    (∀ s' v, reactiveGetter fuel slot s = .ok (s', v) →
      v = peekSlot s.cells slot ∧
      ∃ ds : List Nat, s' = { s with trace := s.trace ++ ds.map Event.depend } ∧
        (s.target = none → ds = []) ∧
        (s.target.isSome = true → ∀ d, d ∈ ds ↔ SlotDep s slot d)) ∧
    (s.target = none → reactiveGetter fuel slot s = .ok (s, peekSlot s.cells slot)) ∧
    ((∀ a o, peekSlot s.cells slot = .ref a → s.heap[a]? = some o → o.kind = .array →
        depthWithin fuel s.heap o.elems = true) →
      ∃ s', reactiveGetter fuel slot s = .ok (s', peekSlot s.cells slot)) := by
  refine ⟨fun s' v h => ⟨(reactiveGetter_spec h).2.1, ?_⟩,
    reactiveGetter_quiet fuel slot s, reactiveGetter_total fuel slot s⟩
  by_cases ht : s.target.isSome = true
  · obtain ⟨ds, hs, hd⟩ := reactiveGetter_deps ht h
    exact ⟨ds, hs, fun hc => by simp [hc] at ht, fun _ => hd⟩
  · have hn : s.target = none := by simpa using ht
    have hs : s' = s := (reactiveGetter_spec h).2.2 hn
    exact ⟨[], by simp [hs], fun _ => rfl, fun hc => (ht hc).elim⟩

theorem getter_collects_witness :
    ∃ s', reactiveGetter 2 sampleDeepSlot sampleWatched =
      .ok (s', peekSlot sampleWatched.cells sampleDeepSlot) :=
  (getter_collects 2 sampleDeepSlot sampleWatched).2.2 (by
    intro a o hv ho _
    cases hv
    cases ho
    rfl)

/-- C14 fails as stated: `defineReactive(obj, "a", arr, null, true)` installs a
shallow slot over an observed array with an observed element. The slot retains
no Observer, so a read by an active unit calls depend on the registry of the
slot (2) only, not on the registry of the Observer of the array (0) nor on that
of its element (1). -/
theorem shallow_getter_skips_observer :
    ∃ s1 s2, defineReactive 1 sampleWatched 0 (.name "a") (some (.ref 1)) false true = .ok s1 ∧
      s1.target = some 0 ∧ carriesObserver s1 (.ref 1) = true ∧
      ElemDep s1.heap [.ref 2] 1 ∧
      getProp 2 s1 0 (.name "a") = .ok (s2, .ref 1) ∧ s2.trace = [.depend 2] :=
  ⟨_, _, rfl, rfl, rfl,
    ElemDep.own (t := { dep := 1, vmCount := 0 }) (List.mem_singleton.2 rfl) rfl rfl, rfl, rfl⟩

/-! ## What a computation collects -/

theorem slotDep_logged (s : State) (l : List Event) (slot : Slot) (d : Nat) :
    SlotDep { s with trace := s.trace ++ l } slot d ↔ SlotDep s slot d := by
  constructor
  · intro h
    induction h with
    | layer hl => exact .layer hl
    | inner _ ih => exact .inner ih
  · intro h
    induction h with
    | layer hl => exact .layer hl
    | inner _ ih => exact .inner ih

theorem getProp_deps {fuel : Nat} {s s' : State} {obj : Nat} {key : Key} {v : Val}
    (ht : s.target.isSome = true) (h : getProp fuel s obj key = .ok (s', v)) :
    ∃ ds : List Nat, s' = { s with trace := s.trace ++ ds.map Event.depend } ∧
      ∀ d, d ∈ ds ↔ ∃ slot, slotAt s obj key = some slot ∧ SlotDep s slot d := by
  have none_of : s' = s → (slotAt s obj key = none) →
      ∃ ds : List Nat, s' = { s with trace := s.trace ++ ds.map Event.depend } ∧
        ∀ d, d ∈ ds ↔ ∃ slot, slotAt s obj key = some slot ∧ SlotDep s slot d := by
    intro hs hn
    exact ⟨[], by simp [hs], fun d => by simp [hn]⟩
  unfold getProp at h
  split at h
  · rename_i ho
    cases h
    exact none_of rfl (by simp [slotAt, ho])
  · rename_i o ho
    split at h
    · rename_i hd
      cases h
      exact none_of rfl (by simp [slotAt, ho, hd])
    · rename_i d hd
      split at h
      · rename_i hb; cases h; exact none_of rfl (by simp [slotAt, ho, hd, hb])
      · rename_i hb; cases h; exact none_of rfl (by simp [slotAt, ho, hd, hb])
      · rename_i hb; cases h; exact none_of rfl (by simp [slotAt, ho, hd, hb])
      · rename_i slot hb
        obtain ⟨ds, hs, hds⟩ := reactiveGetter_deps ht h
        refine ⟨ds, hs, fun x => (hds x).trans ?_⟩
        simp [slotAt, ho, hd, hb]

theorem readAll_deps (fuel : Nat) : ∀ (reads : List (Nat × Key)) (s s' : State),
    s.target.isSome = true → readAll fuel s reads = .ok s' →
    ∃ ds : List Nat, s' = { s with trace := s.trace ++ ds.map Event.depend } ∧
      ∀ d, d ∈ ds ↔ ∃ r ∈ reads, ∃ slot, slotAt s r.1 r.2 = some slot ∧ SlotDep s slot d := by
  intro reads
  induction reads with
  | nil =>
    intro s s' _ h
    simp only [readAll] at h
    cases h
    exact ⟨[], by simp, fun d => by simp⟩
  | cons r rest ih =>
    intro s s' ht h
    simp only [readAll] at h
    split at h
    · rename_i s1 v h1
      obtain ⟨ds1, hs1, hd1⟩ := getProp_deps ht h1
      subst hs1
      obtain ⟨ds2, hs2, hd2⟩ := ih _ _ (by exact ht) h
      refine ⟨ds1 ++ ds2, by rw [hs2]; simp [List.append_assoc], fun d => ?_⟩
      rw [List.mem_append, hd1, hd2]
      constructor
      · rintro (⟨slot, hsl, hdep⟩ | ⟨r', hr', slot, hsl, hdep⟩)
        · exact ⟨r, List.mem_cons_self _ _, slot, hsl, hdep⟩
        · exact ⟨r', List.mem_cons_of_mem _ hr', slot, hsl, (slotDep_logged _ _ _ _).1 hdep⟩
      · rintro ⟨r', hr', slot, hsl, hdep⟩
        rcases List.mem_cons.1 hr' with h0 | h0
        · subst h0; exact .inl ⟨slot, hsl, hdep⟩
        · exact .inr ⟨r', h0, slot, hsl, (slotDep_logged _ _ _ _).2 hdep⟩
    · simp at h

theorem getProp_total (fuel : Nat) (s : State) (obj : Nat) (key : Key)
    (hdepth : ∀ a o, peek s obj key = .ref a → s.heap[a]? = some o → o.kind = .array →
      depthWithin fuel s.heap o.elems = true) :
    ∃ s', getProp fuel s obj key = .ok (s', peek s obj key) := by
  unfold getProp
  unfold peek at hdepth ⊢
  split
  · exact ⟨_, rfl⟩
  · rename_i o ho
    split
    · exact ⟨_, rfl⟩
    · rename_i d hd
      split
      · rename_i hb; exact ⟨s, by simp [peekDesc, hb]⟩
      · rename_i hb; exact ⟨s, by simp [peekDesc, hb]⟩
      · rename_i hb; exact ⟨s, by simp [peekDesc, hb]⟩
      · rename_i slot hb
        have hp : peekDesc s.cells d = peekSlot s.cells slot := by simp [peekDesc, hb]
        rw [hp]
        refine reactiveGetter_total fuel slot s ?_
        intro a o' hv
        rw [← hp] at hv
        exact hdepth a o' (by simp only [ho, hd]; exact hv)

theorem readAll_total (fuel : Nat) : ∀ (reads : List (Nat × Key)) (s : State),
    (∀ r ∈ reads, ∀ a o, peek s r.1 r.2 = .ref a → s.heap[a]? = some o → o.kind = .array →
      depthWithin fuel s.heap o.elems = true) →
    ∃ s', readAll fuel s reads = .ok s' := by
  intro reads
  induction reads with
  | nil => intro s _; exact ⟨s, rfl⟩
  | cons r rest ih =>
    intro s hdepth
    simp only [readAll]
    obtain ⟨s1, h1⟩ := getProp_total fuel s r.1 r.2 (hdepth r (List.mem_cons_self _ _))
    rw [h1]
    dsimp only
    obtain ⟨ds, _, rfl⟩ := (getProp_spec h1).1
    exact ih _ (fun r' hr' => hdepth r' (List.mem_cons_of_mem _ hr'))

theorem slotDep_plain {s : State} {c : Closure} {g st : Option Nat} {d : Nat}
    (hc : c.childOb = none) : SlotDep s (.base c g st) d ↔ c.dep = d := by
  constructor
  · intro h
    cases h with
    | layer hl =>
      rcases hl with hl | ⟨ob, hob, _⟩
      · exact hl.symm
      · simp only [Slot.closure] at hob
        rw [hc] at hob
        cases hob
  · intro h
    exact .layer (.inl h.symm)

/-- C13, as the code has it: a computation run as the active unit is a
sequence of reads `obj[key]`. The registries on which depend is called during
the run are exactly those which the getters of the reactive slots it reads
collect (`SlotDep`): the registry of each slot and, for a slot that retains an
Observer for its value, the registry of that Observer and of the observed
elements of an array value. They are exactly the registries of the slots read
when no slot read retains an Observer. The run returns whenever the nesting of
the arrays read is below the fuel. -/
theorem run_collects (fuel : Nat) (s : State) (reads : List (Nat × Key))
    (ht : s.target.isSome = true) :
    (∀ s', readAll fuel s reads = .ok s' →
      ∃ ds : List Nat, s' = { s with trace := s.trace ++ ds.map Event.depend } ∧
        (∀ d, d ∈ ds ↔
          ∃ r ∈ reads, ∃ slot, slotAt s r.1 r.2 = some slot ∧ SlotDep s slot d) ∧
        ((∀ r ∈ reads, ∀ slot, slotAt s r.1 r.2 = some slot →
            ∃ c g st, slot = .base c g st ∧ c.childOb = none) →
          ∀ d, d ∈ ds ↔
            ∃ r ∈ reads, ∃ slot, slotAt s r.1 r.2 = some slot ∧ slot.closure.dep = d)) ∧
    ((∀ r ∈ reads, ∀ a o, peek s r.1 r.2 = .ref a → s.heap[a]? = some o → o.kind = .array →
        depthWithin fuel s.heap o.elems = true) →
      ∃ s', readAll fuel s reads = .ok s') := by
  refine ⟨fun s' h => ?_, readAll_total fuel reads s⟩
  obtain ⟨ds, hs, hd⟩ := readAll_deps fuel reads s s' ht h
  refine ⟨ds, hs, hd, fun hplain d => (hd d).trans ?_⟩
  constructor
  · rintro ⟨r, hr, slot, hsl, hdep⟩
    obtain ⟨c, g, st, rfl, hc⟩ := hplain r hr slot hsl
    exact ⟨r, hr, _, hsl, (slotDep_plain hc).1 hdep⟩
  · rintro ⟨r, hr, slot, hsl, hdep⟩
    obtain ⟨c, g, st, rfl, hc⟩ := hplain r hr slot hsl
    exact ⟨r, hr, _, hsl, (slotDep_plain hc).2 hdep⟩

theorem run_collects_witness :
    ∃ s', readAll 1 { sampleNaN with target := some 0 } [(0, .name "a")] = .ok s' :=
  (run_collects 1 { sampleNaN with target := some 0 } [(0, .name "a")] rfl).2 (by
    intro r hr a o hv
    rw [List.mem_singleton.1 hr] at hv
    cases hv)

/-- C13 fails as stated: after `observe` of `{ a: y }` with `y` a plain
object, the slot `a` has registry 1 and retains the Observer of `y`, whose
registry is 2. A unit that reads the one slot `a` calls depend on two
registries, 1 and 2. -/
theorem one_read_collects_two_registries :
    ∃ s1 ob s2, observe 3 sampleParent (.ref 0) false = .ok (s1, ob) ∧
      (slotAt s1 0 (.name "a")).map (fun slot => slot.closure.dep) = some 1 ∧
      readAll 1 { s1 with target := some 0 } [(0, .name "a")] = .ok s2 ∧
      s2.trace = [.depend 1, .depend 2] :=
  ⟨_, _, _, rfl, rfl, rfl, rfl⟩

/-! ## Caching of computed properties -/

theorem readTimes_clean (compute : Nat → Val × List Nat) (w : LazyUnit) (hd : w.dirty = false) :
    ∀ (n : Nat) (c : Computed), c.watcher = some w →
      (readTimes compute n c).1.watcher = some w ∧
        (readTimes compute n c).2 = List.replicate n w.value := by
  intro n
  induction n with
  | zero => intro c hw; exact ⟨hw, rfl⟩
  | succ n ih =>
    intro c hw
    have h1 : (computedGetter compute c).1.watcher = some w ∧
        (computedGetter compute c).2 = w.value := by
      simp only [computedGetter, hw, hd, Bool.false_eq_true, if_false]
      split <;> simp [LazyUnit.depend]
    obtain ⟨h2, h3⟩ := ih _ h1.1
    simp only [readTimes]
    exact ⟨h2, by rw [h1.2, h3]; rfl⟩

theorem computedGetter_dirty (compute : Nat → Val × List Nat) (c : Computed) (w : LazyUnit)
    (hw : c.watcher = some w) (hd : w.dirty = true) :
    (computedGetter compute c).1.watcher =
        some { dirty := false, value := (compute w.runs).1, deps := (compute w.runs).2,
               runs := w.runs + 1, evaluations := w.evaluations + 1 } ∧
      (computedGetter compute c).2 = (compute w.runs).1 := by
  simp only [computedGetter, hw, hd, if_true, LazyUnit.evaluate]
  split <;> simp [LazyUnit.depend]

/-- C18: the computed getter of a property backed by a lazy unit calls
`evaluate()` only when the unit is dirty. A clean unit answers `n` reads in a
row with its cached value, no call of `evaluate()` and no run of the
computation; a dirty unit answers them with one call and one run, of which
every read returns the value; after a notification marks the unit dirty, the
next read calls `evaluate()` once, which runs the computation exactly once, and
returns its new value, and the reads after it call and run nothing. -/
theorem computed_runs_once (compute : Nat → Val × List Nat) (c : Computed) (w : LazyUnit)
    (n : Nat) (hw : c.watcher = some w) :
    (w.dirty = false →
      (readTimes compute n c).1.evaluations = w.evaluations ∧
      (readTimes compute n c).1.runs = w.runs ∧
        (readTimes compute n c).2 = List.replicate n w.value) ∧
    (w.dirty = true →
      (readTimes compute (n + 1) c).1.evaluations = w.evaluations + 1 ∧
      (readTimes compute (n + 1) c).1.runs = w.runs + 1 ∧
        (readTimes compute (n + 1) c).2 = List.replicate (n + 1) (compute w.runs).1) ∧
    ((computedGetter compute c.notified).1.evaluations = w.evaluations + 1 ∧
      (computedGetter compute c.notified).1.runs = w.runs + 1 ∧
      (computedGetter compute c.notified).2 = (compute w.runs).1 ∧
      (readTimes compute n (computedGetter compute c.notified).1).1.evaluations =
        w.evaluations + 1 ∧
      (readTimes compute n (computedGetter compute c.notified).1).1.runs = w.runs + 1 ∧
      (readTimes compute n (computedGetter compute c.notified).1).2 =
        List.replicate n (compute w.runs).1) := by
  have dirty_case : ∀ (c0 : Computed) (w0 : LazyUnit), c0.watcher = some w0 → w0.dirty = true →
      (computedGetter compute c0).1.evaluations = w0.evaluations + 1 ∧
      (computedGetter compute c0).1.runs = w0.runs + 1 ∧
      (computedGetter compute c0).2 = (compute w0.runs).1 ∧
      (readTimes compute n (computedGetter compute c0).1).1.evaluations = w0.evaluations + 1 ∧
      (readTimes compute n (computedGetter compute c0).1).1.runs = w0.runs + 1 ∧
      (readTimes compute n (computedGetter compute c0).1).2 =
        List.replicate n (compute w0.runs).1 := by
    intro c0 w0 h0 hd0
    obtain ⟨h1, h2⟩ := computedGetter_dirty compute c0 w0 h0 hd0
    obtain ⟨h3, h4⟩ := readTimes_clean compute _ rfl n _ h1
    exact ⟨by simp only [Computed.evaluations, h1], by simp only [Computed.runs, h1], h2,
      by simp only [Computed.evaluations, h3], by simp only [Computed.runs, h3], h4⟩
  refine ⟨fun hd => ?_, fun hd => ?_, ?_⟩
  · obtain ⟨h1, h2⟩ := readTimes_clean compute w hd n c hw
    exact ⟨by simp only [Computed.evaluations, h1], by simp only [Computed.runs, h1], h2⟩
  · obtain ⟨_, _, h2, h3, h4, h5⟩ := dirty_case c w hw hd
    simp only [readTimes]
    exact ⟨h3, h4, by rw [h2, h5]; rfl⟩
  · exact dirty_case c.notified w.update (by simp [Computed.notified, hw]) rfl

theorem computed_runs_once_witness :
    (computedGetter (fun k => (.num k, [])) (Computed.notified
        { watcher := some { dirty := false, value := .num 7, deps := [], runs := 3,
                            evaluations := 3 },
          target := none, collected := [] })).1.evaluations = 3 + 1 :=
  (computed_runs_once (fun k => (.num k, []))
    { watcher := some { dirty := false, value := .num 7, deps := [], runs := 3,
                        evaluations := 3 },
      target := none, collected := [] }
    { dirty := false, value := .num 7, deps := [], runs := 3, evaluations := 3 } 0 rfl).2.2.1

/-! ## Immediate watchers -/

/-- C19: `$watch` with a function callback and `immediate: true` calls the
callback exactly once after it has constructed the unit, with the value of the
unit, whether or not the callback throws; without `immediate` it calls nothing
after the construction. When the construction of the unit calls no callback,
the calls made during `$watch` are that one call, or none. -/
theorem watch_immediate (construct : WatchState → WatchState × Val) (s : WatchState)
    (id : Nat) (throws : Bool) :
    (watch construct s (.fn id throws) true).calls =
        (construct s).1.calls ++ [(id, (construct s).2)] ∧
    (watch construct s (.fn id throws) false).calls = (construct s).1.calls ∧
    ((construct s).1.calls = s.calls →
      (watch construct s (.fn id throws) true).calls = s.calls ++ [(id, (construct s).2)] ∧
      (watch construct s (.fn id throws) false).calls = s.calls) := by
  have h1 : (watch construct s (.fn id throws) true).calls =
      (construct s).1.calls ++ [(id, (construct s).2)] := by
    cases throws <;> simp [watch]
  have h2 : (watch construct s (.fn id throws) false).calls = (construct s).1.calls := by
    simp [watch]
  exact ⟨h1, h2, fun hc => ⟨by rw [h1, hc], by rw [h2, hc]⟩⟩

theorem watch_immediate_witness :
    (watch (fun s => (s, .num 5)) { calls := [], handled := [] } (.fn 0 true) true).calls =
        [(0, .num 5)] ∧
      (watch (fun s => (s, .num 5)) { calls := [], handled := [] } (.fn 0 true) false).calls =
        [] :=
  (watch_immediate (fun s => (s, .num 5)) { calls := [], handled := [] } 0 true).2.2 rfl

/-! ## `observe` instruments what it reaches -/

theorem slotAt_of_heap {s s' : State} {a : Nat} (h : s'.heap[a]? = s.heap[a]?) (k : Key) :
    slotAt s' a k = slotAt s a k := by
  simp only [slotAt, h]

theorem instrumented_mono {s s1 s2 s3 : State} {b : Nat}
    (hheap : s1.heap[b]? = s.heap[b]?) (hcells : s1.cells = s.cells)
    (hcan : ∀ v, canObserve s v = true → canObserve s1 v = true)
    (hcar : ∀ v, carriesObserver s2 v = true → carriesObserver s3 v = true)
    (hkeep : s3.heap[b]? = s2.heap[b]?)
    (h : Instrumented s1 s2 b) : Instrumented s s3 b := by
  intro o ho
  obtain ⟨h1, h2⟩ := h o (by rw [hheap]; exact ho)
  refine ⟨fun v hv hc => hcar v (h1 v (by rw [hcells]; exact hv) (hcan v hc)), ?_⟩
  intro hk k d hd hen hconf
  rw [slotAt_of_heap hkeep]
  exact h2 hk k d hd hen hconf

theorem instrumented_of_ext {F G : Nat → Prop} {s s1 s2 s3 : State} {b : Nat}
    (e1 : ExtOn F s s1) (hn : newlyObserved s1 s2 b) (h : Instrumented s1 s2 b)
    (e2 : ExtOn G s2 s3) (hG : ¬ G b) : Instrumented s s3 b := by
  obtain ⟨⟨o1, ho1, hnone⟩, o2, ho2, hsome⟩ := hn
  refine instrumented_mono ?_ e1.cells (fun v => canObserve_of_extOn e1)
    (fun v => carriesObserver_of_extOn e2) ?_ h
  · rw [ho1, e1.untouched b o1 ho1 hnone]
  · rw [ho2, e2.frame b o2 hG ho2 hsome]

theorem carriesObserver_setObj {s : State} {a : Nat} {o o' : Obj} (hget : s.heap[a]? = some o)
    (hob : o'.ob = o.ob) (v : Val) :
    carriesObserver (s.setObj a o') v = carriesObserver s v := by
  cases v with
  | ref b =>
    simp only [carriesObserver]
    by_cases hb : b = a
    · subst hb
      rw [getElem?_setObj_self hget, hget]
      simp only [hob]
    · rw [getElem?_setObj_ne hb]
  | _ => rfl

theorem defineReactiveWith_inst {obs : State → Val → Except Err (State × Option Observer)}
    {fuel : Nat}
    (hobs : ∀ s v s' r, obs s v = .ok (s', r) → Ext s s')
    (hcar : ∀ s v s' r, obs s v = .ok (s', r) → canObserve s v = true →
      carriesObserver s' v = true)
    (hinst : ∀ s v s' r, obs s v = .ok (s', r) → ∀ b, newlyObserved s s' b →
      Instrumented s s' b)
    {s s' : State} {obj : Nat} {key : Key} {o : Obj} {d : Desc}
    (hget : s.heap[obj]? = some o) (htag : o.ob.isSome = true)
    (hd : findProp o.props key = some d)
    (h : defineReactiveWith obs fuel s obj key none false false = .ok s') :
    (∃ o1, s'.heap[obj]? = some o1 ∧ o1.ob = o.ob ∧
      (∀ k', k' ≠ key → findProp o1.props k' = findProp o.props k') ∧
      (d.configurable = false → findProp o1.props key = some d) ∧
      (d.configurable = true → ∃ slot, findProp o1.props key = some (Desc.reactiveOf slot))) ∧
    (d.configurable = true → getterOnly (some d) = false →
      canObserve s (peekDesc s.cells d) = true →
      carriesObserver s' (peekDesc s.cells d) = true) ∧
    (∀ b, b ≠ obj → newlyObserved s s' b → Instrumented s s' b) := by
  unfold defineReactiveWith at h
  simp only [newDep] at h
  have hget1 : ({ s with nextDep := s.nextDep + 1 } : State).heap[obj]? = some o := hget
  rw [hget1] at h
  simp only [hd] at h
  have e0 : Ext s { s with nextDep := s.nextDep + 1 } := extOn_newDep _ s
  have hstay : ∀ (s0 : State) (b : Nat), s0.heap = s.heap → ¬ newlyObserved s s0 b := by
    intro s0 b hs0 ⟨⟨ob, hob, hnone⟩, o', ho', hsome⟩
    rw [hs0, hob] at ho'
    cases ho'
    simp [hnone] at hsome
  by_cases hconf : d.configurable = true
  · simp only [hconf, Bool.not_true, Bool.false_eq_true, if_false] at h
    split at h
    · simp at h
    · rename_i s1 v hread
      have hr : Reads { s with nextDep := s.nextDep + 1 } s1 ∧
          (getterOnly (some d) = false → v = peekDesc s.cells d) ∧
          (s.target = none → s1 = { s with nextDep := s.nextDep + 1 }) := by
        split at hread
        · rename_i hg
          cases hread
          exact ⟨Reads.same _, fun hng => by simp [hng] at hg, fun _ => rfl⟩
        · obtain ⟨r1, r2, r3⟩ := getProp_spec hread
          refine ⟨r1, fun _ => ?_, r3⟩
          rw [r2]
          simp only [peek, hget1, hd]
      obtain ⟨hr1, hr2, hr3⟩ := hr
      have e1 : Ext s s1 := e0.chain (ExtOn.of_reads hr1 hr3)
      split at h
      · simp at h
      · rename_i s2 childOb hchild
        have e12 : Ext s1 s2 := hobs _ _ _ _ hchild
        have ho2 : s2.heap[obj]? = some o := (e1.chain e12).frame obj o (fun hF => hF) hget htag
        unfold defineProperty at h
        simp only [ho2, hd, hconf, if_true] at h
        cases h
        have hcar2 : ∀ (ox : Obj), ox.ob = o.ob → ∀ w, carriesObserver s2 w = true →
            carriesObserver (s2.setObj obj ox) w = true := by
          intro ox hox w hw
          rw [carriesObserver_setObj ho2 hox]
          exact hw
        refine ⟨⟨_, getElem?_setObj_self ho2, rfl, ?_, fun hc => by simp [hconf] at hc,
          fun _ => ⟨_, by simp only [findProp_putProp, if_true]; rfl⟩⟩, ?_, ?_⟩
        · intro k' hk'
          simp only [findProp_putProp, if_neg hk']
        · intro _ hng hc
          have hv := hr2 hng
          rw [← hv] at hc ⊢
          exact hcar2 _ (by rfl) v (hcar _ _ _ _ hchild (canObserve_of_extOn e1 hc))
        · intro b hb hnew
          have hs' : ∀ (ox : Obj), (s2.setObj obj ox).heap[b]? = s2.heap[b]? :=
            fun ox => getElem?_setObj_ne hb
          have hnew2 : newlyObserved s s2 b := by
            obtain ⟨h1, o', ho', hsome⟩ := hnew
            exact ⟨h1, o', by rw [← hs']; exact ho', hsome⟩
          rcases newlyObserved_split e1 e12 hnew2 with h1 | h2
          · exact absurd h1 (hstay _ _ (by rw [hr1.heap_eq]))
          · exact instrumented_mono (by rw [hr1.heap_eq]) e1.cells
              (fun w => canObserve_of_extOn e1) (hcar2 _ (by rfl)) (hs' _) (hinst _ _ _ _ hchild b h2)
  · have hconf' : d.configurable = false := by simpa using hconf
    simp only [hconf', Bool.not_false, if_true] at h
    cases h
    refine ⟨⟨o, hget, rfl, fun _ _ => rfl, fun _ => hd, fun hc => by simp [hconf'] at hc⟩,
      fun hc => by simp [hconf'] at hc, fun b _ hnew => absurd hnew (hstay _ _ rfl)⟩

theorem walkWith_inst {obs : State → Val → Except Err (State × Option Observer)}
    {fuel : Nat}
    (hobs : ∀ s v s' r, obs s v = .ok (s', r) → Ext s s')
    (hcar : ∀ s v s' r, obs s v = .ok (s', r) → canObserve s v = true →
      carriesObserver s' v = true)
    (hinst : ∀ s v s' r, obs s v = .ok (s', r) → ∀ b, newlyObserved s s' b →
      Instrumented s s' b)
    {obj : Nat} :
    ∀ (keys : List Key) (s s' : State) (o : Obj), s.heap[obj]? = some o →
      o.ob.isSome = true →
      (∀ k ∈ keys, (findProp o.props k).isSome = true) →
      walkWith obs fuel obj s keys = .ok s' →
      (∀ k ∈ keys, ∀ d, findProp o.props k = some d → d.configurable = true →
        (slotAt s' obj k).isSome = true ∧
        (getterOnly (some d) = false → canObserve s (peekDesc s.cells d) = true →
          carriesObserver s' (peekDesc s.cells d) = true)) ∧
      (∀ k, (slotAt s obj k).isSome = true → (slotAt s' obj k).isSome = true) ∧
      (∀ b, b ≠ obj → newlyObserved s s' b → Instrumented s s' b) := by
  intro keys
  induction keys with
  | nil =>
    intro s s' o _ _ _ h
    simp only [walkWith] at h
    cases h
    exact ⟨fun k hk => by simp at hk, fun _ hs => hs,
      fun b _ hnew => absurd hnew (not_newlyObserved_self s b)⟩
  | cons k rest ih =>
    intro s s' o hget htag hkeys h
    simp only [walkWith] at h
    split at h
    · rename_i s1 h1
      obtain ⟨dk, hdk⟩ := Option.isSome_iff_exists.mp (hkeys k (List.mem_cons_self _ _))
      obtain ⟨⟨o1, ho1, hob1, hA, hB, hC⟩, hD, hE⟩ :=
        defineReactiveWith_inst hobs hcar hinst hget htag hdk h1
      have e1 : ExtOn (fun x => x = obj) s s1 :=
        defineReactiveWith_ext hobs hget (hkeys k (List.mem_cons_self _ _)) rfl htag h1
      have htag1 : o1.ob.isSome = true := by rw [hob1]; exact htag
      have hk1 : (findProp o1.props k).isSome = true := by
        by_cases hconf : dk.configurable = true
        · obtain ⟨slot, hs⟩ := hC hconf
          simp [hs]
        · simp [hB (by simpa using hconf)]
      have hkeys1 : ∀ k' ∈ rest, (findProp o1.props k').isSome = true := by
        intro k' hk'
        by_cases hkk : k' = k
        · subst hkk; exact hk1
        · rw [hA k' hkk]; exact hkeys k' (List.mem_cons_of_mem _ hk')
      obtain ⟨i1, i2, i3⟩ := ih s1 s' o1 ho1 htag1 hkeys1 h
      have e2 : ExtOn (fun x => x = obj) s1 s' :=
        @walkWith_ext _ _ (fun x => x = obj) hobs _ rfl rest s1 s' o1 ho1 htag1 hkeys1 h
      have slotk : dk.configurable = true → (slotAt s1 obj k).isSome = true := by
        intro hconf
        obtain ⟨slot, hs⟩ := hC hconf
        simp [slotAt, ho1, hs, Desc.reactiveOf]
      have slot1 : ∀ k', (slotAt s obj k').isSome = true → (slotAt s1 obj k').isSome = true := by
        intro k' hs
        by_cases hkk : k' = k
        · subst hkk
          by_cases hconf : dk.configurable = true
          · exact slotk hconf
          · simp only [slotAt, hget, hdk] at hs
            simp only [slotAt, ho1, hB (by simpa using hconf)]
            exact hs
        · simp only [slotAt, hget] at hs
          simp only [slotAt, ho1, hA k' hkk]
          exact hs
      refine ⟨?_, fun k' hs => i2 k' (slot1 k' hs), ?_⟩
      · intro k' hk' d hd hconf
        by_cases hkk : k' = k
        · subst hkk
          rw [hdk] at hd
          cases hd
          exact ⟨i2 _ (slotk hconf),
            fun hng hc => carriesObserver_of_extOn e2 (hD hconf hng hc)⟩
        · have hmem : k' ∈ rest := by
            rcases List.mem_cons.1 hk' with h0 | h0
            · exact absurd h0 hkk
            · exact h0
          obtain ⟨j1, j2⟩ := i1 k' hmem d (by rw [hA k' hkk]; exact hd) hconf
          refine ⟨j1, fun hng hc => ?_⟩
          rw [← e1.cells]
          exact j2 hng (by rw [e1.cells]; exact canObserve_of_extOn e1 hc)
      · intro b hb hnew
        rcases newlyObserved_split e1 e2 hnew with hn1 | hn2
        · exact instrumented_of_ext (ExtOn.nothing (fun _ => False) s) hn1 (hE b hb hn1) e2 hb
        · exact instrumented_of_ext e1 hn2 (i3 b hb hn2) (ExtOn.nothing (fun _ => False) s')
            (fun hF => hF)
    · simp at h

theorem observeArrayWith_inst {obs : State → Val → Except Err (State × Option Observer)}
    (hobs : ∀ s v s' r, obs s v = .ok (s', r) → Ext s s')
    (hcar : ∀ s v s' r, obs s v = .ok (s', r) → canObserve s v = true →
      carriesObserver s' v = true)
    (hinst : ∀ s v s' r, obs s v = .ok (s', r) → ∀ b, newlyObserved s s' b →
      Instrumented s s' b) :
    ∀ (items : List Val) (s s' : State), observeArrayWith obs s items = .ok s' →
      (∀ v ∈ items, canObserve s v = true → carriesObserver s' v = true) ∧
      (∀ b, newlyObserved s s' b → Instrumented s s' b) := by
  intro items
  induction items with
  | nil =>
    intro s s' h
    simp only [observeArrayWith] at h
    cases h
    exact ⟨fun v hv => by simp at hv, fun b hnew => absurd hnew (not_newlyObserved_self s b)⟩
  | cons x rest ih =>
    intro s s' h
    simp only [observeArrayWith] at h
    split at h
    · rename_i s1 r h1
      have e1 : Ext s s1 := hobs _ _ _ _ h1
      have e2 : Ext s1 s' := observeArrayWith_ext hobs rest s1 s' h
      obtain ⟨i1, i2⟩ := ih s1 s' h
      refine ⟨?_, ?_⟩
      · intro v hv hc
        rcases List.mem_cons.1 hv with h0 | h0
        · subst h0
          exact carriesObserver_of_extOn e2 (hcar _ _ _ _ h1 hc)
        · exact i1 v h0 (canObserve_of_extOn e1 hc)
      · intro b hnew
        rcases newlyObserved_split e1 e2 hnew with hn1 | hn2
        · exact instrumented_of_ext (ExtOn.nothing (fun _ => False) s) hn1
            (hinst _ _ _ _ h1 b hn1) e2 (fun hF => hF)
        · exact instrumented_of_ext e1 hn2 (i2 b hn2) (ExtOn.nothing (fun _ => False) s')
            (fun hF => hF)
    · simp at h

theorem mem_objectKeys {o : Obj} {k : Key} {d : Desc} (hd : findProp o.props k = some d)
    (hen : d.enumerable = true) : k ∈ objectKeys o := by
  unfold objectKeys
  simp only [List.mem_map, List.mem_filter]
  exact ⟨(k, d), ⟨findProp_mem _ _ _ hd, hen⟩, rfl⟩

theorem newObserverWith_inst {obs : State → Val → Except Err (State × Option Observer)}
    {fuel : Nat}
    (hobs : ∀ s v s' r, obs s v = .ok (s', r) → Ext s s')
    (hcar : ∀ s v s' r, obs s v = .ok (s', r) → canObserve s v = true →
      carriesObserver s' v = true)
    (hinst : ∀ s v s' r, obs s v = .ok (s', r) → ∀ b, newlyObserved s s' b →
      Instrumented s s' b)
    {s s' : State} {a : Nat} {o : Obj} {ob : Observer}
    (hget : s.heap[a]? = some o) (hob : o.ob = none)
    (h : newObserverWith obs fuel s a o = .ok (s', ob)) :
    ∀ b, newlyObserved s s' b → Instrumented s s' b := by
  intro b hnew
  unfold newObserverWith at h
  simp only [newDep, augment_eq] at h
  have hget0 : ({ s with nextDep := s.nextDep + 1 } : State).heap[a]? = some o := hget
  have e0 : ∀ (o1 : Obj), ObjExt s.cells o o1 → o1.ob.isSome = true →
      ExtOn (fun x => x = a) s (({ s with nextDep := s.nextDep + 1 } : State).setObj a o1) :=
    fun o1 he1 htag => (extOn_newDep _ s).chain (extOn_setObj hget0 he1 (Or.inl rfl) htag)
  have hnew1 : ∀ (o1 : Obj), b ≠ a →
      newlyObserved (({ s with nextDep := s.nextDep + 1 } : State).setObj a o1) s' b := by
    intro o1 hba
    obtain ⟨⟨ob0, hob0, hnone⟩, hlater⟩ := hnew
    exact ⟨⟨ob0, by rw [getElem?_setObj_ne hba]; exact hob0, hnone⟩, hlater⟩
  have lift : ∀ (o1 : Obj), ObjExt s.cells o o1 → o1.ob.isSome = true → b ≠ a →
      Instrumented (({ s with nextDep := s.nextDep + 1 } : State).setObj a o1) s' b →
      Instrumented s s' b := by
    intro o1 he1 htag hba hi
    exact instrumented_mono (getElem?_setObj_ne hba) rfl
      (fun v => canObserve_of_extOn (e0 o1 he1 htag)) (fun v hv => hv) rfl hi
  split at h
  · rename_i s2 hw
    cases h
    by_cases hk : o.kind = .array
    · rw [if_pos hk] at hw
      have he1 : ObjExt s.cells o
          { o with ob := some { dep := s.nextDep, vmCount := 0 }, augmented := true } :=
        { kind := rfl, extensible := rfl, isVue := rfl, elems := rfl,
          tag := fun t ht => by simp [hob] at ht,
          absent := fun _ hk => hk, present := fun _ d hk => ⟨d, hk, rfl, fun hc => hc⟩ }
      obtain ⟨i1, i2⟩ := observeArrayWith_inst hobs hcar hinst _ _ _ hw
      by_cases hba : b = a
      · subst hba
        intro o' ho'
        rw [hget] at ho'
        cases ho'
        refine ⟨fun v hv hc => ?_, fun hne => absurd hk hne⟩
        rcases hv with ⟨_, hv⟩ | ⟨hne, _⟩
        · exact i1 v hv (canObserve_of_extOn (e0 _ he1 rfl) hc)
        · exact absurd hk hne
      · exact lift _ he1 rfl hba (i2 b (hnew1 _ hba))
    · rw [if_neg hk] at hw
      have he1 : ObjExt s.cells o { o with ob := some { dep := s.nextDep, vmCount := 0 } } :=
        { kind := rfl, extensible := rfl, isVue := rfl, elems := rfl,
          tag := fun t ht => by simp [hob] at ht,
          absent := fun _ hk => hk, present := fun _ d hk => ⟨d, hk, rfl, fun hc => hc⟩ }
      obtain ⟨i1, i2, i3⟩ := walkWith_inst hobs hcar hinst (objectKeys o) _ _
        { o with ob := some { dep := s.nextDep, vmCount := 0 } }
        (getElem?_setObj_self hget0) rfl
        (fun k hk => objectKeys_present o k hk) hw
      by_cases hba : b = a
      · subst hba
        intro o' ho'
        rw [hget] at ho'
        cases ho'
        refine ⟨fun v hv hc => ?_, fun _ k d hd hen hconf =>
          (i1 k (mem_objectKeys hd hen) d hd hconf).1⟩
        rcases hv with ⟨hka, _⟩ | ⟨_, k, d, hd, hen, hconf, hng, hv⟩
        · exact absurd hka hk
        · subst hv
          exact (i1 k (mem_objectKeys hd hen) d hd hconf).2 hng
            (canObserve_of_extOn (e0 _ he1 rfl) hc)
      · exact lift _ he1 rfl hba (i3 b hba (hnew1 _ hba))
  · simp at h

theorem observe_instruments : ∀ (fuel : Nat) (s : State) (v : Val) (s' : State)
    (r : Option Observer),
    observe fuel s v false = .ok (s', r) → ∀ b, newlyObserved s s' b → Instrumented s s' b := by
  intro fuel
  induction fuel with
  | zero => intro s v s' r h; simp [observe] at h
  | succ n ih =>
    intro s v s' r h b hnew
    cases v with
    | ref a =>
      simp only [observe] at h
      split at h
      · cases h; exact absurd hnew (not_newlyObserved_self s b)
      · rename_i o hget
        split at h
        · cases h; exact absurd hnew (not_newlyObserved_self s b)
        · split at h
          · simp at h
          · rename_i s1 hmade
            cases h
            split at hmade
            · cases hmade
            · rename_i hob
              split at hmade
              · split at hmade
                · simp at hmade
                · simp at hmade
              · cases hmade; exact absurd hnew (not_newlyObserved_self s b)
          · rename_i s1 ob hmade
            simp only [Bool.false_eq_true, if_false] at h
            cases h
            split at hmade
            · cases hmade; exact absurd hnew (not_newlyObserved_self s b)
            · rename_i hob
              split at hmade
              · split at hmade
                · rename_i s2 ob2 hnew2
                  cases hmade
                  exact newObserverWith_inst (fun s v s' r => observe_ext n s v s' r)
                    (fun s v s' r hh => fun hc => ((observe_carries hh).1 hc).1)
                    (fun s v s' r => ih s v s' r) hget hob hnew2 b hnew
                · simp at hmade
              · cases hmade
    | _ =>
      simp only [observe] at h
      cases h
      exact absurd hnew (not_newlyObserved_self s b)

theorem newlyObserved_of_carries {s s' : State} {a : Nat} {o : Obj}
    (hget : s.heap[a]? = some o) (hob : o.ob = none)
    (hc : carriesObserver s' (.ref a) = true) : newlyObserved s s' a := by
  refine ⟨⟨o, hget, hob⟩, ?_⟩
  simp only [carriesObserver] at hc
  split at hc
  · rename_i o' ho'
    exact ⟨o', ho', hc⟩
  · simp at hc

theorem canObserve_of_observable {s : State} {a : Nat} {o : Obj}
    (hget : s.heap[a]? = some o) (hobs : observable s o = true) :
    canObserve s (.ref a) = true := by
  have hk : o.kind ≠ .vnode := by
    intro hk
    simp [observable, hk] at hobs
  simp [canObserve, hget, hk, hobs]

theorem traverse_carries {s s' : State}
    (hinst : ∀ b, newlyObserved s s' b → Instrumented s s' b) :
    ∀ {v : Val} {b : Nat}, Traverse s v b →
      (canObserve s v = true → carriesObserver s' v = true) →
      canObserve s (.ref b) = true → carriesObserver s' (.ref b) = true := by
  intro v b ht
  induction ht with
  | here a => exact fun h => h
  | elem a o v b hget hob hobs hk hv _ ih =>
    intro hroot
    have hnew := newlyObserved_of_carries hget hob (hroot (canObserve_of_observable hget hobs))
    exact ih ((hinst a hnew o hget).1 v (.inl ⟨hk, hv⟩))
  | prop a o k d v w b hget hob hobs hk hd hbody hen hconf _ ih =>
    intro hroot
    have hnew := newlyObserved_of_carries hget hob (hroot (canObserve_of_observable hget hobs))
    refine ih ((hinst a hnew o hget).1 v (.inr ⟨by simp [hk], k, d, hd, hen, hconf, ?_, ?_⟩))
    · simp [getterOnly, hbody]
    · simp [peekDesc, hbody]

/-- C11, as the code has it: after `observe(root)`, every object found from the
root through array elements and data-valued own enumerable configurable
properties of objects that carried no Observer and passed the guard of `observe`
carries an Observer, provided `observe` accepts it (it is no virtual node, and it
already carried an Observer or is a plain object or array that is extensible
and no component instance, with observation on outside server rendering). Every
own enumerable configurable key of such an object that is plain and was given a
new Observer is a reactive slot that reads the value it read before. With no
active unit, `observe` returns when the fuel exceeds the number of objects
without an Observer. -/
theorem observe_reaches (fuel : Nat) (s : State) (r : Nat) :
    (∀ s' ob, observe fuel s (.ref r) false = .ok (s', ob) →
      (∀ b, Traverse s (.ref r) b → canObserve s (.ref b) = true →
        carriesObserver s' (.ref b) = true) ∧
      (∀ b o, Traverse s (.ref r) b → s.heap[b]? = some o → o.ob = none →
        observable s o = true → o.kind = .plain →
        ∀ k d, findProp o.props k = some d → d.enumerable = true → d.configurable = true →
          (slotAt s' b k).isSome = true ∧ peek s' b k = peek s b k)) ∧
    (s.target = none → untagged s < fuel →
      ∃ res, observe fuel s (.ref r) false = .ok res) := by
  refine ⟨fun s' ob h => ?_, fun ht hn => observe_total fuel s (.ref r) false ht hn⟩
  have hinst := observe_instruments fuel s (.ref r) s' ob h
  have hext := observe_ext fuel s (.ref r) s' ob h
  have hroot : canObserve s (.ref r) = true → carriesObserver s' (.ref r) = true :=
    fun hc => ((observe_carries h).1 hc).1
  have hall : ∀ b, Traverse s (.ref r) b → canObserve s (.ref b) = true →
      carriesObserver s' (.ref b) = true :=
    fun b hb => traverse_carries hinst hb hroot
  refine ⟨hall, ?_⟩
  intro b o hb hget hob hobs hk k d hd hen hconf
  have hnew := newlyObserved_of_carries hget hob (hall b hb (canObserve_of_observable hget hobs))
  exact ⟨(hinst b hnew o hget).2 (by simp [hk]) k d hd hen hconf, peek_of_extOn hext b k⟩

theorem observe_reaches_witness :
    (∃ res, observe 3 sampleParent (.ref 0) false = .ok res) ∧
    ∀ s' ob, observe 3 sampleParent (.ref 0) false = .ok (s', ob) →
      carriesObserver s' (.ref 1) = true ∧
      (slotAt s' 0 (.name "a")).isSome = true ∧
      peek s' 0 (.name "a") = peek sampleParent 0 (.name "a") :=
  ⟨(observe_reaches 3 sampleParent 0).2 rfl (by decide),
    fun s' ob h =>
      ⟨((observe_reaches 3 sampleParent 0).1 s' ob h).1 1
          (.prop 0 _ (.name "a") _ (.ref 1) true 1 rfl rfl rfl rfl rfl rfl rfl rfl (.here 1)) rfl,
        ((observe_reaches 3 sampleParent 0).1 s' ob h).2 0 _ (.here 0) rfl rfl rfl rfl
          (.name "a") _ rfl rfl rfl⟩⟩

/-- C11 fails as stated, in four ways. In each state the root is an unobserved
extensible plain object, and an extensible plain object is reachable from it
through data-valued own enumerable properties, yet carries no Observer after
`observe(root)`: the object behind a property that is not configurable; the
object behind an object that is not extensible; the object behind an object
that was already observed, whose key `b` is no reactive slot either; and an
object flagged as a component instance. -/
theorem observe_skips_reachable :
    (DataReach sampleFixedPath (.ref 0) 1 ∧
      sampleFixedPath.heap[1]? = some (Obj.plainOf []) ∧
      ∃ s' ob, observe 4 sampleFixedPath (.ref 0) false = .ok (s', ob) ∧
        carriesObserver s' (.ref 1) = false) ∧
    (DataReach sampleFrozenMid (.ref 0) 2 ∧
      sampleFrozenMid.heap[2]? = some (Obj.plainOf []) ∧
      ∃ s' ob, observe 4 sampleFrozenMid (.ref 0) false = .ok (s', ob) ∧
        carriesObserver s' (.ref 2) = false) ∧
    (DataReach sampleObservedMid (.ref 0) 2 ∧
      sampleObservedMid.heap[2]? = some (Obj.plainOf []) ∧
      ∃ s' ob, observe 4 sampleObservedMid (.ref 0) false = .ok (s', ob) ∧
        carriesObserver s' (.ref 2) = false ∧ slotAt s' 1 (.name "b") = none) ∧
    (DataReach sampleVmChild (.ref 0) 1 ∧
      (sampleVmChild.heap[1]?.map fun o => (o.kind, o.extensible)) = some (.plain, true) ∧
      ∃ s' ob, observe 4 sampleVmChild (.ref 0) false = .ok (s', ob) ∧
        carriesObserver s' (.ref 1) = false) :=
  ⟨⟨.prop 0 _ (.name "a") _ (.ref 1) true 1 rfl rfl rfl rfl rfl (.here 1), rfl,
      _, _, rfl, rfl⟩,
    ⟨.prop 0 _ (.name "a") _ (.ref 1) true 2 rfl rfl rfl rfl rfl
        (.prop 1 _ (.name "b") _ (.ref 2) true 2 rfl rfl rfl rfl rfl (.here 2)), rfl,
      _, _, rfl, rfl⟩,
    ⟨.prop 0 _ (.name "a") _ (.ref 1) true 2 rfl rfl rfl rfl rfl
        (.prop 1 _ (.name "b") _ (.ref 2) true 2 rfl rfl rfl rfl rfl (.here 2)), rfl,
      _, _, rfl, rfl, rfl⟩,
    ⟨.prop 0 _ (.name "a") _ (.ref 1) true 1 rfl rfl rfl rfl rfl (.here 1), rfl,
      _, _, rfl, rfl⟩⟩

/-! ## `del` on an array -/

theorem splice_one_eq (elems : List Val) (k : Nat) :
    elems.take (clampStart elems.length (k : Int)) ++ ([] : List Val) ++
        elems.drop (clampStart elems.length (k : Int) +
          min (Int.toNat 1) (elems.length - clampStart elems.length (k : Int))) =
      elems.eraseIdx k := by
  have hc : clampStart elems.length (k : Int) = min k elems.length := by
    unfold clampStart
    have : ¬ ((k : Int) < 0) := by omega
    simp only [this, if_false, Int.toNat_ofNat]
  have h1 : Int.toNat 1 = 1 := rfl
  rw [hc, h1, List.append_nil]
  by_cases hlt : k < elems.length
  · have hm : min k elems.length = k := by omega
    have hn : min 1 (elems.length - k) = 1 := by omega
    rw [hm, hn, List.eraseIdx_eq_take_drop_succ]
  · have hm : min k elems.length = elems.length := by omega
    rw [hm, List.eraseIdx_of_length_le (by omega)]
    simp

theorem nativeSplice_remove {s : State} {target : Nat} {o : Obj} (k : Nat)
    (hget : s.heap[target]? = some o) (hk : o.kind = .array) :
    ∃ s1 r, nativeSplice s target [.num k, .num 1] = .ok (s1, r) ∧
      arrayElems s1 target = some (o.elems.eraseIdx k) ∧
      ∃ o1, s1.heap[target]? = some o1 ∧ o1.ob = o.ob := by
  have hE : arrayElems s target = some o.elems := by
    unfold arrayElems
    rw [hget]
    simp [hk]
  have hG : growthError s target (o.elems.eraseIdx k).length = none :=
    growthError_none hget (Or.inl (List.Sublist.length_le (List.eraseIdx_sublist _ _)))
  unfold nativeSplice
  simp only [hE, toInteger, List.drop_succ_cons, List.drop_nil]
  rw [splice_one_eq, hG]
  refine ⟨_, _, rfl, ?_, ?_⟩
  · exact arrayElems_setElems_self (getElem?_allocArray hget _) hk _
  · refine ⟨{ o with elems := o.elems.eraseIdx k }, ?_, rfl⟩
    unfold setElems
    simp only [getElem?_allocArray hget]
    exact getElem?_setObj_self (getElem?_allocArray hget _)

theorem del_array_eq {fuel : Nat} {s : State} {target : Nat} {o : Obj} (k : Nat)
    (hget : s.heap[target]? = some o) (hk : o.kind = .array) :
    del fuel s target (.index k) =
      match callSplice fuel s target [.num k, .num 1] with
      | .ok (s1, _) => .ok s1
      | .error e => .error e := by
  simp only [del, hget, Key.reserved, hk, isValidArrayIndex, if_true, Bool.false_eq_true,
    if_false]

theorem callSplice_remove (fuel : Nat) {s : State} {target : Nat} {o : Obj} (k : Nat)
    (hget : s.heap[target]? = some o) (hk : o.kind = .array)
    (haug : o.augmented = true → o.ob.isSome = true) :
    ∃ s' r, callSplice fuel s target [.num k, .num 1] = .ok (s', r) ∧
      arrayElems s' target = some (o.elems.eraseIdx k) := by
  obtain ⟨s1, r1, hn, hE1, o1, ho1, hob1⟩ := nativeSplice_remove k hget hk
  unfold callSplice
  rw [hget]
  dsimp only
  by_cases ha : o.augmented = true
  · rw [if_pos ha]
    obtain ⟨t, ht⟩ := Option.isSome_iff_exists.mp (haug ha)
    have hb : (s1.heap[target]?).bind (fun o => o.ob) = some t := by
      simp [ho1, hob1, ht]
    unfold mutator
    simp only [hn, hb, inserted, List.drop_succ_cons, List.drop_nil, observeArray,
      observeArrayWith]
    exact ⟨_, _, rfl, hE1⟩
  · rw [if_neg ha]
    exact ⟨s1, r1, hn, hE1⟩

/-- C21: on an array target, `del(target, k)` with an index `k` returns and
leaves the array with the elements it had without the one at index `k`. When
`k` is below the length the array is one shorter, the elements before `k` are
unchanged and each later element has moved down by one; when `k` is at or
beyond the length the elements are unchanged. (An intercepted array carries its
Observer.) -/
theorem del_on_array (fuel : Nat) (s : State) (target : Nat) (o : Obj) (k : Nat)
    (hget : s.heap[target]? = some o) (hk : o.kind = .array)
    (haug : o.augmented = true → o.ob.isSome = true) :
    ∃ s' elems, del fuel s target (.index k) = .ok s' ∧ arrayElems s' target = some elems ∧
      (k < o.elems.length →
        elems.length + 1 = o.elems.length ∧
        (∀ i, i < k → elems[i]? = o.elems[i]?) ∧
        (∀ i, k ≤ i → elems[i]? = o.elems[i + 1]?)) ∧
      (o.elems.length ≤ k → elems = o.elems) := by
  obtain ⟨s', r, h, hE⟩ := callSplice_remove fuel k hget hk haug
  refine ⟨s', o.elems.eraseIdx k, ?_, hE, ?_, fun hle => List.eraseIdx_of_length_le hle⟩
  · rw [del_array_eq k hget hk, h]
  · intro hlt
    refine ⟨?_, ?_, ?_⟩
    · rw [List.length_eraseIdx, if_pos hlt]
      omega
    · intro i hi
      rw [List.getElem?_eraseIdx, if_pos hi]
    · intro i hi
      rw [List.getElem?_eraseIdx, if_neg (by omega)]

theorem del_on_array_witness :
    ∃ s' elems, del 0 sampleArray2 0 (.index 0) = .ok s' ∧ arrayElems s' 0 = some elems ∧
      (0 < 2 → elems.length + 1 = 2 ∧ (∀ i, i < 0 → elems[i]? = [Val.num 1, .num 2][i]?) ∧
        (∀ i, 0 ≤ i → elems[i]? = [Val.num 1, .num 2][i + 1]?)) ∧
      (2 ≤ 0 → elems = [.num 1, .num 2]) :=
  del_on_array 0 sampleArray2 0
    { Obj.arrayOf [.num 1, .num 2] with ob := some { dep := 0, vmCount := 0 }, augmented := true }
    0 (by decide) rfl (fun _ => rfl)

/-! ## Shallow slots -/

theorem carriesObserver_of_heap {s s' : State} (h : s'.heap = s.heap) (w : Val) :
    carriesObserver s' w = carriesObserver s w := by
  cases w <;> simp only [carriesObserver, h]

theorem makeSlot_base (c : Closure) (property : Option Desc)
    (h : ∀ d slot, property = some d → d.body ≠ .reactive slot) :
    ∃ g st, makeSlot c property = .base c g st := by
  cases property with
  | none => exact ⟨none, none, rfl⟩
  | some d =>
    cases hb : d.body with
    | data v w => exact ⟨none, none, by simp [makeSlot, hb]⟩
    | accessor g st => exact ⟨g, st, by simp [makeSlot, hb]⟩
    | reactive slot => exact absurd hb (h d slot rfl)

theorem modifySlot_base {s : State} {obj : Nat} {key : Key} {c : Closure} {g st : Option Nat}
    (h : slotAt s obj key = some (.base c g st)) (f : Closure → Closure) :
    slotAt (s.modifySlot obj key c.dep f) obj key = some (.base (f c) g st) ∧
    ∀ w, carriesObserver (s.modifySlot obj key c.dep f) w = carriesObserver s w := by
  obtain ⟨o, desc, ho, hd, hb⟩ := slotAt_some h
  simp only [State.modifySlot, ho, hd, hb]
  refine ⟨?_, fun w => carriesObserver_setObj ho (by rfl) w⟩
  simp only [slotAt, getElem?_setObj_self ho, findProp_putProp, if_true, Slot.modify]

theorem shallow_define {s : State} {obj : Nat} {key : Key} {o : Obj} (fuel : Nat) (v : Val)
    (cs : Bool) (hget : s.heap[obj]? = some o)
    (hpresent : ∀ d, findProp o.props key = some d →
      d.configurable = true ∧ ∀ slot, d.body ≠ .reactive slot)
    (habsent : findProp o.props key = none → o.extensible = true) :
    ∃ s' c g st, defineReactive fuel s obj key (some v) cs true = .ok s' ∧
      slotAt s' obj key = some (.base c g st) ∧ c.dep = s.nextDep ∧ c.shallow = true ∧
      c.childOb = none ∧ ∀ w, carriesObserver s' w = carriesObserver s w := by
  have hget1 : ({ s with nextDep := s.nextDep + 1 } : State).heap[obj]? = some o := hget
  obtain ⟨g, st, hm⟩ := makeSlot_base
    { dep := s.nextDep, val := v, childOb := none, shallow := true, customSetter := cs }
    (findProp o.props key) (fun d slot hd => (hpresent d hd).2 slot)
  have hskip : (match findProp o.props key with
      | some d => !d.configurable
      | none => false) = false := by
    cases hd : findProp o.props key with
    | none => rfl
    | some d => simp [(hpresent d hd).1]
  have hdef : ∀ nd : Desc, defineProperty { s with nextDep := s.nextDep + 1 } obj key nd =
      .ok (({ s with nextDep := s.nextDep + 1 } : State).setObj obj
        { o with props := putProp o.props key nd }) := by
    intro nd
    unfold defineProperty
    rw [hget1]
    dsimp only
    cases hd : findProp o.props key with
    | none => dsimp only; rw [if_pos (habsent hd)]
    | some d => dsimp only; rw [if_pos (hpresent d hd).1]
  unfold defineReactive defineReactiveWith
  simp only [newDep, hget1, hskip, Bool.false_eq_true, if_false, if_true, hdef, hm]
  refine ⟨_, { dep := s.nextDep, val := v, childOb := none, shallow := true, customSetter := cs },
    g, st, rfl, ?_, rfl, rfl, rfl, fun w => ?_⟩
  · simp only [slotAt, getElem?_setObj_self hget1, findProp_putProp, if_true]
  · rw [carriesObserver_setObj hget1 (by rfl)]
    rfl

theorem finishSet_shallow (obs : State → Val → Except Err (State × Option Observer))
    {s2 : State} {obj : Nat} {key : Key} {c : Closure} {g st : Option Nat}
    (hsh : c.shallow = true) (hslot : slotAt s2 obj key = some (.base c g st)) (newVal : Val) :
    ∃ t', finishSet obs c obj key s2 newVal = .ok t' ∧
      slotAt t' obj key = some (.base { c with childOb := none } g st) ∧
      ∀ w, carriesObserver t' w = carriesObserver s2 w := by
  obtain ⟨m1, m2⟩ := modifySlot_base hslot (fun x => { x with childOb := none })
  unfold finishSet
  rw [if_pos hsh]
  exact ⟨_, rfl, m1, m2⟩

theorem shallow_write {fuel : Nat} {t : State} {obj : Nat} {key : Key} {c : Closure}
    {g st : Option Nat}
    (hslot : slotAt t obj key = some (.base c g st)) (hsh : c.shallow = true)
    (hch : c.childOb = none) (newVal : Val) :
    ∃ t' c', assign fuel t obj key newVal = .ok t' ∧
      slotAt t' obj key = some (.base c' g st) ∧ c'.dep = c.dep ∧ c'.shallow = true ∧
      c'.childOb = none ∧ ∀ w, carriesObserver t' w = carriesObserver t w := by
  rw [assign_reactive hslot]
  simp only [reactiveSetter]
  obtain ⟨_, _, c3, _⟩ := callCustomSetter_spec c t
  have hslot1 : slotAt (callCustomSetter c t) obj key = some (.base c g st) := by
    simp only [slotAt, c3]; exact hslot
  split
  · exact ⟨t, c, rfl, hslot, rfl, hsh, hch, fun _ => rfl⟩
  · cases st with
    | some cell =>
      have hx : slotAt ({ callCustomSetter c t with
          cells := (callCustomSetter c t).cells.set cell newVal }.log
            (.setterCall cell newVal)) obj key = some (.base c g (some cell)) := hslot1
      obtain ⟨t', h1, h2, h3⟩ :=
        finishSet_shallow (fun s1 v => observe fuel s1 v false) hsh hx newVal
      refine ⟨t', { c with childOb := none }, ?_, h2, rfl, hsh, rfl,
        fun w => (h3 w).trans (carriesObserver_of_heap c3 w)⟩
      cases g <;> exact h1
    | none =>
      cases g with
      | some cell =>
        exact ⟨_, c, rfl, hslot1, rfl, hsh, hch, fun w => carriesObserver_of_heap c3 w⟩
      | none =>
        obtain ⟨m1, m2⟩ := modifySlot_base hslot1 (fun x => { x with val := newVal })
        have m1' : slotAt ((callCustomSetter c t).modifySlot obj key c.dep
            (fun x => { x with val := newVal })) obj key =
            some (.base { c with val := newVal } none none) := m1
        obtain ⟨t', h1, h2, h3⟩ :=
          finishSet_shallow (fun s1 v => observe fuel s1 v false)
            (show ({ c with val := newVal } : Closure).shallow = true from hsh) m1' newVal
        exact ⟨t', _, h1, h2, rfl, hsh, rfl,
          fun w => (h3 w).trans ((m2 w).trans (carriesObserver_of_heap c3 w))⟩

theorem shallow_read {fuel : Nat} {t : State} {obj : Nat} {key : Key} {c : Closure}
    {g st : Option Nat}
    (hslot : slotAt t obj key = some (.base c g st)) (hch : c.childOb = none)
    (ht : t.target.isSome = true) :
    getProp fuel t obj key =
      .ok ({ t with trace := t.trace ++ [.depend c.dep] }, peekSlot t.cells (.base c g st)) := by
  obtain ⟨o, desc, ho, hd, hb⟩ := slotAt_some hslot
  simp only [getProp, ho, hd, hb, reactiveGetter, collect, ht, if_true, hch]
  cases g <;> rfl

/-- C24, as the code has it: `defineReactive` with the shallow flag on a
property that is absent (on an extensible object) or configurable and not
already a reactive slot installs a slot that retains no Observer and gives no
value an Observer. Every later write to such a slot returns, leaves the slot
shallow without a retained Observer and gives no value an Observer, and a read
by an active unit calls depend on the registry of the slot and on nothing else. -/
theorem shallow_slot_observes_nothing (fuel : Nat) (s : State) (obj : Nat) (key : Key)
    (o : Obj) (v : Val) (customSetter : Bool)
    (hget : s.heap[obj]? = some o)
    (hpresent : ∀ d, findProp o.props key = some d →
      d.configurable = true ∧ ∀ slot, d.body ≠ .reactive slot)
    (habsent : findProp o.props key = none → o.extensible = true) :
    ∃ s' c g st, defineReactive fuel s obj key (some v) customSetter true = .ok s' ∧
      slotAt s' obj key = some (.base c g st) ∧ c.dep = s.nextDep ∧ c.shallow = true ∧
      c.childOb = none ∧ (∀ w, carriesObserver s' w = carriesObserver s w) ∧
      ∀ (t : State) (c1 : Closure), slotAt t obj key = some (.base c1 g st) →
        c1.shallow = true → c1.childOb = none →
        (∀ newVal, ∃ t' c2, assign fuel t obj key newVal = .ok t' ∧
          slotAt t' obj key = some (.base c2 g st) ∧ c2.dep = c1.dep ∧ c2.shallow = true ∧
          c2.childOb = none ∧ ∀ w, carriesObserver t' w = carriesObserver t w) ∧
        (t.target.isSome = true →
          getProp fuel t obj key =
            .ok ({ t with trace := t.trace ++ [.depend c1.dep] },
              peekSlot t.cells (.base c1 g st))) := by
  obtain ⟨s', c, g, st, h1, h2, h3, h4, h5, h6⟩ :=
    shallow_define fuel v customSetter hget hpresent habsent
  exact ⟨s', c, g, st, h1, h2, h3, h4, h5, h6, fun t c1 hslot hsh hch =>
    ⟨fun newVal => shallow_write hslot hsh hch newVal, fun ht => shallow_read hslot hch ht⟩⟩

theorem shallow_slot_observes_nothing_witness :
    ∃ s' c g st, defineReactive 0 sampleBare 0 (.name "a") (some (.ref 0)) false true = .ok s' ∧
      slotAt s' 0 (.name "a") = some (.base c g st) ∧ c.dep = sampleBare.nextDep ∧
      c.shallow = true ∧ c.childOb = none ∧
      ∀ w, carriesObserver s' w = carriesObserver sampleBare w := by
  obtain ⟨s', c, g, st, h1, h2, h3, h4, h5, h6, _⟩ :=
    shallow_slot_observes_nothing 0 sampleBare 0 (.name "a") (Obj.plainOf []) (.ref 0) false rfl
      (fun d hd => by cases hd) (fun _ => rfl)
  exact ⟨s', c, g, st, h1, h2, h3, h4, h5, h6⟩

/-- C24 fails as stated: the property `a` is already a reactive slot (registry
1) that is not shallow. `defineReactive(obj, "a", 1, null, true)` wraps it in a
shallow slot (registry 2). Writing the unobserved plain object at address 1 to
the property goes through the wrapped setter, which observes it (registry 3),
and a read by an active unit calls depend on the registries 1, 3 and 2. -/
theorem shallow_slot_over_deep_slot_observes :
    ∃ s1 s2 s3, defineReactive 3 sampleDeep 0 (.name "a") (some (.num 1)) false true = .ok s1 ∧
      (slotAt s1 0 (.name "a")).map (fun slot => slot.closure.shallow) = some true ∧
      carriesObserver s1 (.ref 1) = false ∧
      assign 3 s1 0 (.name "a") (.ref 1) = .ok s2 ∧
      carriesObserver s2 (.ref 1) = true ∧
      getProp 3 { s2 with target := some 0 } 0 (.name "a") = .ok (s3, .ref 1) ∧
      s3.trace = s2.trace ++ [.depend 1, .depend 3, .depend 2] :=
  ⟨_, _, _, rfl, rfl, rfl, rfl, rfl, rfl, rfl⟩

/-! ## `observe` returns -/

theorem depthWithin_succ (heap : List Obj) : ∀ (n : Nat) (l : List Val),
    depthWithin n heap l = true → depthWithin (n + 1) heap l = true := by
  intro n
  induction n with
  | zero => intro l h; simp [depthWithin] at h
  | succ n ih =>
    intro l h
    simp only [depthWithin, List.all_eq_true] at h ⊢
    intro e he
    have h1 := h e he
    cases e with
    | ref a =>
      dsimp only at h1 ⊢
      cases ho : heap[a]? with
      | none => rfl
      | some o =>
        rw [ho] at h1
        dsimp only at h1 ⊢
        by_cases hk : o.kind = .array
        · rw [if_pos hk] at h1 ⊢
          exact ih _ h1
        · rw [if_neg hk]
    | _ => rfl

theorem depthWithin_mono (heap : List Obj) {n m : Nat} (hnm : n ≤ m) (l : List Val)
    (h : depthWithin n heap l = true) : depthWithin m heap l = true := by
  induction hnm with
  | refl => exact h
  | step _ ih => exact depthWithin_succ heap _ l ih

theorem all_congr_of_mem {α : Type} (f g : α → Bool) : ∀ (l : List α),
    (∀ x ∈ l, f x = g x) → l.all f = l.all g := by
  intro l
  induction l with
  | nil => intro _; rfl
  | cons x rest ih =>
    intro h
    simp only [List.all_cons]
    rw [h x (List.mem_cons_self _ _), ih (fun y hy => h y (List.mem_cons_of_mem _ hy))]

theorem depthWithin_of_extOn {F : Nat → Prop} {s s' : State} (e : ExtOn F s s') :
    ∀ (n : Nat) (l : List Val), depthWithin n s'.heap l = depthWithin n s.heap l := by
  intro n
  induction n with
  | zero => intro l; rfl
  | succ n ih =>
    intro l
    simp only [depthWithin]
    apply all_congr_of_mem
    intro e' _
    cases e' with
    | ref a =>
      dsimp only
      cases ho : s.heap[a]? with
      | none =>
        have : s'.heap[a]? = none := by
          rw [List.getElem?_eq_none_iff] at ho ⊢
          rw [e.len]; exact ho
        rw [this]
      | some o =>
        obtain ⟨o', ho', hoe⟩ := e.obj a o ho
        rw [ho']
        dsimp only
        rw [hoe.kind, hoe.elems, ih]
    | _ => rfl

theorem calm_of_extOn {F : Nat → Prop} {s s' : State} {d : Nat} (e : ExtOn F s s')
    (h : Calm d s) : Calm d s' := by
  rcases h with h | h
  · exact .inl (e.target.trans h)
  · right
    intro a o' ho' hk
    have hlt : a < s.heap.length := by
      rw [← e.len]
      by_contra hge
      rw [List.getElem?_eq_none (by omega)] at ho'
      cases ho'
    have hso : s.heap[a]? = some (s.heap[a]) := List.getElem?_eq_getElem hlt
    obtain ⟨o2, ho2, hoe⟩ := e.obj a _ hso
    rw [ho'] at ho2
    cases ho2
    rw [depthWithin_of_extOn e, hoe.elems]
    exact h a _ hso (hoe.kind ▸ hk)

theorem getProp_calm {fuel d : Nat} (s : State) (obj : Nat) (key : Key) (hc : Calm d s)
    (hd : d ≤ fuel) : ∃ s', getProp fuel s obj key = .ok (s', peek s obj key) := by
  rcases hc with h | h
  · exact ⟨s, getProp_quiet fuel s obj key h⟩
  · exact getProp_total fuel s obj key
      (fun a o _ ho hk => depthWithin_mono s.heap hd _ (h a o ho hk))

theorem defineReactiveWith_returns {obs : State → Val → Except Err (State × Option Observer)}
    (fuel : Nat) {n d : Nat}
    (hobs : ∀ s v s' r, obs s v = .ok (s', r) → Ext s s')
    (htot : ∀ s v, Calm d s → untagged s + d < n → ∃ res, obs s v = .ok res)
    {s : State} {obj : Nat} {key : Key} {o : Obj}
    (hget : s.heap[obj]? = some o) (hkey : (findProp o.props key).isSome = true)
    (hc : Calm d s) (hn : untagged s + d < n) (hdf : d ≤ fuel) :
    ∃ s', defineReactiveWith obs fuel s obj key none false false = .ok s' := by
  obtain ⟨dk, hd⟩ := Option.isSome_iff_exists.mp hkey
  unfold defineReactiveWith
  simp only [newDep]
  have hget1 : ({ s with nextDep := s.nextDep + 1 } : State).heap[obj]? = some o := hget
  rw [hget1]
  simp only [hd]
  split
  · exact ⟨_, rfl⟩
  · rename_i hconf
    simp at hconf
    have hc0 : Calm d { s with nextDep := s.nextDep + 1 } := hc
    have hread : ∃ s1 v, (if getterOnly (some dk) = true then
          (Except.ok (({ s with nextDep := s.nextDep + 1 } : State), Val.undefined) :
            Except Err (State × Val))
        else getProp fuel { s with nextDep := s.nextDep + 1 } obj key) = .ok (s1, v) ∧
          Ext { s with nextDep := s.nextDep + 1 } s1 ∧
          s1.heap = ({ s with nextDep := s.nextDep + 1 } : State).heap := by
      split
      · exact ⟨_, _, rfl, ExtOn.nothing _ _, rfl⟩
      · obtain ⟨s1, h1⟩ := getProp_calm { s with nextDep := s.nextDep + 1 } obj key hc0 hdf
        obtain ⟨r1, _, r3⟩ := getProp_spec h1
        exact ⟨s1, _, h1, ExtOn.of_reads r1 r3, r1.heap_eq⟩
    obtain ⟨s1, v, hv, e1, hh1⟩ := hread
    rw [hv]
    simp only [Bool.false_eq_true, if_false]
    have hu1 : untagged s1 = untagged s := by unfold untagged; rw [hh1]
    obtain ⟨⟨s2, childOb⟩, hchild⟩ := htot s1 v (calm_of_extOn e1 hc0) (by rw [hu1]; exact hn)
    rw [hchild]
    simp only
    have e2 : Ext { s with nextDep := s.nextDep + 1 } s2 := e1.chain (hobs _ _ _ _ hchild)
    obtain ⟨o2, ho2, hoe⟩ := e2.obj obj o hget1
    obtain ⟨d2, hd2, _, hc2⟩ := hoe.present key dk hd
    unfold defineProperty
    rw [ho2]
    simp only [hd2, hc2 hconf, if_true]
    exact ⟨_, rfl⟩

theorem walkWith_returns {obs : State → Val → Except Err (State × Option Observer)}
    (fuel : Nat) {n d : Nat}
    (hobs : ∀ s v s' r, obs s v = .ok (s', r) → Ext s s')
    (htot : ∀ s v, Calm d s → untagged s + d < n → ∃ res, obs s v = .ok res)
    (hdf : d ≤ fuel) {obj : Nat} :
    ∀ (keys : List Key) (s : State) (o : Obj), s.heap[obj]? = some o →
      o.ob.isSome = true →
      (∀ k ∈ keys, (findProp o.props k).isSome = true) →
      Calm d s → untagged s + d < n →
      ∃ s', walkWith obs fuel obj s keys = .ok s' := by
  intro keys
  induction keys with
  | nil => intro s o _ _ _ _ _; exact ⟨s, rfl⟩
  | cons k rest ih =>
    intro s o hget htag hkeys hc hn
    simp only [walkWith]
    obtain ⟨s1, h1⟩ := defineReactiveWith_returns fuel hobs htot hget
      (hkeys k (List.mem_cons_self _ _)) hc hn hdf
    rw [h1]
    have e1 : ExtOn (fun b => b = obj) s s1 :=
      defineReactiveWith_ext hobs hget (hkeys k (List.mem_cons_self _ _)) rfl htag h1
    obtain ⟨o1, ho1, hoe⟩ := e1.obj obj o hget
    have htag1 : o1.ob.isSome = true := by
      obtain ⟨t, ht⟩ := Option.isSome_iff_exists.mp htag
      rw [hoe.tag t ht]; rfl
    refine ih s1 o1 ho1 htag1 ?_ (calm_of_extOn e1 hc)
      (Nat.lt_of_le_of_lt (Nat.add_le_add_right (untagged_le_of_extOn e1) d) hn)
    intro k' hk'
    obtain ⟨dk, hd⟩ := Option.isSome_iff_exists.mp (hkeys k' (List.mem_cons_of_mem _ hk'))
    obtain ⟨d', hd', _⟩ := hoe.present k' dk hd
    simp [hd']

theorem observeArrayWith_returns {obs : State → Val → Except Err (State × Option Observer)}
    {n d : Nat}
    (hobs : ∀ s v s' r, obs s v = .ok (s', r) → Ext s s')
    (htot : ∀ s v, Calm d s → untagged s + d < n → ∃ res, obs s v = .ok res) :
    ∀ (items : List Val) (s : State), Calm d s → untagged s + d < n →
      ∃ s', observeArrayWith obs s items = .ok s' := by
  intro items
  induction items with
  | nil => intro s _ _; exact ⟨s, rfl⟩
  | cons v rest ih =>
    intro s hc hn
    simp only [observeArrayWith]
    obtain ⟨⟨s1, r⟩, h1⟩ := htot s v hc hn
    rw [h1]
    have e1 : Ext s s1 := hobs _ _ _ _ h1
    exact ih s1 (calm_of_extOn e1 hc)
      (Nat.lt_of_le_of_lt (Nat.add_le_add_right (untagged_le_of_extOn e1) d) hn)

theorem newObserverWith_returns {obs : State → Val → Except Err (State × Option Observer)}
    (fuel : Nat) {n d : Nat}
    (hobs : ∀ s v s' r, obs s v = .ok (s', r) → Ext s s')
    (htot : ∀ s v, Calm d s → untagged s + d < n → ∃ res, obs s v = .ok res)
    (hdf : d ≤ fuel)
    {s : State} {a : Nat} {o : Obj} (hget : s.heap[a]? = some o) (hob : o.ob = none)
    (hc : Calm d s) (hn : untagged s + d < n + 1) :
    ∃ res, newObserverWith obs fuel s a o = .ok res := by
  unfold newObserverWith
  simp only [newDep, augment_eq]
  have hget0 : ({ s with nextDep := s.nextDep + 1 } : State).heap[a]? = some o := hget
  have hu : ∀ o1 : Obj, o1.ob.isSome = true →
      untagged (({ s with nextDep := s.nextDep + 1 } : State).setObj a o1) + d < n := by
    intro o1 h1
    have := untagged_setObj_tag hget0 hob h1
    have hs : untagged ({ s with nextDep := s.nextDep + 1 } : State) = untagged s := rfl
    omega
  have hcalm : ∀ o1 : Obj, ObjExt s.cells o o1 → o1.ob.isSome = true →
      Calm d (({ s with nextDep := s.nextDep + 1 } : State).setObj a o1) :=
    fun o1 he1 htag => calm_of_extOn
      ((extOn_newDep (fun x => x = a) s).chain (extOn_setObj hget0 he1 (Or.inl rfl) htag)) hc
  by_cases hk : o.kind = .array
  · rw [if_pos hk]
    have he1 : ObjExt s.cells o
        { o with ob := some { dep := s.nextDep, vmCount := 0 }, augmented := true } :=
      { kind := rfl, extensible := rfl, isVue := rfl, elems := rfl,
        tag := fun t ht => by simp [hob] at ht,
        absent := fun _ hk => hk, present := fun _ d hk => ⟨d, hk, rfl, fun hc => hc⟩ }
    obtain ⟨s2, h2⟩ := observeArrayWith_returns hobs htot o.elems
      (({ s with nextDep := s.nextDep + 1 } : State).setObj a
        { o with ob := some { dep := s.nextDep, vmCount := 0 }, augmented := true })
      (hcalm _ he1 rfl) (hu _ rfl)
    rw [h2]
    exact ⟨_, rfl⟩
  · rw [if_neg hk]
    have he1 : ObjExt s.cells o { o with ob := some { dep := s.nextDep, vmCount := 0 } } :=
      { kind := rfl, extensible := rfl, isVue := rfl, elems := rfl,
        tag := fun t ht => by simp [hob] at ht,
        absent := fun _ hk => hk, present := fun _ d hk => ⟨d, hk, rfl, fun hc => hc⟩ }
    obtain ⟨s2, h2⟩ := walkWith_returns fuel hobs htot hdf (objectKeys o)
      (({ s with nextDep := s.nextDep + 1 } : State).setObj a
        { o with ob := some { dep := s.nextDep, vmCount := 0 } })
      _ (getElem?_setObj_self hget0) rfl (fun k hk => objectKeys_present o k hk)
      (hcalm _ he1 rfl) (hu _ rfl)
    rw [h2]
    exact ⟨_, rfl⟩

theorem observe_returns : ∀ (fuel d : Nat) (s : State) (v : Val) (r : Bool),
    Calm d s → untagged s + d < fuel → ∃ res, observe fuel s v r = .ok res := by
  intro fuel
  induction fuel with
  | zero => intro d s v r _ h; omega
  | succ n ih =>
    intro d s v r hc hn
    cases v with
    | ref a =>
      simp only [observe]
      split
      · exact ⟨_, rfl⟩
      · rename_i o hget
        split
        · exact ⟨_, rfl⟩
        · cases hob : o.ob with
          | some t =>
            simp only
            cases r <;> exact ⟨_, rfl⟩
          | none =>
            simp only
            by_cases hobs : observable s o = true
            · obtain ⟨⟨s1, ob⟩, h1⟩ := newObserverWith_returns n
                (fun s v s' r => observe_ext n s v s' r)
                (fun s v hc hn => ih d s v false hc hn) (by omega) hget hob hc hn
              rw [if_pos hobs, h1]
              simp only
              cases r <;> exact ⟨_, rfl⟩
            · rw [if_neg hobs]
              exact ⟨_, rfl⟩
    | _ => exact ⟨_, rfl⟩

theorem dependArray_loop {a : Nat} {o : Obj} (hk : o.kind = .array) (he : o.elems = [.ref a]) :
    ∀ (fuel : Nat) (s : State), s.heap[a]? = some o →
      dependArray fuel s [.ref a] = .error .fuel := by
  intro fuel
  induction fuel with
  | zero => intro s _; simp [dependArray]
  | succ n ih =>
    intro s hget
    simp only [dependArray, hget, hk, if_true]
    have h1 : (match o.ob with | some t => depDepend s t.dep | none => s).heap[a]? = some o := by
      cases o.ob <;> exact hget
    rw [he, ih _ h1]

theorem observe_loops (fuel : Nat) :
    observe fuel { sampleLoopSlot with target := some 0 } (.ref 0) false = .error .fuel := by
  cases fuel with
  | zero => rfl
  | succ n =>
    have hd : ∀ (s : State), s.heap[1]? = some
        { kind := .array, extensible := true, isVue := false, props := [], elems := [.ref 1],
          ob := some { dep := 1, vmCount := 0 }, augmented := true, inherited := [], inheritedFixed := [] } →
        dependArray n s [.ref 1] = .error .fuel :=
      fun s hs => dependArray_loop rfl rfl n s hs
    simp [observe, newObserverWith, walkWith, defineReactiveWith, getProp, reactiveGetter,
      collect, sampleLoopSlot, State.initial, newDep, objectKeys, Obj.plainOf, Obj.arrayOf,
      Desc.reactiveOf, observable, State.setObj, findProp, getterOnly, depDepend, State.log, hd]

/-- Where the recursion of `dependArray` is out of play, `observe` terminates:
when no evaluation unit is active, or no array is
nested in itself through its elements (the arrays nest less than `d` deep),
`observe` returns once the fuel exceeds the number of objects without an
Observer plus `d`, on every heap, cyclic ones included. Every Observer that
existed is kept, an object gains an Observer only if it is reached from the
value through objects without an Observer, every object reached through array
elements and instrumented properties that `observe` accepts carries an Observer
afterwards, and a second call returns the same result and changes nothing. -/
theorem observe_terminates (fuel d : Nat) (s : State) (v : Val) (hc : Calm d s)
    (hf : untagged s + d < fuel) :
    ∃ s' r, observe fuel s v false = .ok (s', r) ∧
      (∀ (a : Nat) (o : Obj) (t : Tag), s.heap[a]? = some o → o.ob = some t →
        ∃ o' : Obj, s'.heap[a]? = some o' ∧ o'.ob = some t) ∧
      (∀ b, newlyObserved s s' b → Reach s v b) ∧
      (∀ b, Traverse s v b → canObserve s (.ref b) = true →
        carriesObserver s' (.ref b) = true) ∧
      observe fuel s' v false = .ok (s', r) := by
  obtain ⟨⟨s', r⟩, h⟩ := observe_returns fuel d s v false hc hf
  have hext := observe_ext fuel s v s' r h
  refine ⟨s', r, h, ?_, observe_reach fuel s v s' r h, ?_, ?_⟩
  · intro a o t ho ht
    obtain ⟨o', ho', hoe⟩ := hext.obj a o ho
    exact ⟨o', ho', hoe.tag t ht⟩
  · exact fun b hb => traverse_carries (observe_instruments fuel s v s' r h) hb
      (fun hcan => ((observe_carries h).1 hcan).1)
  · rcases observe_cases h with ⟨hr, hs, _⟩ | ⟨a, o, o', t, hv, hget, hk, _, ho', ht', hr⟩
    · subst hs; exact h
    · obtain ⟨o2, ho2, hoe⟩ := hext.obj a o hget
      rw [ho'] at ho2
      cases ho2
      have hk' : o'.kind ≠ .vnode := by rw [hoe.kind]; exact hk
      cases fuel with
      | zero => omega
      | succ n =>
        rw [hv, hr, observe_tagged n ho' hk' ht' false]
        rfl

theorem observe_terminates_witness :
    ∃ s' r, observe 3 sampleCycle (.ref 0) false = .ok (s', r) ∧
      (∀ (a : Nat) (o : Obj) (t : Tag), sampleCycle.heap[a]? = some o → o.ob = some t →
        ∃ o' : Obj, s'.heap[a]? = some o' ∧ o'.ob = some t) ∧
      (∀ b, newlyObserved sampleCycle s' b → Reach sampleCycle (.ref 0) b) ∧
      (∀ b, Traverse sampleCycle (.ref 0) b → canObserve sampleCycle (.ref b) = true →
        carriesObserver s' (.ref b) = true) ∧
      observe 3 s' (.ref 0) false = .ok (s', r) :=
  observe_terminates 3 0 sampleCycle (.ref 0) (.inl rfl) (by decide)

/-- C22 (a defect of the code): `observe` does not terminate on every finite
cyclic graph. `defineReactive(obj, "a", x)` on the unobserved object `obj` with
the array `x = [x]` returns and leaves the slot `a` retaining the Observer of
`x`. With an evaluation unit active, `observe(obj)` then reads `obj.a` through
that slot, whose getter runs `dependArray(x)`, which, unlike `observe`, has no
guard against a value it has met and calls itself on `x[0] = x` without end:
for no amount of fuel does `observe` return. -/
theorem observe_never_returns :
    defineReactive 2 sampleLoop 0 (.name "a") (some (.ref 1)) false false = .ok sampleLoopSlot ∧
    ∀ fuel, observe fuel { sampleLoopSlot with target := some 0 } (.ref 0) false =
      .error .fuel :=
  ⟨rfl, observe_loops⟩

/-! ## `getData` restores the stack -/

theorem popTarget_pushTarget (st : EvalStack) (unit : Option Nat) :
    popTarget (pushTarget st unit) = st := by
  simp [popTarget, pushTarget]

theorem activeUnit_pushTarget (st : EvalStack) (unit : Option Nat) :
    activeUnit (pushTarget st unit) = unit := by
  simp [activeUnit, pushTarget]

/-- C23: `getData` calls the data function on the stack with one more frame, in
which no unit is active, and releases one frame whether the function returns or
throws. When the data function leaves the stack as it found it, the stack after
`getData` is the stack before it. When the function returns `v`, `getData`
returns `v` and nothing goes to `handleError`; when it throws `e`, `e` goes to
`handleError` and `getData` returns the empty object. -/
theorem getData_restores_stack (data : EvalStack → EvalStack × Outcome) (s : DataState) :
    activeUnit (pushTarget s.stack none) = none ∧
    (getData data s).1.stack = popTarget (data (pushTarget s.stack none)).1 ∧
    ((data (pushTarget s.stack none)).1 = pushTarget s.stack none →
      (getData data s).1.stack = s.stack) ∧
    (∀ v, (data (pushTarget s.stack none)).2 = .returns v →
      (getData data s).2 = .value v ∧ (getData data s).1.handled = s.handled) ∧
    (∀ e, (data (pushTarget s.stack none)).2 = .throws e →
      (getData data s).2 = .emptyObject ∧ (getData data s).1.handled = s.handled ++ [e]) := by
  have hst : (getData data s).1.stack = popTarget (data (pushTarget s.stack none)).1 := by
    unfold getData
    cases h : (data (pushTarget s.stack none)).2 <;> simp only [h]
  refine ⟨activeUnit_pushTarget _ _, hst, fun hbal => ?_, fun v hv => ?_, fun e he => ?_⟩
  · rw [hst, hbal, popTarget_pushTarget]
  · unfold getData
    simp [hv]
  · unfold getData
    simp [he]

theorem getData_restores_stack_witness :
    (getData (fun st => (st, .throws (.str "boom"))) { stack := [some 3], handled := [] }).2 =
        .emptyObject ∧
      (getData (fun st => (st, .throws (.str "boom")))
        { stack := [some 3], handled := [] }).1.handled = [] ++ [.str "boom"] :=
  (getData_restores_stack (fun st => (st, .throws (.str "boom")))
    { stack := [some 3], handled := [] }).2.2.2.2 (.str "boom") rfl

/-! ## `$emit` -/

theorem invoke_log (body : Nat → List Val → Registry → Registry) (args : List Val) :
    ∀ (cb : Listener) (st : Registry × CallLog),
      (invoke body cb args st).2 = st.2 ++ [(cb.core, args)] := by
  intro cb
  induction cb with
  | fn id => intro st; rfl
  | once w e f ih => intro st; simp only [invoke, ih, Listener.core]

theorem foldl_invoke_log (body : Nat → List Val → Registry → Registry) (args : List Val) :
    ∀ (cbs : List Listener) (st : Registry × CallLog),
      (cbs.foldl (fun st cb => invoke body cb args st) st).2 =
        st.2 ++ cbs.map (fun cb => (cb.core, args)) := by
  intro cbs
  induction cbs with
  | nil => intro st; simp
  | cons cb rest ih =>
    intro st
    simp only [List.foldl_cons, ih, invoke_log, List.map_cons, List.append_assoc,
      List.singleton_append]

/-- C25: `$emit(event, ...args)` calls the handlers that are registered for the
event at the moment of the call, each registration once, in the order of
registration, with the arguments given, whatever the handlers do to the
registry when they run (removing themselves or others, adding handlers); it
calls nothing else, so no handler of another event. -/
theorem emit_calls_registered (body : Nat → List Val → Registry → Registry) (r : Registry)
    (event : String) (args : List Val) (log : CallLog) :
    (r.emit body event args log).2 = log ++ (r.events event).map (fun cb => (cb.core, args)) := by
  unfold Registry.emit
  rw [foldl_invoke_log]

theorem emit_calls_registered_witness :
    (sampleRegistry.emit
      (fun id _ r => if id = 0 then (r.off (some "e") (some (.fn 1))).on "e" (.fn 2) else r)
      "e" [.num 7] []).2 = [] ++ [(0, [.num 7]), (1, [.num 7])] :=
  emit_calls_registered _ sampleRegistry "e" [.num 7] []

/-! ## `$off` -/

theorem offLoop_spec (cbs : List Listener) (x : Listener) : ∀ (i : Nat),
    (offLoop cbs x i = cbs ∧ ∀ j cb, j < i → cbs[j]? = some cb → cb.matches x = false) ∨
    ∃ k cb, k < i ∧ cbs[k]? = some cb ∧ cb.matches x = true ∧
      (∀ j cb', k < j → j < i → cbs[j]? = some cb' → cb'.matches x = false) ∧
      offLoop cbs x i = cbs.eraseIdx k := by
  intro i
  induction i with
  | zero => exact .inl ⟨rfl, fun j cb hj => by omega⟩
  | succ i ih =>
    simp only [offLoop]
    cases hi : cbs[i]? with
    | none =>
      dsimp only
      rcases ih with ⟨h1, h2⟩ | ⟨k, cb, hk, hget, hm, hlast, hres⟩
      · refine .inl ⟨h1, fun j cb hj hget => ?_⟩
        by_cases hji : j = i
        · subst hji; rw [hi] at hget; cases hget
        · exact h2 j cb (by omega) hget
      · refine .inr ⟨k, cb, by omega, hget, hm, fun j cb' hkj hj hget' => ?_, hres⟩
        by_cases hji : j = i
        · subst hji; rw [hi] at hget'; cases hget'
        · exact hlast j cb' hkj (by omega) hget'
    | some c =>
      dsimp only
      by_cases hm : c.matches x = true
      · rw [if_pos hm]
        exact .inr ⟨i, c, by omega, hi, hm, fun j cb' hkj hj => by omega, rfl⟩
      · rw [if_neg hm]
        have hm' : c.matches x = false := by simpa using hm
        rcases ih with ⟨h1, h2⟩ | ⟨k, cb, hk, hget, hmk, hlast, hres⟩
        · refine .inl ⟨h1, fun j cb hj hget => ?_⟩
          by_cases hji : j = i
          · subst hji; rw [hi] at hget; cases hget; exact hm'
          · exact h2 j cb (by omega) hget
        · refine .inr ⟨k, cb, by omega, hget, hmk, fun j cb' hkj hj hget' => ?_, hres⟩
          by_cases hji : j = i
          · subst hji; rw [hi] at hget'; cases hget'; exact hm'
          · exact hlast j cb' hkj (by omega) hget'

theorem offLoop_cases (cbs : List Listener) (x : Listener) :
    (offLoop cbs x cbs.length = cbs ∧ ∀ cb ∈ cbs, cb.matches x = false) ∨
    ∃ pre cb post, cbs = pre ++ cb :: post ∧ cb.matches x = true ∧
      (∀ y ∈ post, y.matches x = false) ∧ offLoop cbs x cbs.length = pre ++ post := by
  rcases offLoop_spec cbs x cbs.length with ⟨h1, h2⟩ | ⟨k, cb, hk, hget, hm, hlast, hres⟩
  · refine .inl ⟨h1, fun cb hcb => ?_⟩
    obtain ⟨j, hj, hget⟩ := List.getElem_of_mem hcb
    exact h2 j cb hj (by rw [List.getElem?_eq_getElem hj, hget])
  · have hcb : cbs[k] = cb := by
      rw [List.getElem?_eq_getElem hk] at hget
      exact Option.some.inj hget
    refine .inr ⟨cbs.take k, cb, cbs.drop (k + 1), ?_, hm, fun y hy => ?_, ?_⟩
    · rw [← hcb, List.getElem_cons_drop _ _ hk, List.take_append_drop]
    · obtain ⟨j, hj, hget'⟩ := List.getElem_of_mem hy
      rw [List.length_drop] at hj
      rw [List.getElem_drop] at hget'
      exact hlast (k + 1 + j) y (by omega) (by omega)
        (by rw [List.getElem?_eq_getElem (by omega), hget'])
    · rw [hres, List.eraseIdx_eq_take_drop_succ]

theorem matches_iff (cb x : Listener) :
    cb.matches x = true ↔ cb = x ∨ ∃ w e, cb = .once w e x := by
  unfold Listener.matches
  cases cb with
  | fn id => simp
  | once w e f =>
    simp only [Bool.or_eq_true, beq_iff_eq]
    constructor
    · rintro (h | h)
      · exact .inl h
      · exact .inr ⟨w, e, by rw [h]⟩
    · rintro (h | ⟨w', e', h⟩)
      · exact .inl h
      · cases h; exact .inr rfl

/-- C27: `$off(event, fn)` leaves the handlers of every other event as they
are. When no handler of the event is `fn` or a wrapper of `$once` around `fn`,
it changes nothing; otherwise it removes the last such handler, one
registration, and keeps the others in their order. `$off(event)` removes all
handlers of the event and only those; `$off()` removes all handlers of all
events. -/
theorem off_removes_one (r : Registry) (event : String) (fn : Listener) :
    (∀ cb, cb.matches fn = true ↔ cb = fn ∨ ∃ w e, cb = .once w e fn) ∧
    (∀ e, e ≠ event → (r.off (some event) (some fn)).events e = r.events e) ∧
    ((∀ cb ∈ r.events event, cb.matches fn = false) →
      (r.off (some event) (some fn)).events event = r.events event) ∧
    ((∃ cb ∈ r.events event, cb.matches fn = true) →
      ∃ pre cb post, r.events event = pre ++ cb :: post ∧ cb.matches fn = true ∧
        (∀ y ∈ post, y.matches fn = false) ∧
        (r.off (some event) (some fn)).events event = pre ++ post) ∧
    ((r.off (some event) none).events event = [] ∧
      ∀ e, e ≠ event → (r.off (some event) none).events e = r.events e) ∧
    (∀ e, (r.off none none).events e = []) := by
  have hev : (r.off (some event) (some fn)).events event =
      offLoop (r.events event) fn (r.events event).length := by
    simp [Registry.off]
  refine ⟨fun cb => matches_iff cb fn, fun e he => by simp [Registry.off, Function.update, he],
    fun hno => ?_, fun hsome => ?_, ⟨by simp [Registry.off], fun e he => by
      simp [Registry.off, Function.update, he]⟩, fun e => rfl⟩
  · rw [hev]
    rcases offLoop_cases (r.events event) fn with ⟨h1, _⟩ | ⟨pre, cb, post, hc, hm, _, _⟩
    · exact h1
    · have := hno cb (by rw [hc]; simp)
      rw [hm] at this
      cases this
  · rw [hev]
    rcases offLoop_cases (r.events event) fn with ⟨_, h2⟩ | h
    · obtain ⟨cb, hcb, hm⟩ := hsome
      rw [h2 cb hcb] at hm
      cases hm
    · exact h

theorem off_removes_one_witness :
    ∃ pre cb post, sampleRegistry.events "e" = pre ++ cb :: post ∧
      cb.matches (.fn 1) = true ∧ (∀ y ∈ post, y.matches (.fn 1) = false) ∧
      (sampleRegistry.off (some "e") (some (.fn 1))).events "e" = pre ++ post :=
  (off_removes_one sampleRegistry "e" (.fn 1)).2.2.2.1 ⟨.fn 1, by decide, by decide⟩

/-! ## `$once` -/

theorem matches_core {cb x : Listener} (h : cb.matches x = true) : cb.core = x.core := by
  rcases (matches_iff cb x).1 h with rfl | ⟨w, e, rfl⟩
  · rfl
  · rfl

theorem offLoop_sublist (cbs : List Listener) (x : Listener) :
    (offLoop cbs x cbs.length).Sublist cbs := by
  rcases offLoop_cases cbs x with ⟨h1, _⟩ | ⟨pre, cb, post, hc, _, _, hres⟩
  · rw [h1]
  · rw [hres, hc]
    exact List.Sublist.append (List.Sublist.refl _) (List.sublist_cons_self _ _)

theorem wraps_off_sublist (c : Nat) (r : Registry) (event : String) (x : Listener) (e : String) :
    (wraps c ((r.off (some event) (some x)).events e)).Sublist (wraps c (r.events e)) := by
  unfold wraps
  apply List.Sublist.filter
  by_cases he : e = event
  · subst he
    simp only [Registry.off, Function.update_same]
    exact offLoop_sublist _ _
  · simp [Registry.off, Function.update, he]

theorem invoke_wraps_sublist (body : Nat → List Val → Registry → Registry) (c : Nat)
    (hbody : ∀ id a r e, (wraps c ((body id a r).events e)).Sublist (wraps c (r.events e)))
    (args : List Val) :
    ∀ (cb : Listener) (st : Registry × CallLog) (e : String),
      (wraps c ((invoke body cb args st).1.events e)).Sublist (wraps c (st.1.events e)) := by
  intro cb
  induction cb with
  | fn id => intro st e; exact hbody id args st.1 e
  | once w ev f ih =>
    intro st e
    simp only [invoke]
    exact (ih _ e).trans (wraps_off_sublist c st.1 ev _ e)

theorem foldl_invoke_wraps (body : Nat → List Val → Registry → Registry) (c : Nat)
    (hbody : ∀ id a r e, (wraps c ((body id a r).events e)).Sublist (wraps c (r.events e)))
    (args : List Val) :
    ∀ (cbs : List Listener) (st : Registry × CallLog) (e : String),
      (wraps c ((cbs.foldl (fun st cb => invoke body cb args st) st).1.events e)).Sublist
        (wraps c (st.1.events e)) := by
  intro cbs
  induction cbs with
  | nil => intro st e; exact List.Sublist.refl _
  | cons cb rest ih =>
    intro st e
    simp only [List.foldl_cons]
    exact (ih _ e).trans (invoke_wraps_sublist body c hbody args cb st e)

theorem wraps_append (c : Nat) (l1 l2 : List Listener) :
    wraps c (l1 ++ l2) = wraps c l1 ++ wraps c l2 := by
  simp [wraps]

theorem off_removes_wrapper (r : Registry) (w : Nat) (event : String) (fn : Listener)
    (h : (wraps fn.core (r.events event)).Sublist [.once w event fn]) :
    wraps fn.core ((r.off (some event) (some (.once w event fn))).events event) = [] := by
  have hev : (r.off (some event) (some (.once w event fn))).events event =
      offLoop (r.events event) (.once w event fn) (r.events event).length := by
    simp [Registry.off]
  rw [hev]
  rcases offLoop_cases (r.events event) (.once w event fn) with
    ⟨h1, h2⟩ | ⟨pre, cb, post, hc, hm, _, hres⟩
  · rw [h1]
    apply List.eq_nil_iff_forall_not_mem.2
    intro y hy
    have hyw : y = .once w event fn := by simpa using h.subset hy
    have hmem : y ∈ r.events event := (List.mem_filter.1 hy).1
    have := h2 y hmem
    rw [hyw] at this
    simp [Listener.matches] at this
  · rw [hres, wraps_append]
    have hcore0 : cb.core = (Listener.once w event fn).core := matches_core hm
    have hcore : cb.core = fn.core := hcore0
    rw [hc, wraps_append] at h
    have hcons : wraps fn.core (cb :: post) = cb :: wraps fn.core post := by
      simp [wraps, hcore]
    rw [hcons] at h
    have hlen := h.length_le
    simp only [List.length_append, List.length_cons, List.length_nil] at hlen
    have h1 : wraps fn.core pre = [] := List.length_eq_zero.1 (by omega)
    have h2 : wraps fn.core post = [] := List.length_eq_zero.1 (by omega)
    rw [h1, h2]
    rfl

theorem sublist_nil_of {l l' : List Listener} (h : l.Sublist l') (h' : l' = []) : l = [] := by
  subst h'
  exact List.sublist_nil.1 h

theorem callsOf_append (c : Nat) (l1 l2 : CallLog) :
    callsOf c (l1 ++ l2) = callsOf c l1 ++ callsOf c l2 := by
  simp [callsOf]

theorem callsOf_map (c : Nat) (args : List Val) (cbs : List Listener) :
    callsOf c (cbs.map (fun cb => (cb.core, args))) =
      (wraps c cbs).map (fun cb => (cb.core, args)) := by
  induction cbs with
  | nil => rfl
  | cons cb rest ih =>
    by_cases h : cb.core = c
    · simp only [callsOf, wraps, List.map_cons, List.filter_cons, h, beq_self_eq_true, if_true]
        at ih ⊢
      rw [ih]
    · have hb : (cb.core == c) = false := by simpa using h
      simp only [callsOf, wraps, List.map_cons, List.filter_cons, hb, Bool.false_eq_true,
        if_false] at ih ⊢
      exact ih

theorem emit_quiet (body : Nat → List Val → Registry → Registry) (c : Nat)
    (hbody : ∀ id a r e, (wraps c ((body id a r).events e)).Sublist (wraps c (r.events e)))
    (r : Registry) (event : String) (args : List Val) (log : CallLog)
    (hk : ∀ e, wraps c (r.events e) = []) :
    (∀ e, wraps c ((r.emit body event args log).1.events e) = []) ∧
    callsOf c (r.emit body event args log).2 = callsOf c log := by
  refine ⟨fun e => sublist_nil_of (foldl_invoke_wraps body c hbody args _ (r, log) e) (hk e), ?_⟩
  unfold Registry.emit
  rw [foldl_invoke_log, callsOf_append, callsOf_map, hk event]
  simp

theorem emitAll_quiet (body : Nat → List Val → Registry → Registry) (c : Nat)
    (hbody : ∀ id a r e, (wraps c ((body id a r).events e)).Sublist (wraps c (r.events e))) :
    ∀ (later : List (String × List Val)) (st : Registry × CallLog),
      (∀ e, wraps c (st.1.events e) = []) →
      (∀ e, wraps c ((emitAll body st later).1.events e) = []) ∧
      callsOf c (emitAll body st later).2 = callsOf c st.2 := by
  intro later
  induction later with
  | nil => intro st hk; exact ⟨hk, rfl⟩
  | cons x rest ih =>
    intro st hk
    obtain ⟨h1, h2⟩ := emit_quiet body c hbody st.1 x.1 x.2 st.2 hk
    obtain ⟨h3, h4⟩ := ih _ h1
    simp only [emitAll]
    exact ⟨h3, h4.trans h2⟩

theorem once_events (r : Registry) (event : String) (fn : Listener) :
    (r.once event fn).events event = r.events event ++ [.once r.nextOnce event fn] ∧
    ∀ e, e ≠ event → (r.once event fn).events e = r.events e := by
  constructor
  · simp [Registry.once, Registry.on]
  · intro e he
    simp [Registry.once, Registry.on, Function.update, he]

theorem first_emit_quiet (body : Nat → List Val → Registry → Registry) (r : Registry)
    (event : String) (fn : Listener) (args : List Val) (log : CallLog)
    (hreg : ∀ e, wraps fn.core (r.events e) = [])
    (hbody : ∀ id a r' e,
      (wraps fn.core ((body id a r').events e)).Sublist (wraps fn.core (r'.events e))) :
    (∀ e, wraps fn.core (((r.once event fn).emit body event args log).1.events e) = []) ∧
    callsOf fn.core ((r.once event fn).emit body event args log).2 =
      callsOf fn.core log ++ [(fn.core, args)] := by
  obtain ⟨hev, hother⟩ := once_events r event fn
  have hw : wraps fn.core [Listener.once r.nextOnce event fn] =
      [Listener.once r.nextOnce event fn] := by
    simp [wraps, Listener.core]
  constructor
  · intro e
    unfold Registry.emit
    rw [hev, List.foldl_append]
    simp only [List.foldl_cons, List.foldl_nil, invoke]
    have h0 := foldl_invoke_wraps body fn.core hbody args (r.events event)
      (r.once event fn, log)
    apply sublist_nil_of (invoke_wraps_sublist body fn.core hbody args fn _ e)
    by_cases he : e = event
    · subst he
      apply off_removes_wrapper
      have := h0 e
      rw [hev, wraps_append, hreg e, hw] at this
      exact this
    · apply sublist_nil_of (wraps_off_sublist fn.core _ event _ e)
      apply sublist_nil_of (h0 e)
      show wraps fn.core ((r.once event fn).events e) = []
      rw [hother e he]
      exact hreg e
  · unfold Registry.emit
    rw [foldl_invoke_log, callsOf_append, callsOf_map, hev, wraps_append, hreg event, hw]
    rfl

/-- Where no handler emits an event: after `$once(event, fn)`, where no other
registration calls `fn` and no
handler registers one, the first `$emit` of the event calls `fn` exactly once,
with the arguments of that emit, and leaves the wrapper registered for no
event; every sequence of later emits calls `fn` no more. -/
theorem once_runs_once (body : Nat → List Val → Registry → Registry) (r : Registry)
    (event : String) (fn : Listener) (args : List Val) (log : CallLog)
    (later : List (String × List Val))
    (hreg : ∀ e, wraps fn.core (r.events e) = [])
    (hbody : ∀ id a r' e,
      (wraps fn.core ((body id a r').events e)).Sublist (wraps fn.core (r'.events e))) :
    (r.once event fn).events event = r.events event ++ [.once r.nextOnce event fn] ∧
    (∀ e, Listener.once r.nextOnce event fn ∉
      ((r.once event fn).emit body event args log).1.events e) ∧
    callsOf fn.core ((r.once event fn).emit body event args log).2 =
      callsOf fn.core log ++ [(fn.core, args)] ∧
    (∀ e, Listener.once r.nextOnce event fn ∉
      (emitAll body ((r.once event fn).emit body event args log) later).1.events e) ∧
    callsOf fn.core (emitAll body ((r.once event fn).emit body event args log) later).2 =
      callsOf fn.core log ++ [(fn.core, args)] := by
  obtain ⟨h1, h2⟩ := first_emit_quiet body r event fn args log hreg hbody
  obtain ⟨h3, h4⟩ := emitAll_quiet body fn.core hbody later _ h1
  have hnot : ∀ (l : List Listener), wraps fn.core l = [] →
      Listener.once r.nextOnce event fn ∉ l := by
    intro l hl hmem
    have : Listener.once r.nextOnce event fn ∈ wraps fn.core l :=
      List.mem_filter.2 ⟨hmem, by simp [Listener.core]⟩
    rw [hl] at this
    cases this
  exact ⟨(once_events r event fn).1, fun e => hnot _ (h1 e), h2, fun e => hnot _ (h3 e),
    h4.trans h2⟩

theorem once_runs_once_witness :
    callsOf 5 (emitAll (fun _ _ r => r)
      ((sampleRegistry.once "e" (.fn 5)).emit (fun _ _ r => r) "e" [.num 1] [])
      [("e", [.num 2]), ("e", [.num 3])]).2 = callsOf 5 [] ++ [(5, [.num 1])] :=
  (once_runs_once (fun _ _ r => r) sampleRegistry "e" (.fn 5) [.num 1] []
    [("e", [.num 2]), ("e", [.num 3])]
    (fun e => by by_cases h : e = "e" <;> simp [sampleRegistry, wraps, Listener.core, h])
    (fun _ _ _ _ => List.Sublist.refl _)).2.2.2.2

/-! ## `$once` under an emit inside an emit -/

theorem runActs_quiet
    (emitF : String → List Val → Registry × CallLog → Except Err (Registry × CallLog)) :
    ∀ (acts : List Act) (st : Registry × CallLog), (∀ a ∈ acts, a.isEmit = false) →
      runActs emitF acts st =
        .ok (acts.foldl
          (fun r1 act =>
            match act with
            | .on e f => r1.on e f
            | .once e f => r1.once e f
            | .off e f => r1.off e f
            | .emit _ _ => r1) st.1, st.2) := by
  intro acts
  induction acts with
  | nil => intro st _; rfl
  | cons a rest ih =>
    intro st h
    have hr : ∀ x ∈ rest, x.isEmit = false := fun x hx => h x (List.mem_cons_of_mem _ hx)
    cases a <;>
      first
      | (simp only [runActs, List.foldl_cons]; exact ih _ hr)
      | exact absurd (h _ (List.mem_cons_self _ _)) (by simp [Act.isEmit])

theorem invokeWith_quiet (prog : Nat → List Val → List Act)
    (emitF : String → List Val → Registry × CallLog → Except Err (Registry × CallLog))
    (hq : ∀ id args, ∀ a ∈ prog id args, a.isEmit = false) :
    ∀ (cb : Listener) (args : List Val) (st : Registry × CallLog),
      invokeWith prog emitF cb args st = .ok (invoke (bodyOf prog) cb args st) := by
  intro cb
  induction cb with
  | fn id =>
    intro args st
    simp only [invokeWith, invoke, bodyOf]
    exact runActs_quiet emitF _ _ (hq id args)
  | once w e f ih =>
    intro args st
    simp only [invokeWith, invoke]
    exact ih args _

theorem emitLoop_quiet (prog : Nat → List Val → List Act)
    (emitF : String → List Val → Registry × CallLog → Except Err (Registry × CallLog))
    (hq : ∀ id args, ∀ a ∈ prog id args, a.isEmit = false) (args : List Val) :
    ∀ (cbs : List Listener) (st : Registry × CallLog),
      emitLoop prog emitF args cbs st =
        .ok (cbs.foldl (fun st1 cb => invoke (bodyOf prog) cb args st1) st) := by
  intro cbs
  induction cbs with
  | nil => intro st; rfl
  | cons cb rest ih =>
    intro st
    simp only [emitLoop, invokeWith_quiet prog emitF hq, List.foldl_cons]
    exact ih _

/-- Where no function of the user emits, `$emit` is the loop over the handlers
in which a handler has its effect on the registry only. -/
theorem emitDeep_quiet (prog : Nat → List Val → List Act)
    (hq : ∀ id args, ∀ a ∈ prog id args, a.isEmit = false) (fuel : Nat) (event : String)
    (args : List Val) (r : Registry) (log : CallLog) :
    emitDeep prog (fuel + 1) event args (r, log) =
      .ok (r.emit (bodyOf prog) event args log) := by
  simp only [emitDeep, Registry.emit]
  exact emitLoop_quiet prog _ hq args _ _

/-- C26 (a defect of the code): a handler registered with `$once` can run
twice. With `g` registered before `$once("e", fn)`, where `g` unregisters
itself and emits `"e"` again, the one call `$emit("e")` runs `g`, whose emit
runs the wrapper (it unregisters itself and calls `fn`), and then goes on over
its copy of the handlers, which still holds the wrapper, and calls `fn` again.
Afterwards no handler is left for `"e"`. -/
theorem once_runs_twice :
    ((Registry.empty.on "e" (.fn 0)).once "e" (.fn 1)).events "e" =
      [.fn 0, .once 0 "e" (.fn 1)] ∧
    ∃ r log, emitDeep sampleReemit 2 "e" []
        ((Registry.empty.on "e" (.fn 0)).once "e" (.fn 1), []) = .ok (r, log) ∧
      log = [(0, []), (1, []), (1, [])] ∧
      callsOf 1 log = [(1, []), (1, [])] ∧
      r.events "e" = [] :=
  ⟨by decide, _, _, rfl, rfl, by decide, by decide⟩

end Vue
